import Mathlib

/-!
# Verification of the `integration-core` delta-synchronization engine

A shallow embedding, in Lean 4, of the delta core of the `integration-core`
TypeScript repository, together with proofs and refutations of the
specification's testable properties.

Conventions used throughout:

* JavaScript runtime values are modelled by the inductive type `Integ.JSV`;
  numbers are modelled by `Int` (no claim below depends on non-integral
  numbers), strings by `String`.
* A TypeScript `Field` (`{ [key: string]: FieldValue }`) is a list of
  key/value entries in property-creation order; a real JS object never holds
  two entries with the same key.
* `undefined`-or-absent optional members (`hash?`, `validationMessages?`)
  are modelled by `Option`.
* JavaScript `Map` values are distinguished from plain objects by the
  `VMsgs` type: the distinction is observable (`Map.size`, `Map.get`) and
  matters for the NDJSON round-trip property.
* In-place mutation (`Array.prototype.sort`, `splice`, element assignment)
  is modelled by explicit state passing: each mutating operation is a
  function from the old array to the new one.
* `throw` is modelled by `Except String`.
* The SHA-256 digest itself is not modelled: `sha256hex` is an injective
  placeholder (the identity).  No claim below depends on the digest's value,
  only on the serialization feeding it, on failure behaviour, and on
  mutation of the argument.
-/

namespace Integ

/-- JavaScript runtime values as they occur in the TypeScript union
`FieldValue = string | number | boolean | Array<...> | { [key: string]: FieldValue } | undefined`
(from `src/InputTypes.ts`), extended with `null` which JS permits at runtime. -/
inductive JSV where
  | undef
  | null
  | boolean (b : Bool)
  | num (n : Int)
  | str (s : String)
  | arr (elems : List JSV)
  | obj (entries : List (String × JSV))

/-- A TypeScript `Field` value: a JS object, modelled as its entry list in
property order.  In the repository every `Field` is a singleton `{name: value}`. -/
abbrev Field := List (String × JSV)

/-- A JavaScript validation-messages attachment.  `jsMap` is a genuine
`Map<string, string>`; `jsObj` is a plain object of the same entries, which is
what `JSON.parse` produces when a serialized `Map` is read back.  Only a
`jsMap` responds to `.size` and `.get`. -/
inductive VMsgs where
  | jsMap (entries : List (String × String))
  | jsObj (entries : List (String × String))
deriving DecidableEq

/-- The `FieldSet` record type of `src/InputTypes.ts`:
`{ fieldValues: Field[]; validationMessages?: Map<string,string>; hash?: string }`. -/
structure FieldSet where
  fieldValues : List Field
  validationMessages : Option VMsgs := none
  hash : Option String := none

/-- `Object.keys(f)[0]` — the first property name of a field, `undefined`
(here: `none`) for an empty object. -/
def fieldFirstKey (f : Field) : Option String := f.head?.map (·.1)

/-- `Object.values(f)[0]` — the first property value of a field; JS yields
`undefined` for an empty object. -/
def fieldFirstVal (f : Field) : JSV := ((f.head?.map (·.2)).getD .undef)

/-- `key in f` — JS property-membership test. -/
def fieldHasKey (f : Field) (k : String) : Bool := f.any (·.1 == k)

/-- `f[k]` — JS property access; `none` models `undefined` for a missing key. -/
def fieldGet (f : Field) (k : String) : Option JSV := (f.find? (·.1 == k)).map (·.2)

/-- JS strict equality `===` on `FieldValue`s.  Primitives compare by value;
two composite values originating from different records are distinct object
references and compare unequal (in the embedded code `===` is only ever
applied to values drawn from two different records, so reference equality of
composites never holds). -/
def jsStrictEq : JSV → JSV → Bool
  | .undef, .undef => true
  | .null, .null => true
  | .boolean a, .boolean b => a == b
  | .num a, .num b => a == b
  | .str a, .str b => a == b
  | _, _ => false

/-- JS truthiness of an optional string (`undefined` and `''` are falsy). -/
def strTruthy : Option String → Bool
  | some s => s ≠ ""
  | none => false

mutual

/-- Stringification used by `Array.prototype.join`: `undefined` and `null`
become the empty string, primitives their canonical text, arrays join with
`,`, objects become `"[object Object]"`. -/
def joinElemStr : JSV → String
  | .undef => ""
  | .null => ""
  | .boolean b => if b then "true" else "false"
  | .num n => toString n
  | .str s => s
  | .arr xs => String.intercalate "," (joinElemStrList xs)
  | .obj _ => "[object Object]"

/-- Elementwise `joinElemStr` over an array's elements. -/
def joinElemStrList : List JSV → List String
  | [] => []
  | x :: xs => joinElemStr x :: joinElemStrList xs

end

/-- Byte-wise (code-point) comparison of strings, kernel-computable.  Models
the string ordering used by `Array.prototype.sort()` on keys and (for the
default locale, ASCII keys) `String.prototype.localeCompare`. -/
def strLeCode (a b : String) : Bool := go a.data b.data where
  go : List Char → List Char → Bool
    | [], _ => true
    | _ :: _, [] => false
    | c :: cs, d :: ds =>
      if c.toNat < d.toNat then true
      else if d.toNat < c.toNat then false
      else go cs ds

/-! ## `src/Hash.ts` — canonical serialization and fingerprint -/

/-- The error thrown by `serializeValue` when the depth bound is exceeded
(`DepthExceeded` in the specification's vocabulary). -/
def depthErrorMsg : String :=
  "Maximum recursion depth (10) exceeded during value serialization"

/-- Stable sort of `(key, serialized)` pairs by key.  `serializeValue` sorts
an object's keys before serializing; since JS objects never repeat a key,
sorting the pairs after serializing the values is observably identical (the
same string results, and the depth error, when hit, carries the same
message). -/
def sortPairsByKey (l : List (String × String)) : List (String × String) :=
  List.insertionSort (fun a b => strLeCode a.1 b.1 = true) l

mutual

/-- `serializeValue` of `src/Hash.ts`: recursively serialize a `FieldValue`
to a consistent string, failing once the recursion depth passes `maxDepth = 10`. -/
def serializeValue : JSV → Nat → Except String String
  | v, depth =>
    if depth > 10 then .error depthErrorMsg
    else match v with
      | .undef => .ok ""
      | .null => .ok ""
      | .str s => .ok s
      | .num n => .ok (toString n)
      | .boolean b => .ok (if b then "true" else "false")
      | .arr xs => (serializeList xs (depth + 1)).map (String.intercalate ",")
      | .obj es => (serializeEntries es (depth + 1)).map fun parts =>
          String.intercalate ";" ((sortPairsByKey parts).map fun p => p.1 ++ ":" ++ p.2)

/-- `value.map(item => serializeValue(item, depth, maxDepth))` over an array,
propagating the first failure. -/
def serializeList : List JSV → Nat → Except String (List String)
  | [], _ => .ok []
  | x :: xs, depth => do pure ((← serializeValue x depth) :: (← serializeList xs depth))

/-- Serialization of an object's entries (keys kept, values serialized),
propagating the first failure. -/
def serializeEntries : List (String × JSV) → Nat → Except String (List (String × String))
  | [], _ => .ok []
  | (k, v) :: es, depth => do pure ((k, ← serializeValue v depth) :: (← serializeEntries es depth))

end

/-- The sort key used by `hash`'s in-place sort: `Object.keys(a)[0]`.  The
repository only sorts records whose fields are non-empty objects (a JS
`localeCompare` on `undefined` would throw); the `""` default is never
exercised under that precondition. -/
def sortKeyOf (f : Field) : String := (fieldFirstKey f).getD ""

/-- The comparator relation of `fieldSet.fieldValues.sort((a, b) => aKey.localeCompare(bKey))`. -/
def fieldKeyLe (a b : Field) : Prop := strLeCode (sortKeyOf a) (sortKeyOf b) = true

instance : DecidableRel fieldKeyLe := fun a b =>
  inferInstanceAs (Decidable (strLeCode (sortKeyOf a) (sortKeyOf b) = true))

/-- The in-place sort that `hash(fieldSet, sort = true)` performs on its
argument's `fieldValues` (JS `Array.prototype.sort` is stable, as is
insertion sort). -/
def sortFieldValues (l : List Field) : List Field :=
  List.insertionSort fieldKeyLe l

/-- The state of `hash`'s `fieldSet` argument after the call returns (or
throws): with `sort = true` the `fieldValues` array has been permanently
re-ordered in place; with `sort = false` it is untouched. -/
def hashInput (fieldSet : FieldSet) (sort : Bool) : FieldSet :=
  if sort then { fieldSet with fieldValues := sortFieldValues fieldSet.fieldValues } else fieldSet

/-- `fieldSet.fieldValues.map(f => Object.values(f)[0]).map(v => serializeValue(v)).join('|')`. -/
def serializeFieldValues (l : List Field) : Except String String :=
  (serializeList (l.map fieldFirstVal) 0).map (String.intercalate "|")

/-- Placeholder for the SHA-256 hex digest (injective; its value is
irrelevant to every claim below). -/
def sha256hex (s : String) : String := s

/-- `hash` of `src/Hash.ts`: the value returned (or the exception thrown).
The post-call state of the argument is `hashInput fieldSet sort`. -/
def hashFieldSet (fieldSet : FieldSet) (sort : Bool := false) : Except String String :=
  (serializeFieldValues (hashInput fieldSet sort).fieldValues).map sha256hex

mutual

/-- Nesting depth of a value: a primitive (or empty composite) contributes 0,
each surrounding array/object adds one level. -/
def nestingDepth : JSV → Nat
  | .undef => 0
  | .null => 0
  | .boolean _ => 0
  | .num _ => 0
  | .str _ => 0
  | .arr xs => nestingDepthList xs
  | .obj es => nestingDepthEntries es

/-- Depth contributed by an array's elements. -/
def nestingDepthList : List JSV → Nat
  | [] => 0
  | x :: xs => max (nestingDepth x + 1) (nestingDepthList xs)

/-- Depth contributed by an object's entries. -/
def nestingDepthEntries : List (String × JSV) → Nat
  | [] => 0
  | (_, v) :: es => max (nestingDepth v + 1) (nestingDepthEntries es)

end

/-! ## Order facts about the key comparison -/

theorem strLeCode_go_total (as bs : List Char) :
    strLeCode.go as bs = true ∨ strLeCode.go bs as = true := by
  induction as generalizing bs with
  | nil => left; rfl
  | cons c cs ih =>
    cases bs with
    | nil => right; rfl
    | cons d ds =>
      rcases Nat.lt_trichotomy c.toNat d.toNat with h | h | h
      · left; simp [strLeCode.go, h]
      · rcases ih ds with h' | h' <;> [left; right] <;>
          simp [strLeCode.go, h, Nat.lt_irrefl, h']
      · right; simp [strLeCode.go, h]

theorem strLeCode_go_trans {as bs cs : List Char}
    (h₁ : strLeCode.go as bs = true) (h₂ : strLeCode.go bs cs = true) :
    strLeCode.go as cs = true := by
  induction as generalizing bs cs with
  | nil => rfl
  | cons a as ih =>
    cases bs with
    | nil => simp [strLeCode.go] at h₁
    | cons b bs =>
      cases cs with
      | nil => simp [strLeCode.go] at h₂
      | cons c cs =>
        simp only [strLeCode.go] at h₁ h₂ ⊢
        rcases Nat.lt_trichotomy a.toNat b.toNat with hab | hab | hab
        · rcases Nat.lt_trichotomy b.toNat c.toNat with hbc | hbc | hbc
          · simp [show a.toNat < c.toNat from hab.trans hbc]
          · simp [show a.toNat < c.toNat from hbc ▸ hab]
          · simp [show ¬ b.toNat < c.toNat by omega, show c.toNat < b.toNat from hbc] at h₂
        · simp only [show ¬ a.toNat < b.toNat by omega, if_false,
            show ¬ b.toNat < a.toNat by omega] at h₁
          rcases Nat.lt_trichotomy b.toNat c.toNat with hbc | hbc | hbc
          · simp [show a.toNat < c.toNat from hab ▸ hbc]
          · simp only [show ¬ b.toNat < c.toNat by omega, if_false,
              show ¬ c.toNat < b.toNat by omega] at h₂
            simp only [show ¬ a.toNat < c.toNat by omega, if_false,
              show ¬ c.toNat < a.toNat by omega]
            exact ih h₁ h₂
          · simp [show ¬ b.toNat < c.toNat by omega, show c.toNat < b.toNat from hbc] at h₂
        · simp [show ¬ a.toNat < b.toNat by omega, show b.toNat < a.toNat from hab] at h₁

theorem strLeCode_total (a b : String) : strLeCode a b = true ∨ strLeCode b a = true :=
  strLeCode_go_total a.data b.data

theorem strLeCode_trans {a b c : String} (h₁ : strLeCode a b = true)
    (h₂ : strLeCode b c = true) : strLeCode a c = true :=
  strLeCode_go_trans h₁ h₂

theorem fieldKeyLe_total (a b : Field) : fieldKeyLe a b ∨ fieldKeyLe b a :=
  strLeCode_total _ _

theorem fieldKeyLe_trans (a b c : Field) (h₁ : fieldKeyLe a b) (h₂ : fieldKeyLe b c) :
    fieldKeyLe a c :=
  strLeCode_trans h₁ h₂

/-! ## Depth characterization of the serialization -/

theorem isOk_map {ε α β : Type} (f : α → β) (e : Except ε α) :
    (e.map f).isOk = e.isOk := by
  cases e <;> rfl

@[simp] theorem isOk_ok {ε α : Type} (a : α) : (Except.ok a : Except ε α).isOk = true := rfl

@[simp] theorem isOk_error {ε α : Type} (e : ε) :
    (Except.error e : Except ε α).isOk = false := rfl

@[simp] theorem ok_bind {ε α β : Type} (a : α) (f : α → Except ε β) :
    (Except.ok a >>= f) = f a := rfl

@[simp] theorem error_bind {ε α β : Type} (e : ε) (f : α → Except ε β) :
    ((Except.error e : Except ε α) >>= f) = Except.error e := rfl

@[simp] theorem pure_eq_ok {ε α : Type} (a : α) : (pure a : Except ε α) = Except.ok a := rfl

@[simp] theorem map_ok {ε α β : Type} (f : α → β) (a : α) :
    (Except.ok a : Except ε α).map f = Except.ok (f a) := rfl

@[simp] theorem map_error {ε α β : Type} (f : α → β) (e : ε) :
    (Except.error e : Except ε α).map f = Except.error e := rfl

theorem nestingDepthList_le_iff (xs : List JSV) (d : Nat) (hd : d ≤ 10) :
    d + nestingDepthList xs ≤ 10 ↔ ∀ x ∈ xs, d + 1 + nestingDepth x ≤ 10 := by
  induction xs with
  | nil => simpa [nestingDepthList] using hd
  | cons x xs ih =>
    simp only [nestingDepthList, List.mem_cons, forall_eq_or_imp, ← ih]
    omega

theorem nestingDepthEntries_le_iff (es : List (String × JSV)) (d : Nat) (hd : d ≤ 10) :
    d + nestingDepthEntries es ≤ 10 ↔ ∀ e ∈ es, d + 1 + nestingDepth e.2 ≤ 10 := by
  induction es with
  | nil => simpa [nestingDepthEntries] using hd
  | cons e es ih =>
    obtain ⟨k, v⟩ := e
    simp only [nestingDepthEntries, List.mem_cons, forall_eq_or_imp, ← ih]
    omega

mutual

theorem serializeValue_isOk_iff (v : JSV) (d : Nat) :
    (serializeValue v d).isOk = true ↔ d + nestingDepth v ≤ 10 := by
  rw [serializeValue.eq_def]
  by_cases hd : d > 10
  · simp only [hd, if_true, isOk_error]
    constructor
    · intro h; cases h
    · intro h; omega
  · simp only [hd, if_false]
    have hd' : d ≤ 10 := by omega
    cases v with
    | undef => simpa [nestingDepth] using hd'
    | null => simpa [nestingDepth] using hd'
    | boolean b => simpa [nestingDepth] using hd'
    | num n => simpa [nestingDepth] using hd'
    | str s => simpa [nestingDepth] using hd'
    | arr xs =>
      rw [isOk_map, serializeList_isOk_iff xs (d + 1)]
      simpa [nestingDepth] using (nestingDepthList_le_iff xs d hd').symm
    | obj es =>
      rw [isOk_map, serializeEntries_isOk_iff es (d + 1)]
      simpa [nestingDepth] using (nestingDepthEntries_le_iff es d hd').symm

theorem serializeList_isOk_iff (xs : List JSV) (d : Nat) :
    (serializeList xs d).isOk = true ↔ ∀ x ∈ xs, d + nestingDepth x ≤ 10 := by
  cases xs with
  | nil => simp [serializeList]
  | cons x xs =>
    rw [serializeList]
    have hx := serializeValue_isOk_iff x d
    have hxs := serializeList_isOk_iff xs d
    simp only [List.mem_cons, forall_eq_or_imp, ← hx, ← hxs]
    cases hsx : serializeValue x d with
    | error e => simp
    | ok s =>
      cases hsl : serializeList xs d with
      | error e => simp
      | ok parts => simp

theorem serializeEntries_isOk_iff (es : List (String × JSV)) (d : Nat) :
    (serializeEntries es d).isOk = true ↔ ∀ e ∈ es, d + nestingDepth e.2 ≤ 10 := by
  cases es with
  | nil => simp [serializeEntries]
  | cons e es =>
    obtain ⟨k, v⟩ := e
    rw [serializeEntries]
    have hx := serializeValue_isOk_iff v d
    have hxs := serializeEntries_isOk_iff es d
    simp only [List.mem_cons, forall_eq_or_imp, ← hx, ← hxs]
    cases hsx : serializeValue v d with
    | error err => simp
    | ok s =>
      cases hsl : serializeEntries es d with
      | error err => simp
      | ok parts => simp

end

mutual

theorem serializeValue_err (v : JSV) (d : Nat) :
    (serializeValue v d).isOk = true ∨ serializeValue v d = .error depthErrorMsg := by
  rw [serializeValue.eq_def]
  by_cases hd : d > 10
  · right; simp [hd]
  · simp only [hd, if_false]
    cases v with
    | undef => left; rfl
    | null => left; rfl
    | boolean b => left; rfl
    | num n => left; rfl
    | str s => left; rfl
    | arr xs =>
      rcases serializeList_err xs (d + 1) with h | h
      · left; rwa [isOk_map]
      · right; simp only [h, map_error]
    | obj es =>
      rcases serializeEntries_err es (d + 1) with h | h
      · left; rwa [isOk_map]
      · right; simp only [h, map_error]

theorem serializeList_err (xs : List JSV) (d : Nat) :
    (serializeList xs d).isOk = true ∨ serializeList xs d = .error depthErrorMsg := by
  cases xs with
  | nil => left; rfl
  | cons x xs =>
    rw [serializeList]
    rcases serializeValue_err x d with h | h
    · cases hsx : serializeValue x d with
      | error e => rw [hsx] at h; cases h
      | ok s =>
        rcases serializeList_err xs d with h' | h'
        · cases hsl : serializeList xs d with
          | error e => rw [hsl] at h'; cases h'
          | ok parts => left; simp [hsx, hsl]
        · right; simp [hsx, h']
    · right; simp [h]

theorem serializeEntries_err (es : List (String × JSV)) (d : Nat) :
    (serializeEntries es d).isOk = true ∨ serializeEntries es d = .error depthErrorMsg := by
  cases es with
  | nil => left; rfl
  | cons e es =>
    obtain ⟨k, v⟩ := e
    rw [serializeEntries]
    rcases serializeValue_err v d with h | h
    · cases hsx : serializeValue v d with
      | error err => rw [hsx] at h; cases h
      | ok s =>
        rcases serializeEntries_err es d with h' | h'
        · cases hsl : serializeEntries es d with
          | error err => rw [hsl] at h'; cases h'
          | ok parts => left; simp [hsx, hsl]
        · right; simp [hsx, h']
    · right; simp [h]

end

theorem serializeFieldValues_isOk_iff (l : List Field) :
    (serializeFieldValues l).isOk = true ↔ ∀ f ∈ l, nestingDepth (fieldFirstVal f) ≤ 10 := by
  rw [serializeFieldValues, isOk_map, serializeList_isOk_iff]
  simp

theorem serializeFieldValues_err (l : List Field) :
    (serializeFieldValues l).isOk = true ∨ serializeFieldValues l = .error depthErrorMsg := by
  rw [serializeFieldValues]
  rcases serializeList_err (l.map fieldFirstVal) 0 with h | h
  · left; rwa [isOk_map]
  · right; rw [h]; rfl

theorem hashInput_fieldValues_perm (fs : FieldSet) (sort : Bool) :
    (hashInput fs sort).fieldValues.Perm fs.fieldValues := by
  cases sort with
  | false => exact List.Perm.refl _
  | true => exact List.perm_insertionSort fieldKeyLe fs.fieldValues

/-- **C8.**  For every record (and either sort flag), `hash` fails — and then
precisely with the `DepthExceeded` error — iff some field value of the record
is nested more than 10 levels deep; every record all of whose values are
nested to 10 levels or fewer hashes successfully. -/
theorem hash_depth_bound (fs : FieldSet) (sort : Bool) :
    (hashFieldSet fs sort = .error depthErrorMsg ↔
      ∃ f ∈ fs.fieldValues, 10 < nestingDepth (fieldFirstVal f))
    ∧ ((∀ f ∈ fs.fieldValues, nestingDepth (fieldFirstVal f) ≤ 10) →
        (hashFieldSet fs sort).isOk = true) := by
  have hperm := hashInput_fieldValues_perm fs sort
  have hmem : ∀ f, f ∈ (hashInput fs sort).fieldValues ↔ f ∈ fs.fieldValues :=
    fun f => hperm.mem_iff
  have hiff : (hashFieldSet fs sort).isOk = true ↔
      ∀ f ∈ fs.fieldValues, nestingDepth (fieldFirstVal f) ≤ 10 := by
    rw [hashFieldSet, isOk_map, serializeFieldValues_isOk_iff]
    exact ⟨fun h f hf => h f ((hmem f).mpr hf), fun h f hf => h f ((hmem f).mp hf)⟩
  constructor
  · constructor
    · intro herr
      by_contra hno
      push_neg at hno
      have := hiff.mpr hno
      rw [herr] at this
      cases this
    · intro ⟨f, hf, hdeep⟩
      rcases serializeFieldValues_err (hashInput fs sort).fieldValues with h | h
      · exfalso
        have hok : (hashFieldSet fs sort).isOk = true := by
          rw [hashFieldSet, isOk_map]; exact h
        have := hiff.mp hok f hf
        omega
      · rw [hashFieldSet, h]; rfl
  · exact fun h => hiff.mpr h

/-- An 11-levels-deep value, used by the depth-bound witness. -/
def deepVal : JSV :=
  .arr [.arr [.arr [.arr [.arr [.arr [.arr [.arr [.arr [.arr [.arr [.num 1]]]]]]]]]]]

/-- Witness for `hash_depth_bound`: an 11-levels-deep record fails with the
depth error, and a flat record hashes successfully. -/
theorem hash_depth_bound_witness :
    hashFieldSet ⟨[[("deep", deepVal)]], none, none⟩ false = .error depthErrorMsg
    ∧ (hashFieldSet ⟨[[("id", JSV.str "1")]], none, none⟩ false).isOk = true := by
  constructor
  · exact (hash_depth_bound ⟨[[("deep", deepVal)]], none, none⟩ false).1.mpr
      ⟨[("deep", deepVal)], by simp, by decide⟩
  · exact (hash_depth_bound ⟨[[("id", JSV.str "1")]], none, none⟩ false).2 (by decide)

/-- **C10.**  `hash(fieldSet, sort = true)` mutates its argument: afterwards
`fieldValues` is a permutation of the original, sorted ascending by field
name, hence different from the original whenever the original was not already
sorted; `hash(fieldSet, sort = false)` leaves the record unchanged. -/
theorem hash_sort_mutates (r : FieldSet)
    (h : ¬ List.Sorted fieldKeyLe r.fieldValues) :
    hashInput r false = r
    ∧ List.Sorted fieldKeyLe (hashInput r true).fieldValues
    ∧ (hashInput r true).fieldValues.Perm r.fieldValues
    ∧ (hashInput r true).fieldValues ≠ r.fieldValues := by
  haveI : IsTotal Field fieldKeyLe := ⟨fieldKeyLe_total⟩
  haveI : IsTrans Field fieldKeyLe := ⟨fieldKeyLe_trans⟩
  have hsorted : List.Sorted fieldKeyLe (hashInput r true).fieldValues := by
    simpa [hashInput, sortFieldValues] using
      List.sorted_insertionSort fieldKeyLe r.fieldValues
  refine ⟨rfl, hsorted, hashInput_fieldValues_perm r true, fun heq => h ?_⟩
  rwa [heq] at hsorted

/-- Witness for `hash_sort_mutates`: a two-field record with keys out of
order is re-ordered by the sorting hash call and untouched by the
non-sorting one. -/
theorem hash_sort_mutates_witness :
    hashInput ⟨[[("b", JSV.str "x")], [("a", JSV.str "y")]], none, none⟩ false
        = ⟨[[("b", JSV.str "x")], [("a", JSV.str "y")]], none, none⟩
    ∧ (hashInput ⟨[[("b", JSV.str "x")], [("a", JSV.str "y")]], none, none⟩ true).fieldValues
        ≠ [[("b", JSV.str "x")], [("a", JSV.str "y")]] := by
  have h := hash_sort_mutates ⟨[[("b", JSV.str "x")], [("a", JSV.str "y")]], none, none⟩
    (fun hs => absurd
      (List.rel_of_sorted_cons hs [("a", JSV.str "y")] (List.mem_singleton.mpr rfl))
      (by decide))
  exact ⟨h.1, h.2.2.2⟩

/-! ## `src/InputTypes.ts`, `src/InputValidation.ts`, `src/InputParser.ts` -/

/-- The schema entry `FieldDefinition` of `src/InputTypes.ts`, restricted to
the members the embedded code paths read. -/
structure FieldDefinition where
  name : String
  required : Bool := false
  isPrimaryKey : Bool := false
  defaultValue : Option JSV := none

/-- A field validator as produced by the `(fieldDef, field) => FieldValidator`
factories: `none` for a valid field, `some message` for an invalid one.
(`RowValidator` skips an invalid field whose validator carries no message,
which is the same as treating it as valid, so validity and message merge into
one `Option`.)  `InputParser.parse` is parametric in the validator. -/
abbrev FieldValidatorFn := FieldDefinition → Field → List Field → Option String

/-- `Map.set` on an association list in insertion order (re-setting a key
overwrites in place). -/
def mapSet (m : List (String × String)) (k v : String) : List (String × String) :=
  if m.any (·.1 == k) then m.map (fun p => if p.1 == k then (k, v) else p) else m ++ [(k, v)]

/-- The messages map accumulated by `RowValidator.isValid`: for each schema
definition, find the row's field whose first key is the definition's name
(else a blank `{name: undefined}` field), run the field validator on it with
the whole row as context, and record any message under the definition's name. -/
def rowValidationMessages (fieldValid : FieldValidatorFn) (defs : List FieldDefinition)
    (row : FieldSet) : List (String × String) :=
  defs.foldl (fun msgs fd =>
    let field := (row.fieldValues.find? (fun f => fieldFirstKey f == some fd.name)).getD
      [(fd.name, .undef)]
    match fieldValid fd field row.fieldValues with
    | some msg => mapSet msgs fd.name msg
    | none => msgs) []

/-- Whether a record carries a non-empty validation-messages map
(`record.validationMessages && record.validationMessages.size > 0`; a plain
object produced by `JSON.parse` has no `.size` and never passes this test). -/
def hasBlockingMessages (r : FieldSet) : Bool :=
  match r.validationMessages with
  | some (.jsMap entries) => !entries.isEmpty
  | _ => false

/-- One row of `InputParser.parse`: row-validate, then either attach the
computed fingerprint (valid row) or the messages (invalid row).
`RowValidator.isValid` writes the — possibly empty — messages map onto the
row in both cases; a pre-existing `hash` is left in place on the invalid
branch.  A fingerprint failure propagates and aborts the parse. -/
def parseRow (fieldValid : FieldValidatorFn) (defs : List FieldDefinition)
    (row : FieldSet) : Except String FieldSet :=
  let msgs := rowValidationMessages fieldValid defs row
  let row' : FieldSet := { row with validationMessages := some (.jsMap msgs) }
  if msgs.isEmpty then do
    let h ← hashFieldSet row' false
    .ok { row' with hash := some h }
  else .ok row'

/-- `InputParser.parse` over the input's field sets. -/
def parse (fieldValid : FieldValidatorFn) (defs : List FieldDefinition)
    (fieldSets : List FieldSet) : Except String (List FieldSet) :=
  fieldSets.mapM (parseRow fieldValid defs)

/-- The `required` branch of `BasicFieldValidator.isValid`
(`src/InputValidation.ts`): an absent/`null`/empty value of a required field
without a default yields the `"<name> is required"` message.  (The remaining
branches — type, email, URL, options, restrictions — are exercised by no
claim.) -/
def requiredOnlyValidator : FieldValidatorFn := fun fd field _ =>
  let v := (fieldGet field fd.name).getD .undef
  let isEmpty := jsStrictEq v .undef || jsStrictEq v .null || jsStrictEq v (.str "")
  if !fd.required && isEmpty then none
  else if fd.required && isEmpty then
    if fd.defaultValue.isSome then none else some (fd.name ++ " is required")
  else none

/-- **C7, counterexample.**  A record that enters the parser already carrying
a hash and then fails validation leaves the parser with a non-empty
validation-messages map *and* its stale hash still attached — refuting the
claim that after `InputParser.parse` every record with non-empty messages
carries no hash. -/
theorem parse_stale_hash_cex :
    parse requiredOnlyValidator [{ name := "id", required := true }]
        [⟨[], none, some "stale"⟩]
      = .ok [⟨[], some (.jsMap [("id", "id is required")]), some "stale"⟩]
    ∧ hasBlockingMessages ⟨[], some (.jsMap [("id", "id is required")]), some "stale"⟩ = true
    ∧ (⟨[], some (.jsMap [("id", "id is required")]), some "stale"⟩ : FieldSet).hash ≠ none :=
  ⟨rfl, rfl, fun h => Option.noConfusion h⟩

/-- **C7, amended.**  Restricted to inputs whose records enter the parser
without a hash (as every record produced by the mapper does), the invariant
holds: after `InputParser.parse`, every record whose validation-messages map
is non-empty carries no hash. -/
theorem parse_no_hash_for_invalid (fieldValid : FieldValidatorFn)
    (defs : List FieldDefinition) (fieldSets out : List FieldSet)
    (hin : ∀ r ∈ fieldSets, r.hash = none)
    (hout : parse fieldValid defs fieldSets = .ok out) :
    ∀ r ∈ out, hasBlockingMessages r = true → r.hash = none := by
  induction fieldSets generalizing out with
  | nil =>
    rw [parse] at hout
    simp only [List.mapM_nil, pure_eq_ok, Except.ok.injEq] at hout
    subst hout
    intro r hr
    cases hr
  | cons row rows ih =>
    rw [parse] at hout
    rw [List.mapM_cons] at hout
    cases hrow : parseRow fieldValid defs row with
    | error e => rw [hrow] at hout; cases hout
    | ok r' =>
      rw [hrow] at hout
      cases hrest : List.mapM (parseRow fieldValid defs) rows with
      | error e => rw [hrest] at hout; simp at hout
      | ok out' =>
        rw [hrest] at hout
        simp only [ok_bind, pure_eq_ok, Except.ok.injEq] at hout
        subst hout
        intro r hr hblock
        rcases List.mem_cons.mp hr with rfl | hr'
        · -- r = r' : the freshly parsed head row
          rw [parseRow] at hrow
          by_cases hmsgs : (rowValidationMessages fieldValid defs row).isEmpty
          · -- valid row: its messages map is empty, contradicting `hblock`
            simp only [hmsgs, if_true] at hrow
            cases hh : hashFieldSet
                ⟨row.fieldValues,
                  some (VMsgs.jsMap (rowValidationMessages fieldValid defs row)),
                  row.hash⟩ false with
            | error e => rw [hh] at hrow; cases hrow
            | ok hv =>
              rw [hh] at hrow
              simp only [ok_bind, Except.ok.injEq] at hrow
              subst hrow
              rw [hasBlockingMessages] at hblock
              simp only [List.isEmpty_iff] at hmsgs
              simp [hmsgs] at hblock
          · -- invalid row: the hash member is whatever it was on entry, `none`
            rw [if_neg hmsgs] at hrow
            obtain rfl : (⟨row.fieldValues,
                some (VMsgs.jsMap (rowValidationMessages fieldValid defs row)),
                row.hash⟩ : FieldSet) = r := Except.ok.inj hrow
            exact hin row (List.mem_cons_self _ _)
        · exact ih out' (fun r hr => hin r (List.mem_cons_of_mem _ hr))
            (by rw [parse]; exact hrest) r hr' hblock

/-- Witness for `parse_no_hash_for_invalid` at a concrete invalid, initially
hash-free record. -/
theorem parse_no_hash_for_invalid_witness :
    parse requiredOnlyValidator [{ name := "id", required := true }] [⟨[], none, none⟩]
      = .ok [⟨[], some (.jsMap [("id", "id is required")]), none⟩]
    ∧ (⟨[], some (.jsMap [("id", "id is required")]), none⟩ : FieldSet).hash = none := by
  refine ⟨rfl, ?_⟩
  exact parse_no_hash_for_invalid requiredOnlyValidator
    [{ name := "id", required := true }] [⟨[], none, none⟩]
    [⟨[], some (.jsMap [("id", "id is required")]), none⟩]
    (by intro r hr; rcases List.mem_singleton.mp hr with rfl; rfl) rfl
    ⟨[], some (.jsMap [("id", "id is required")]), none⟩ (List.mem_singleton.mpr rfl) rfl

/-! ## NDJSON stream codec (`NDJSONStreamProcessor.writeFieldSets` / `readFieldSets`)

The byte/line layer is a bijection between lines and JSON parse trees
(`JSON.parse ∘ JSON.stringify` is the identity on JSON-representable trees,
the writer emits exactly one line per record and the reader parses each
non-empty line), so the codec is embedded at the parse-tree level: the writer
maps each record to the tree of its serialized line, the reader maps each
tree to the `FieldSet` the unchecked cast `JSON.parse(line) as FieldSet`
yields. -/

mutual

/-- The value transformation `JSON.stringify` applies below the
`writeFieldSets` replacer (no `Map` occurs inside a `FieldValue`):
`undefined` is dropped from objects and becomes `null` inside arrays. -/
def stringifyValue : JSV → Option JSV
  | .undef => none
  | .null => some .null
  | .boolean b => some (.boolean b)
  | .num n => some (.num n)
  | .str s => some (.str s)
  | .arr xs => some (.arr (stringifyArr xs))
  | .obj es => some (.obj (stringifyObj es))

/-- Array elements under `JSON.stringify` (`undefined` → `null`). -/
def stringifyArr : List JSV → List JSV
  | [] => []
  | x :: xs => ((stringifyValue x).getD .null) :: stringifyArr xs

/-- Object entries under `JSON.stringify` (`undefined` members omitted). -/
def stringifyObj : List (String × JSV) → List (String × JSV)
  | [] => []
  | (k, v) :: es =>
    match stringifyValue v with
    | some w => (k, w) :: stringifyObj es
    | none => stringifyObj es

end

/-- The parse tree of the JSON line `writeFieldSets` emits for one record:
`JSON.stringify(fieldSet, replacer)` where the replacer drops an empty `Map`
(the member is omitted like an `undefined`) and converts a non-empty `Map`
to a plain object; a plain-object messages member passes through unchanged.
Member order follows the order in which the pipeline creates the members. -/
def writeFieldSet (fs : FieldSet) : JSV :=
  .obj (
    [("fieldValues", .arr (fs.fieldValues.map fun f => (stringifyValue (.obj f)).getD .null))]
    ++ (match fs.validationMessages with
        | some (.jsMap es) =>
          if es.isEmpty then []
          else [("validationMessages", .obj (es.map fun p => (p.1, JSV.str p.2)))]
        | some (.jsObj es) => [("validationMessages", .obj (es.map fun p => (p.1, JSV.str p.2)))]
        | none => [])
    ++ (match fs.hash with
        | some h => [("hash", .str h)]
        | none => []))

/-- `NDJSONStreamProcessor.writeFieldSets`: one line per record. -/
def writeFieldSets (fieldSets : List FieldSet) : List JSV :=
  fieldSets.map writeFieldSet

/-- Property lookup on a parsed JSON tree. -/
def objLookup : JSV → String → Option JSV
  | .obj es, k => (es.find? (·.1 == k)).map (·.2)
  | _, _ => none

/-- View a parsed JSON tree as a `Field` (the cast is unchecked in JS; a
non-object yields the empty field). -/
def castField : JSV → Field
  | .obj es => es
  | _ => []

/-- The record `readFieldSets` yields for one parsed line: `JSON.parse`
followed by the unchecked cast `as FieldSet`.  The cast transforms nothing;
this function decodes the parse tree into the `FieldSet` carrier so both
sides of the round-trip live in one type — on trees produced by
`writeFieldSet` the decoding is lossless.  Crucially, a parsed
`validationMessages` member is a plain object (`jsObj`), never a `Map`. -/
def readFieldSet (j : JSV) : FieldSet where
  fieldValues :=
    match objLookup j "fieldValues" with
    | some (.arr xs) => xs.map castField
    | _ => []
  validationMessages :=
    match objLookup j "validationMessages" with
    | some (.obj es) =>
      some (.jsObj (es.filterMap fun p =>
        match p.2 with
        | .str s => some (p.1, s)
        | _ => none))
    | _ => none
  hash :=
    match objLookup j "hash" with
    | some (.str s) => some s
    | _ => none

/-- `NDJSONStreamProcessor.readFieldSets`: parse each non-empty line. -/
def readFieldSets (lines : List JSV) : List FieldSet :=
  lines.map readFieldSet

mutual

/-- No `undefined` occurs anywhere inside the value. -/
def noUndef : JSV → Bool
  | .undef => false
  | .null => true
  | .boolean _ => true
  | .num _ => true
  | .str _ => true
  | .arr xs => noUndefArr xs
  | .obj es => noUndefObj es

/-- `noUndef` over an array's elements. -/
def noUndefArr : List JSV → Bool
  | [] => true
  | x :: xs => noUndef x && noUndefArr xs

/-- `noUndef` over an object's entries. -/
def noUndefObj : List (String × JSV) → Bool
  | [] => true
  | (_, v) :: es => noUndef v && noUndefObj es

end

mutual

theorem stringifyValue_of_noUndef (v : JSV) (h : noUndef v = true) :
    stringifyValue v = some v := by
  cases v with
  | undef => cases h
  | null => rfl
  | boolean b => rfl
  | num n => rfl
  | str s => rfl
  | arr xs =>
    rw [noUndef] at h
    rw [stringifyValue, stringifyArr_of_noUndef xs h]
  | obj es =>
    rw [noUndef] at h
    rw [stringifyValue, stringifyObj_of_noUndef es h]

theorem stringifyArr_of_noUndef (xs : List JSV) (h : noUndefArr xs = true) :
    stringifyArr xs = xs := by
  cases xs with
  | nil => rfl
  | cons x xs =>
    rw [noUndefArr, Bool.and_eq_true] at h
    rw [stringifyArr, stringifyValue_of_noUndef x h.1, stringifyArr_of_noUndef xs h.2]
    rfl

theorem stringifyObj_of_noUndef (es : List (String × JSV)) (h : noUndefObj es = true) :
    stringifyObj es = es := by
  cases es with
  | nil => rfl
  | cons e es =>
    obtain ⟨k, v⟩ := e
    rw [noUndefObj, Bool.and_eq_true] at h
    rw [stringifyObj, stringifyValue_of_noUndef v h.1, stringifyObj_of_noUndef es h.2]

end

/-- **C9, counterexample.**  A record with a non-empty validation-messages
`Map` does not round-trip through the NDJSON codec: the writer serializes
the `Map` as a plain object and the reader yields that plain object, not a
`Map` — refuting the claim that `read(write(S)) = S` for records with
non-empty messages. -/
theorem ndjson_roundtrip_cex :
    readFieldSets (writeFieldSets [⟨[[("id", JSV.str "1")]],
        some (.jsMap [("f", "bad")]), some "h"⟩])
      = [⟨[[("id", JSV.str "1")]], some (.jsObj [("f", "bad")]), some "h"⟩]
    ∧ [(⟨[[("id", JSV.str "1")]], some (.jsObj [("f", "bad")]), some "h"⟩ : FieldSet)]
      ≠ [⟨[[("id", JSV.str "1")]], some (.jsMap [("f", "bad")]), some "h"⟩] := by
  refine ⟨rfl, fun h => ?_⟩
  have h1 := (List.cons.inj h).1
  have h2 := congrArg FieldSet.validationMessages h1
  simp at h2

/-- **C9, amended.**  For record sequences whose records carry no
validation-messages attachment at all and no `undefined` anywhere in their
field values, the NDJSON round-trip is the identity:
`readFieldSets (writeFieldSets S) = S`.  (A non-empty messages `Map` comes
back as a plain object, and an empty one — an "empty attachment" — is
dropped; an `undefined`-valued property is dropped by `JSON.stringify`.) -/
theorem ndjson_roundtrip (S : List FieldSet)
    (hmsg : ∀ r ∈ S, r.validationMessages = none)
    (hval : ∀ r ∈ S, ∀ f ∈ r.fieldValues, noUndefObj f = true) :
    readFieldSets (writeFieldSets S) = S := by
  induction S with
  | nil => rfl
  | cons r S ih =>
    rw [writeFieldSets, List.map_cons, readFieldSets, List.map_cons]
    rw [← readFieldSets, ← writeFieldSets,
      ih (fun x hx => hmsg x (List.mem_cons_of_mem _ hx))
        (fun x hx => hval x (List.mem_cons_of_mem _ hx))]
    have hm := hmsg r (List.mem_cons_self _ _)
    have hfv : r.fieldValues.map (fun f => (stringifyValue (.obj f)).getD .null)
        = r.fieldValues.map JSV.obj := by
      apply List.map_congr_left
      intro f hf
      rw [stringifyValue_of_noUndef (.obj f)
        (by rw [noUndef]; exact hval r (List.mem_cons_self _ _) f hf)]
      rfl
    congr 1
    rw [writeFieldSet, hm]
    cases hh : r.hash with
    | none =>
      rw [readFieldSet]
      obtain ⟨fv, vm, hsh⟩ := r
      simp only at hm hh hfv
      subst hm hh
      simp only [objLookup, List.append_nil, List.find?, hfv]
      simp [List.map_map, castField, Function.comp_def]
    | some hv =>
      rw [readFieldSet]
      obtain ⟨fv, vm, hsh⟩ := r
      simp only at hm hh hfv
      subst hm hh
      simp only [objLookup, List.append_nil, List.find?, hfv]
      simp [List.map_map, castField, Function.comp_def]

/-- Witness for `ndjson_roundtrip` on a concrete two-record sequence. -/
theorem ndjson_roundtrip_witness :
    readFieldSets (writeFieldSets
        [⟨[[("id", JSV.str "1")]], none, some "h1"⟩,
         ⟨[[("id", JSV.str "2")]], none, none⟩])
      = [⟨[[("id", JSV.str "1")]], none, some "h1"⟩,
         ⟨[[("id", JSV.str "2")]], none, none⟩] :=
  ndjson_roundtrip _
    (by intro r hr
        rcases List.mem_cons.mp hr with rfl | hr'
        · rfl
        · rcases List.mem_singleton.mp hr' with rfl; rfl)
    (by intro r hr f hf
        rcases List.mem_cons.mp hr with rfl | hr'
        · rcases List.mem_singleton.mp hf with rfl; rfl
        · rcases List.mem_singleton.mp hr' with rfl
          rcases List.mem_singleton.mp hf with rfl; rfl)

/-! ## `src/InputUtils.ts` — `InputUtilsDecorator`

`restorePreviousHashesForFailures` mutates its current-records array in
place: `findIndex` followed by an element-hash assignment updates the first
matching element (`setFirstBy`), and `findIndex` followed by `splice(i, 1)`
removes the first matching element (`dropFirstBy`). -/

/-- Update the first element satisfying `p` in place. -/
def setFirstBy {α : Type} (p : α → Bool) (f : α → α) : List α → List α
  | [] => []
  | x :: xs => if p x then f x :: xs else x :: setFirstBy p f xs

/-- Remove the first element satisfying `p` (the `splice(i, 1)` of a found
`findIndex`). -/
def dropFirstBy {α : Type} (p : α → Bool) : List α → List α
  | [] => []
  | x :: xs => if p x then xs else x :: dropFirstBy p xs

/-- `InputUtilsDecorator.getPrimaryKey`: the schema's primary-key field
names as a JS `Set` (iteration in insertion order, first occurrence kept). -/
def getPrimaryKey (defs : List FieldDefinition) : List String :=
  ((defs.filter (·.isPrimaryKey)).map (·.name)).eraseDups

/-- `InputUtilsDecorator.getKeyAndHashFieldSets`: reduce each record to the
fields whose first key is a primary-key name, carrying `hash` and
`validationMessages` through unchanged. -/
def getKeyAndHashFieldSets (defs : List FieldDefinition) (fieldSets : List FieldSet) :
    List FieldSet :=
  let pkNames := (defs.filter (·.isPrimaryKey)).map (·.name)
  fieldSets.map fun fs =>
    { fieldValues := fs.fieldValues.filter fun fv =>
        match fieldFirstKey fv with
        | some k => pkNames.contains k
        | none => false
      hash := fs.hash
      validationMessages := fs.validationMessages }

/-- The per-key-name value array common to `generatePrimaryKeyValue` and
its inline twins: for each primary-key field name, the first value of the
record's field whose first key matches (else `''`), stringified as
`Array.prototype.join` does. -/
def primaryKeyValues (pk : List String) (fieldValues : List Field) : List String :=
  pk.map fun k =>
    match fieldValues.find? (fun f => fieldFirstKey f == some k) with
    | some f => joinElemStr (fieldFirstVal f)
    | none => ""

/-- `FieldSetEntity.generatePrimaryKeyValue`, and the identical inline
primary-key-string computation used throughout `InputUtilsDecorator`:
the per-key values joined with `'|'`. -/
def generatePrimaryKeyValue (pk : List String) (fieldValues : List Field) : String :=
  String.intercalate "|" (primaryKeyValues pk fieldValues)

/-- Shorthand: a record's primary-key string. -/
def pkv (pk : List String) (r : FieldSet) : String :=
  generatePrimaryKeyValue pk r.fieldValues

/-- A failure's primary-key string:
`failure.primaryKey.map(pkField => Object.values(pkField)[0]).join('|')` —
note that this walks *all* fields of the reported key in their given order. -/
def failurePkKey (primaryKey : List Field) : String :=
  String.intercalate "|" (primaryKey.map fun f => joinElemStr (fieldFirstVal f))

/-- `SinglePushResult` of `src/DataTarget.ts` (the members repair reads). -/
structure SinglePushResult where
  primaryKey : List Field
  crud : Option String := none
  message : Option String := none

/-- `BatchPushResult` of `src/DataTarget.ts`. -/
structure BatchPushResult where
  failures : List SinglePushResult
  successes : List SinglePushResult := []

/-- The inner `restoreHashForPrimaryKey` helper: look the key up in the
previous-records map (built by successive `Map.set`, so the *last* previous
record with a given key wins — hence the reversed `find?`); when found,
overwrite the hash of the first current record with that key (if any); when
not found (a failed *new* record), remove the first current record with that
key (if any). -/
def restoreHashForPrimaryKey (pk : List String) (previous : List FieldSet)
    (current : List FieldSet) (pkKey : String) : List FieldSet :=
  match previous.reverse.find? (fun p => pkv pk p == pkKey) with
  | some prevRecord =>
    setFirstBy (fun c => pkv pk c == pkKey) (fun c => { c with hash := prevRecord.hash }) current
  | none =>
    dropFirstBy (fun c => pkv pk c == pkKey) current

/-- The failures loop of `restorePreviousHashesForFailures`. -/
def restoreFailures (pk : List String) (previous : List FieldSet)
    (current : List FieldSet) (failures : List SinglePushResult) : List FieldSet :=
  failures.foldl
    (fun cur failure => restoreHashForPrimaryKey pk previous cur (failurePkKey failure.primaryKey))
    current

/-- JS falsiness of the `hash` member (`!record.hash`). -/
def hashFalsy (r : FieldSet) : Bool := !(strTruthy r.hash)

/-- The validation scan of `restorePreviousHashesForFailures`: a JS
`forEach` over the (mutated) current array with removals inside the loop.
`forEach` reads the length once up front and visits each index still
present, so an element shifted into a removed slot is *skipped*; `remaining`
counts the indices left to visit and `k` is the next index. -/
def validationScanGo (pk : List String) (previous : List FieldSet) :
    Nat → List FieldSet → Nat → Nat → List FieldSet × Nat
  | 0, cur, _, count => (cur, count)
  | remaining + 1, cur, k, count =>
    if hk : k < cur.length then
      if hashFalsy (cur.get ⟨k, hk⟩) && hasBlockingMessages (cur.get ⟨k, hk⟩) then
        validationScanGo pk previous remaining
          (restoreHashForPrimaryKey pk previous cur (pkv pk (cur.get ⟨k, hk⟩)))
          (k + 1) (count + 1)
      else validationScanGo pk previous remaining cur (k + 1) count
    else validationScanGo pk previous remaining cur (k + 1) count

/-- `InputUtilsDecorator.restorePreviousHashesForFailures`: run the failures
loop, then the validation scan, over the current key+hash records (mutated
in place); returns the mutated list and the restoration count. -/
def restorePreviousHashesForFailures (pk : List String)
    (currentKeyAndHashFieldSets previousKeyAndHashFieldSets : List FieldSet)
    (pushResult : BatchPushResult) : List FieldSet × Nat :=
  let afterFailures :=
    restoreFailures pk previousKeyAndHashFieldSets currentKeyAndHashFieldSets pushResult.failures
  let scanned := validationScanGo pk previousKeyAndHashFieldSets
    afterFailures.length afterFailures 0 0
  (scanned.1, pushResult.failures.length + scanned.2)

/-- **C3, counterexample.**  Repair is not idempotent: with two invalid
(hash-less, message-carrying) records neither of which has a previous
record, the first run's validation scan removes the first record and — JS
`forEach` semantics after an in-loop `splice` — *skips* the second; the
second run then removes the skipped record, changing the list again. -/
theorem repair_not_idempotent_cex :
    (restorePreviousHashesForFailures ["id"]
        [⟨[[("id", JSV.str "a")]], some (.jsMap [("x", "m")]), none⟩,
         ⟨[[("id", JSV.str "b")]], some (.jsMap [("x", "m")]), none⟩]
        [] ⟨[], []⟩).1
      = [⟨[[("id", JSV.str "b")]], some (.jsMap [("x", "m")]), none⟩]
    ∧ (restorePreviousHashesForFailures ["id"]
        [⟨[[("id", JSV.str "b")]], some (.jsMap [("x", "m")]), none⟩]
        [] ⟨[], []⟩).1
      = []
    ∧ ([] : List FieldSet)
      ≠ [⟨[[("id", JSV.str "b")]], some (.jsMap [("x", "m")]), none⟩] :=
  ⟨rfl, rfl, fun h => by cases h⟩

/-! ### Repair idempotence under well-formedness

The generic facts about first-match update/removal that the idempotence
argument rests on. -/

theorem setFirstBy_eq_self_of_fixed {α : Type} {p : α → Bool} {f : α → α} {l : List α}
    (h : ∀ x ∈ l, p x = true → f x = x) : setFirstBy p f l = l := by
  induction l with
  | nil => rfl
  | cons x xs ih =>
    rw [setFirstBy]
    by_cases px : p x = true
    · rw [if_pos px, h x (List.mem_cons_self _ _) px]
    · rw [if_neg px, ih fun y hy => h y (List.mem_cons_of_mem _ hy)]

theorem dropFirstBy_eq_self_of_none {α : Type} {p : α → Bool} {l : List α}
    (h : ∀ x ∈ l, p x = false) : dropFirstBy p l = l := by
  induction l with
  | nil => rfl
  | cons x xs ih =>
    rw [dropFirstBy, if_neg (by simp [h x (List.mem_cons_self _ _)]),
      ih fun y hy => h y (List.mem_cons_of_mem _ hy)]

theorem dropFirstBy_none_of_eq_self {α : Type} {p : α → Bool} {l : List α}
    (h : dropFirstBy p l = l) : ∀ x ∈ l, p x = false := by
  induction l with
  | nil => intro x hx; cases hx
  | cons x xs ih =>
    rw [dropFirstBy] at h
    by_cases px : p x = true
    · rw [if_pos px] at h
      exact absurd (congrArg List.length h) (by simp)
    · rw [if_neg px] at h
      intro y hy
      rcases List.mem_cons.mp hy with rfl | hy'
      · simpa using px
      · exact ih (List.cons.inj h).2 y hy'

theorem mem_setFirstBy {α : Type} {p : α → Bool} {f : α → α} {l : List α} {x : α}
    (hx : x ∈ setFirstBy p f l) : x ∈ l ∨ ∃ y ∈ l, p y = true ∧ x = f y := by
  induction l with
  | nil => cases hx
  | cons a as ih =>
    rw [setFirstBy] at hx
    by_cases pa : p a = true
    · rw [if_pos pa] at hx
      rcases List.mem_cons.mp hx with rfl | hx'
      · exact Or.inr ⟨a, List.mem_cons_self _ _, pa, rfl⟩
      · exact Or.inl (List.mem_cons_of_mem _ hx')
    · rw [if_neg pa] at hx
      rcases List.mem_cons.mp hx with rfl | hx'
      · exact Or.inl (List.mem_cons_self _ _)
      · rcases ih hx' with h | ⟨y, hy, hpy, hfy⟩
        · exact Or.inl (List.mem_cons_of_mem _ h)
        · exact Or.inr ⟨y, List.mem_cons_of_mem _ hy, hpy, hfy⟩

theorem mem_dropFirstBy {α : Type} {p : α → Bool} {l : List α} {x : α}
    (hx : x ∈ dropFirstBy p l) : x ∈ l := by
  induction l with
  | nil => cases hx
  | cons a as ih =>
    rw [dropFirstBy] at hx
    by_cases pa : p a = true
    · rw [if_pos pa] at hx
      exact List.mem_cons_of_mem _ hx
    · rw [if_neg pa] at hx
      rcases List.mem_cons.mp hx with rfl | hx'
      · exact List.mem_cons_self _ _
      · exact List.mem_cons_of_mem _ (ih hx')

theorem map_setFirstBy_key {α β : Type} {p : α → Bool} {f : α → α} {l : List α}
    (g : α → β) (hg : ∀ x, g (f x) = g x) : (setFirstBy p f l).map g = l.map g := by
  induction l with
  | nil => rfl
  | cons x xs ih =>
    rw [setFirstBy]
    by_cases px : p x = true
    · rw [if_pos px]; simp [hg]
    · rw [if_neg px]; simp [ih]

theorem dropFirstBy_sublist {α : Type} (p : α → Bool) (l : List α) :
    (dropFirstBy p l).Sublist l := by
  induction l with
  | nil => exact List.Sublist.refl _
  | cons x xs ih =>
    rw [dropFirstBy]
    by_cases px : p x = true
    · rw [if_pos px]; exact List.sublist_cons_self _ _
    · rw [if_neg px]; exact ih.cons₂ x

theorem setFirstBy_idem {α : Type} {p : α → Bool} {f : α → α} (l : List α)
    (hpf : ∀ x, p (f x) = p x) (hff : ∀ x, f (f x) = f x) :
    setFirstBy p f (setFirstBy p f l) = setFirstBy p f l := by
  induction l with
  | nil => rfl
  | cons x xs ih =>
    rw [setFirstBy]
    by_cases px : p x = true
    · rw [if_pos px, setFirstBy, if_pos ((hpf x).trans px), hff]
    · rw [if_neg px, setFirstBy, if_neg px, ih]

/-- The primary-key string ignores the hash member. -/
theorem pkv_set_hash (pk : List String) (r : FieldSet) (h : Option String) :
    pkv pk { r with hash := h } = pkv pk r := rfl

/-- Unfolding: a repair step whose key is known to the previous map is the
first-match hash overwrite. -/
theorem restoreHash_eq_set {pk : List String} {previous : List FieldSet} {k : String}
    {prevRecord : FieldSet} (l : List FieldSet)
    (hfind : previous.reverse.find? (fun p => pkv pk p == k) = some prevRecord) :
    restoreHashForPrimaryKey pk previous l k
      = setFirstBy (fun c => pkv pk c == k)
          (fun c => { c with hash := prevRecord.hash }) l := by
  rw [restoreHashForPrimaryKey, hfind]

/-- Unfolding: a repair step whose key is unknown to the previous map is the
first-match removal. -/
theorem restoreHash_eq_drop {pk : List String} {previous : List FieldSet} {k : String}
    (l : List FieldSet)
    (hfind : previous.reverse.find? (fun p => pkv pk p == k) = none) :
    restoreHashForPrimaryKey pk previous l k
      = dropFirstBy (fun c => pkv pk c == k) l := by
  rw [restoreHashForPrimaryKey, hfind]

/-- Membership in a repair step's output: each record either was in the
input, or is an input record with its hash overwritten. -/
theorem mem_restoreHash {pk : List String} {previous : List FieldSet} {k : String}
    {m : List FieldSet} {x : FieldSet}
    (hx : x ∈ restoreHashForPrimaryKey pk previous m k) :
    x ∈ m ∨ ∃ y ∈ m, ∃ h, pkv pk y = k ∧ x = { y with hash := h } := by
  cases hfind : previous.reverse.find? (fun p => pkv pk p == k) with
  | some prevRecord =>
    rw [restoreHash_eq_set m hfind] at hx
    rcases mem_setFirstBy hx with h | ⟨y, hy, hpy, rfl⟩
    · exact Or.inl h
    · exact Or.inr ⟨y, hy, prevRecord.hash, by simpa using hpy, rfl⟩
  | none =>
    rw [restoreHash_eq_drop m hfind] at hx
    exact Or.inl (mem_dropFirstBy hx)

/-- Extracting the fixed-point content of an un-moving first-match
overwrite, under key uniqueness: every key match is already fixed. -/
theorem setFixed_of_eq_self (pk : List String) (k : String) (f : FieldSet → FieldSet)
    (l : List FieldSet) (hnd : (l.map (pkv pk)).Nodup)
    (heq : setFirstBy (fun c => pkv pk c == k) f l = l) :
    ∀ x ∈ l, pkv pk x = k → f x = x := by
  induction l with
  | nil => intro x hx; cases hx
  | cons a as ih =>
    have hnd' : ¬ pkv pk a ∈ as.map (pkv pk) ∧ (as.map (pkv pk)).Nodup := by
      rw [List.map_cons] at hnd
      exact List.nodup_cons.mp hnd
    rw [setFirstBy] at heq
    intro x hx hxk
    by_cases pa : (pkv pk a == k) = true
    · rw [if_pos pa] at heq
      obtain ⟨ha, -⟩ := List.cons.inj heq
      rcases List.mem_cons.mp hx with rfl | hx'
      · exact ha
      · exfalso
        have hak : pkv pk a = k := by simpa using pa
        have : pkv pk a ∈ as.map (pkv pk) := by
          rw [hak, ← hxk]
          exact List.mem_map_of_mem (pkv pk) hx'
        exact hnd'.1 this
    · rw [if_neg pa] at heq
      rcases List.mem_cons.mp hx with rfl | hx'
      · exact absurd (by simp [hxk]) pa
      · exact ih hnd'.2 (List.cons.inj heq).2 x hx' hxk

/-- Under per-side key uniqueness, removing the first key match removes the
only one, so a second removal is a no-op. -/
theorem dropFirstBy_pkv_idem (pk : List String) (k : String) (l : List FieldSet)
    (hnd : (l.map (pkv pk)).Nodup) :
    dropFirstBy (fun c => pkv pk c == k) (dropFirstBy (fun c => pkv pk c == k) l)
      = dropFirstBy (fun c => pkv pk c == k) l := by
  induction l with
  | nil => rfl
  | cons x xs ih =>
    have hnd' : ¬ pkv pk x ∈ xs.map (pkv pk) ∧ (xs.map (pkv pk)).Nodup := by
      rw [List.map_cons] at hnd
      exact List.nodup_cons.mp hnd
    rw [dropFirstBy]
    by_cases px : (pkv pk x == k) = true
    · rw [if_pos px]
      refine dropFirstBy_eq_self_of_none fun y hy => ?_
      have hxk : pkv pk x = k := by simpa using px
      by_cases hyk : pkv pk y = k
      · exact absurd (by rw [hxk, ← hyk]; exact List.mem_map_of_mem (pkv pk) hy) hnd'.1
      · simpa using hyk
    · rw [if_neg px, dropFirstBy, if_neg px, ih hnd'.2]

/-- One repair step is idempotent (key uniqueness is needed only for the
removal branch). -/
theorem restoreHash_idem (pk : List String) (previous : List FieldSet) (k : String)
    (l : List FieldSet) (hnd : (l.map (pkv pk)).Nodup) :
    restoreHashForPrimaryKey pk previous (restoreHashForPrimaryKey pk previous l k) k
      = restoreHashForPrimaryKey pk previous l k := by
  cases hfind : previous.reverse.find? (fun p => pkv pk p == k) with
  | some prevRecord =>
    rw [restoreHash_eq_set l hfind, restoreHash_eq_set _ hfind]
    exact setFirstBy_idem l (fun x => rfl) (fun x => rfl)
  | none =>
    rw [restoreHash_eq_drop l hfind, restoreHash_eq_drop _ hfind]
    exact dropFirstBy_pkv_idem pk k l hnd

/-- Key uniqueness is preserved by a repair step. -/
theorem nodup_restoreHash (pk : List String) (previous : List FieldSet) (k : String)
    (l : List FieldSet) (hnd : (l.map (pkv pk)).Nodup) :
    ((restoreHashForPrimaryKey pk previous l k).map (pkv pk)).Nodup := by
  cases hfind : previous.reverse.find? (fun p => pkv pk p == k) with
  | some prevRecord =>
    rw [restoreHash_eq_set l hfind,
      map_setFirstBy_key (f := fun c => { c with hash := prevRecord.hash }) (pkv pk)
        (fun x => rfl)]
    exact hnd
  | none =>
    rw [restoreHash_eq_drop l hfind]
    exact ((dropFirstBy_sublist _ l).map (pkv pk)).nodup hnd

/-- A step for key `k` that fixes `m` also fixes the state reached from `m`
by a repair step for any key `k'`. -/
theorem restoreHash_fixed_mono (pk : List String) (previous : List FieldSet)
    (k k' : String) (m : List FieldSet) (hnd : (m.map (pkv pk)).Nodup)
    (hfix : restoreHashForPrimaryKey pk previous m k = m) :
    restoreHashForPrimaryKey pk previous (restoreHashForPrimaryKey pk previous m k') k
      = restoreHashForPrimaryKey pk previous m k' := by
  by_cases hkk : k = k'
  · subst hkk
    rw [hfix, hfix]
  · cases hfind : previous.reverse.find? (fun p => pkv pk p == k) with
    | some prevRecord =>
      rw [restoreHash_eq_set m hfind] at hfix
      rw [restoreHash_eq_set _ hfind]
      have hQ := setFixed_of_eq_self pk k _ m hnd hfix
      refine setFirstBy_eq_self_of_fixed fun x hx hpx => ?_
      have hxk : pkv pk x = k := by simpa using hpx
      rcases mem_restoreHash hx with hxm | ⟨y, hy, h, hyk', rfl⟩
      · exact hQ x hxm hxk
      · exact absurd ((pkv_set_hash pk y h ▸ hxk : pkv pk y = k).symm.trans hyk') hkk
    | none =>
      rw [restoreHash_eq_drop m hfind] at hfix
      rw [restoreHash_eq_drop _ hfind]
      have hQ := dropFirstBy_none_of_eq_self hfix
      refine dropFirstBy_eq_self_of_none fun x hx => ?_
      rcases mem_restoreHash hx with hxm | ⟨y, hy, h, hyk', rfl⟩
      · exact hQ x hxm
      · have : pkv pk ({ y with hash := h } : FieldSet) = k' := by
          rw [pkv_set_hash]; exact hyk'
        simpa [this] using fun hc => hkk hc.symm

theorem nodup_restoreFailures (pk : List String) (previous : List FieldSet)
    (failures : List SinglePushResult) (l : List FieldSet)
    (hnd : (l.map (pkv pk)).Nodup) :
    ((restoreFailures pk previous l failures).map (pkv pk)).Nodup := by
  induction failures generalizing l with
  | nil => exact hnd
  | cons f fs ih =>
    rw [restoreFailures, List.foldl_cons, ← restoreFailures]
    exact ih _ (nodup_restoreHash pk previous _ l hnd)

theorem restoreHash_fixed_thru_fold (pk : List String) (previous : List FieldSet)
    (k : String) (fs : List SinglePushResult) (m : List FieldSet)
    (hnd : (m.map (pkv pk)).Nodup)
    (hfix : restoreHashForPrimaryKey pk previous m k = m) :
    restoreHashForPrimaryKey pk previous (restoreFailures pk previous m fs) k
      = restoreFailures pk previous m fs := by
  induction fs generalizing m with
  | nil => exact hfix
  | cons f fs ih =>
    rw [restoreFailures, List.foldl_cons, ← restoreFailures]
    exact ih _ (nodup_restoreHash pk previous _ m hnd)
      (restoreHash_fixed_mono pk previous k _ m hnd hfix)

/-- After the failures loop has run once, every failure key's repair step
fixes the resulting state. -/
theorem restoreFailures_all_fixed (pk : List String) (previous : List FieldSet)
    (fs : List SinglePushResult) (l : List FieldSet)
    (hnd : (l.map (pkv pk)).Nodup) :
    ∀ f ∈ fs,
      restoreHashForPrimaryKey pk previous (restoreFailures pk previous l fs)
          (failurePkKey f.primaryKey)
        = restoreFailures pk previous l fs := by
  induction fs generalizing l with
  | nil => intro f hf; cases hf
  | cons g gs ih =>
    intro f hf
    rw [restoreFailures, List.foldl_cons, ← restoreFailures]
    rcases List.mem_cons.mp hf with rfl | hf'
    · exact restoreHash_fixed_thru_fold pk previous _ gs _
        (nodup_restoreHash pk previous _ l hnd)
        (restoreHash_idem pk previous _ l hnd)
    · exact ih _ (nodup_restoreHash pk previous _ l hnd) f hf'

theorem restoreFailures_idem (pk : List String) (previous : List FieldSet)
    (fs : List SinglePushResult) (l : List FieldSet)
    (hnd : (l.map (pkv pk)).Nodup) :
    restoreFailures pk previous (restoreFailures pk previous l fs) fs
      = restoreFailures pk previous l fs := by
  have hall := restoreFailures_all_fixed pk previous fs l hnd
  generalize hm : restoreFailures pk previous l fs = m at hall
  clear hm hnd
  induction fs with
  | nil => rfl
  | cons g gs ih =>
    rw [restoreFailures, List.foldl_cons, ← restoreFailures,
      hall g (List.mem_cons_self _ _)]
    exact ih fun f hf => hall f (List.mem_cons_of_mem _ hf)

/-- Records never gain messages through repair, so a message-free state
keeps the validation scan inert. -/
theorem blocking_free_restoreHash (pk : List String) (previous : List FieldSet)
    (k : String) (l : List FieldSet)
    (hmsg : ∀ r ∈ l, hasBlockingMessages r = false) :
    ∀ r ∈ restoreHashForPrimaryKey pk previous l k, hasBlockingMessages r = false := by
  intro r hr
  rcases mem_restoreHash hr with h | ⟨y, hy, h, -, rfl⟩
  · exact hmsg r h
  · exact hmsg y hy

theorem blocking_free_restoreFailures (pk : List String) (previous : List FieldSet)
    (fs : List SinglePushResult) (l : List FieldSet)
    (hmsg : ∀ r ∈ l, hasBlockingMessages r = false) :
    ∀ r ∈ restoreFailures pk previous l fs, hasBlockingMessages r = false := by
  induction fs generalizing l with
  | nil => exact hmsg
  | cons g gs ih =>
    rw [restoreFailures, List.foldl_cons, ← restoreFailures]
    exact ih _ (blocking_free_restoreHash pk previous _ l hmsg)

/-- The validation scan does nothing on a state free of blocking messages. -/
theorem validationScanGo_inert (pk : List String) (previous : List FieldSet)
    (n : Nat) (cur : List FieldSet) (k count : Nat)
    (hmsg : ∀ r ∈ cur, hasBlockingMessages r = false) :
    validationScanGo pk previous n cur k count = (cur, count) := by
  induction n generalizing k count with
  | zero => rfl
  | succ n ih =>
    rw [validationScanGo]
    by_cases hk : k < cur.length
    · rw [dif_pos hk]
      have hr : hasBlockingMessages cur[k] = false :=
        hmsg _ (List.getElem_mem hk)
      rw [if_neg (by simp [hr])]
      exact ih _ _
    · rw [dif_neg hk]
      exact ih _ _

/-- **C3, amended.**  Provided the current projection's primary-key strings
are pairwise distinct (spec invariant 3) and no current record carries a
non-empty validation-messages map, repair is idempotent: running
`restorePreviousHashesForFailures` again on the output of the first run,
with the same previous projection and push result, returns the list
unchanged. -/
theorem repair_idempotent (pk : List String)
    (current previous : List FieldSet) (pushResult : BatchPushResult)
    (hnd : (current.map (pkv pk)).Nodup)
    (hmsg : ∀ r ∈ current, hasBlockingMessages r = false) :
    (restorePreviousHashesForFailures pk
        (restorePreviousHashesForFailures pk current previous pushResult).1
        previous pushResult).1
      = (restorePreviousHashesForFailures pk current previous pushResult).1 := by
  have h1 := blocking_free_restoreFailures pk previous pushResult.failures current hmsg
  simp only [restorePreviousHashesForFailures]
  rw [validationScanGo_inert pk previous _ _ _ _ h1]
  rw [restoreFailures_idem pk previous pushResult.failures current hnd]
  rw [validationScanGo_inert pk previous _ _ _ _ h1]

/-- Witness for `repair_idempotent` on a concrete failed update. -/
theorem repair_idempotent_witness :
    (restorePreviousHashesForFailures ["id"]
        (restorePreviousHashesForFailures ["id"]
          [⟨[[("id", JSV.str "1")]], none, some "h1"⟩]
          [⟨[[("id", JSV.str "1")]], none, some "h0"⟩]
          ⟨[⟨[[("id", JSV.str "1")]], none, none⟩], []⟩).1
        [⟨[[("id", JSV.str "1")]], none, some "h0"⟩]
        ⟨[⟨[[("id", JSV.str "1")]], none, none⟩], []⟩).1
      = (restorePreviousHashesForFailures ["id"]
          [⟨[[("id", JSV.str "1")]], none, some "h1"⟩]
          [⟨[[("id", JSV.str "1")]], none, some "h0"⟩]
          ⟨[⟨[[("id", JSV.str "1")]], none, none⟩], []⟩).1 :=
  repair_idempotent ["id"]
    [⟨[[("id", JSV.str "1")]], none, some "h1"⟩]
    [⟨[[("id", JSV.str "1")]], none, some "h0"⟩]
    ⟨[⟨[[("id", JSV.str "1")]], none, none⟩], []⟩
    (by decide)
    (by intro r hr; rcases List.mem_singleton.mp hr with rfl; rfl)

/-! ## `src/delta-strategy/DeltaByBruteForce.ts` -/

/-- `DeltaResult` of `src/DeltaTypes.ts`.  (`updated` is declared optional
there; both embedded engines always supply it.) -/
structure DeltaResult where
  added : List FieldSet
  updated : List FieldSet
  removed : List FieldSet

/-- The per-pair primary-key comparison inside `fishOutUpdatedRecordsByPK`:
for every key name, both records must have a field containing the key
(`keyname in fv`), both values must be defined, and the values must be
strictly equal. -/
def pkMatches (primaryKeySet : List String) (newRecord removedRecord : FieldSet) : Bool :=
  primaryKeySet.all fun keyname =>
    let newRecordKeyValue :=
      match newRecord.fieldValues.find? (fun fv => fieldHasKey fv keyname) with
      | some f => (fieldGet f keyname).getD .undef
      | none => .undef
    let removedRecordKeyValue :=
      match removedRecord.fieldValues.find? (fun fv => fieldHasKey fv keyname) with
      | some f => (fieldGet f keyname).getD .undef
      | none => .undef
    !(jsStrictEq newRecordKeyValue .undef) && !(jsStrictEq removedRecordKeyValue .undef)
      && jsStrictEq newRecordKeyValue removedRecordKeyValue

/-- The loop of `fishOutUpdatedRecordsByPK`: for each new-or-updated record,
`findIndex` a primary-key match among the remaining removed-or-updated
records; a found match is `splice`d out (first match removed) and the record
is an update, otherwise the record is an add.  Returns
`(added, updated, removed)` with pushes in traversal order. -/
def fishGo (primaryKeySet : List String) :
    List FieldSet → List FieldSet → List FieldSet × List FieldSet × List FieldSet
  | [], removedOrUpdatedRecords => ([], [], removedOrUpdatedRecords)
  | n :: ns, removedOrUpdatedRecords =>
    if removedOrUpdatedRecords.any (fun r => pkMatches primaryKeySet n r) then
      let rest := fishGo primaryKeySet ns
        (dropFirstBy (fun r => pkMatches primaryKeySet n r) removedOrUpdatedRecords)
      (rest.1, n :: rest.2.1, rest.2.2)
    else
      let rest := fishGo primaryKeySet ns removedOrUpdatedRecords
      (n :: rest.1, rest.2.1, rest.2.2)

/-- `fishOutUpdatedRecordsByPK` of `src/delta-strategy/DeltaByBruteForce.ts`. -/
def fishOutUpdatedRecordsByPK (newOrUpdatedRecords removedOrUpdatedRecords : List FieldSet)
    (primaryKeySet : List String) : DeltaResult :=
  if primaryKeySet.isEmpty then
    { added := newOrUpdatedRecords, updated := [], removed := removedOrUpdatedRecords }
  else
    let fished := fishGo primaryKeySet newOrUpdatedRecords removedOrUpdatedRecords
    { added := fished.1, updated := fished.2.1, removed := fished.2.2 }

/-- JS truthiness of the hash member followed by a hash-set membership test
(`record.hash && hashes.includes(record.hash)`). -/
def truthyHashIn (hashes : List String) (r : FieldSet) : Bool :=
  strTruthy r.hash && hashes.contains (r.hash.getD "")

/-- `BruteForceDeltaEngine.computeDelta`: derive the hash sets of both
sides, keep the current records whose hash is new and the previous records
whose hash is missing, and hand both groups to the fishing callback. -/
def computeDelta (fishOutTheUpdates : List FieldSet → List FieldSet → DeltaResult)
    (previous current : List FieldSet) : DeltaResult :=
  let previousHashes := previous.filterMap (·.hash)
  let currentHashes := current.filterMap (·.hash)
  let newHashes := currentHashes.filter fun h => !(previousHashes.contains h)
  let missingHashes := previousHashes.filter fun h => !(currentHashes.contains h)
  let newOrUpdatedRecords := current.filter (truthyHashIn newHashes)
  let removedOrUpdatedRecords := previous.filter (truthyHashIn missingHashes)
  fishOutTheUpdates newOrUpdatedRecords removedOrUpdatedRecords

/-- The SetDiff strategy as wired by `FileBasedDeltaStrategy.computeDelta`:
the brute-force engine with `fishOutUpdatedRecordsByPK` over the schema's
primary-key set. -/
def computeDeltaBF (previous current : List FieldSet) (primaryKeySet : List String) :
    DeltaResult :=
  computeDelta (fun n r => fishOutUpdatedRecordsByPK n r primaryKeySet) previous current

/-- A record's primary-key value tuple. -/
def pkTuple (pk : List String) (r : FieldSet) : List String :=
  primaryKeyValues pk r.fieldValues

/-- Well-formedness of a key+hash record with respect to a primary-key set:
every field is a singleton object, and every primary-key name is carried by
a field holding a string value free of the `'|'` separator. -/
def wfPkRecord (pk : List String) (r : FieldSet) : Bool :=
  (r.fieldValues.all fun f => f.length == 1) &&
  (pk.all fun k =>
    match r.fieldValues.find? (fun f => fieldFirstKey f == some k) with
    | some [(k', .str s)] => k' == k && !(s.data.contains '|')
    | _ => false)

/-! ### Characterizing the SetDiff groups under well-formedness -/

theorem wfPkRecord_find {pk : List String} {r : FieldSet} (hwf : wfPkRecord pk r = true)
    {k : String} (hk : k ∈ pk) :
    ∃ s : String, r.fieldValues.find? (fun f => fieldFirstKey f == some k)
        = some [(k, .str s)] ∧ ¬ '|' ∈ s.data := by
  rw [wfPkRecord, Bool.and_eq_true] at hwf
  have h := List.all_eq_true.mp hwf.2 k hk
  cases hfind : r.fieldValues.find? (fun f => fieldFirstKey f == some k) with
  | none => rw [hfind] at h; cases h
  | some f =>
    rw [hfind] at h
    match f, h with
    | [(k', .str s)], h =>
      rw [Bool.and_eq_true] at h
      obtain ⟨hk', hs⟩ := h
      have hkk : k' = k := by simpa using hk'
      subst hkk
      exact ⟨s, rfl, by simpa using hs⟩

theorem wfPkRecord_singleton {pk : List String} {r : FieldSet} (hwf : wfPkRecord pk r = true) :
    ∀ f ∈ r.fieldValues, f.length = 1 := by
  rw [wfPkRecord, Bool.and_eq_true] at hwf
  intro f hf
  simpa using List.all_eq_true.mp hwf.1 f hf

/-- On singleton fields, JS `keyname in fv` coincides with
`Object.keys(fv)[0] === keyname`. -/
theorem fieldHasKey_eq_firstKey {f : Field} (hf : f.length = 1) (k : String) :
    fieldHasKey f k = (fieldFirstKey f == some k) := by
  match f, hf with
  | [(k0, v)], _ => simp [fieldHasKey, fieldFirstKey]

theorem find?_congr_pred {α : Type} {p q : α → Bool} (l : List α)
    (h : ∀ a ∈ l, p a = q a) : l.find? p = l.find? q := by
  induction l with
  | nil => rfl
  | cons x xs ih =>
    rw [List.find?_cons, List.find?_cons, h x (List.mem_cons_self _ _)]
    cases q x
    · exact ih fun a ha => h a (List.mem_cons_of_mem _ ha)
    · rfl

/-- The single value that both `pkMatches` and `primaryKeyValues` extract
for key `k` from a well-formed record. -/
theorem pkMatches_value {pk : List String} {r : FieldSet} (hwf : wfPkRecord pk r = true)
    {k : String} (hk : k ∈ pk) :
    ∃ s : String,
      (match r.fieldValues.find? (fun fv => fieldHasKey fv k) with
        | some f => (fieldGet f k).getD .undef
        | none => JSV.undef) = .str s
      ∧ (match r.fieldValues.find? (fun f => fieldFirstKey f == some k) with
        | some f => joinElemStr (fieldFirstVal f)
        | none => "") = s
      ∧ ¬ '|' ∈ s.data := by
  obtain ⟨s, hfind, hs⟩ := wfPkRecord_find hwf hk
  have hbridge : r.fieldValues.find? (fun fv => fieldHasKey fv k)
      = r.fieldValues.find? (fun f => fieldFirstKey f == some k) :=
    find?_congr_pred _ fun f hf => fieldHasKey_eq_firstKey (wfPkRecord_singleton hwf f hf) k
  refine ⟨s, ?_, ?_, hs⟩
  · rw [hbridge, hfind]
    simp [fieldGet]
  · rw [hfind]
    rfl

/-- For well-formed records, the fishing comparison is exactly equality of
the primary-key value tuples. -/
theorem pkMatches_iff_tuple {pk : List String} {a b : FieldSet}
    (ha : wfPkRecord pk a = true) (hb : wfPkRecord pk b = true) :
    pkMatches pk a b = true ↔ pkTuple pk a = pkTuple pk b := by
  rw [pkMatches, List.all_eq_true, pkTuple, pkTuple, primaryKeyValues, primaryKeyValues,
    List.map_inj_left]
  constructor
  · intro h k hk
    have hkk := h k hk
    obtain ⟨sa, hva, hga, -⟩ := pkMatches_value ha hk
    obtain ⟨sb, hvb, hgb, -⟩ := pkMatches_value hb hk
    rw [hva, hvb] at hkk
    simp only [jsStrictEq, Bool.and_eq_true] at hkk
    have hsab : sa = sb := by simpa using hkk.2
    rw [hga, hgb, hsab]
  · intro h k hk
    have hkk := h k hk
    obtain ⟨sa, hva, hga, -⟩ := pkMatches_value ha hk
    obtain ⟨sb, hvb, hgb, -⟩ := pkMatches_value hb hk
    rw [hga, hgb] at hkk
    rw [hva, hvb, hkk]
    simp [jsStrictEq]

theorem contains_map_iff {α β : Type} [BEq β] [LawfulBEq β] (g : α → β) (l : List α)
    (x : β) : (l.map g).contains x = true ↔ ∃ a ∈ l, g a = x := by
  rw [List.contains, List.elem_iff, List.mem_map]

theorem dropFirstBy_congr {α : Type} {p q : α → Bool} (l : List α)
    (h : ∀ x ∈ l, p x = q x) : dropFirstBy p l = dropFirstBy q l := by
  induction l with
  | nil => rfl
  | cons x xs ih =>
    rw [dropFirstBy, dropFirstBy, h x (List.mem_cons_self _ _),
      ih fun y hy => h y (List.mem_cons_of_mem _ hy)]

/-- Under key uniqueness, removing the first key match is removing the only
one. -/
theorem dropFirstBy_eq_filter {α β : Type} [BEq β] [LawfulBEq β] (g : α → β) (c : β)
    (l : List α) (hnd : (l.map g).Nodup) :
    dropFirstBy (fun x => g x == c) l = l.filter (fun x => !(g x == c)) := by
  induction l with
  | nil => rfl
  | cons x xs ih =>
    have hnd' : ¬ g x ∈ xs.map g ∧ (xs.map g).Nodup := by
      rw [List.map_cons] at hnd
      exact List.nodup_cons.mp hnd
    by_cases px : (g x == c) = true
    · rw [dropFirstBy, if_pos px, List.filter_cons, if_neg (by simp [px])]
      have hxc : g x = c := by simpa using px
      refine (List.filter_eq_self.mpr fun y hy => ?_).symm
      have hyne : g y ≠ c := fun hyc =>
        hnd'.1 (by rw [hxc, ← hyc]; exact List.mem_map_of_mem g hy)
      simpa using hyne
    · rw [dropFirstBy, if_neg px, List.filter_cons, if_pos (by simpa using px), ih hnd'.2]

/-- The fishing loop characterized, for well-formed unique-keyed inputs: the
adds are the new records without a key match, the updates those with one,
and the removals the removed-or-updated records without a key match. -/
theorem fishGo_eq (pk : List String) (ns : List FieldSet) (rs : List FieldSet)
    (hwn : ∀ n ∈ ns, wfPkRecord pk n = true) (hwr : ∀ r ∈ rs, wfPkRecord pk r = true)
    (hndn : (ns.map (pkTuple pk)).Nodup) (hndr : (rs.map (pkTuple pk)).Nodup) :
    fishGo pk ns rs =
      (ns.filter (fun n => !((rs.map (pkTuple pk)).contains (pkTuple pk n))),
       ns.filter (fun n => (rs.map (pkTuple pk)).contains (pkTuple pk n)),
       rs.filter (fun r => !((ns.map (pkTuple pk)).contains (pkTuple pk r)))) := by
  induction ns generalizing rs with
  | nil =>
    rw [fishGo]
    simp [List.filter_eq_self]
  | cons n ns ih =>
    have hwn_n : wfPkRecord pk n = true := hwn n (List.mem_cons_self _ _)
    have hwn' : ∀ x ∈ ns, wfPkRecord pk x = true :=
      fun x hx => hwn x (List.mem_cons_of_mem _ hx)
    have hndn' : ¬ pkTuple pk n ∈ ns.map (pkTuple pk) ∧ (ns.map (pkTuple pk)).Nodup := by
      rw [List.map_cons] at hndn
      exact List.nodup_cons.mp hndn
    have hmatch : ∀ r ∈ rs, pkMatches pk n r = (pkTuple pk r == pkTuple pk n) := by
      intro r hr
      rw [Bool.eq_iff_iff, pkMatches_iff_tuple hwn_n (hwr r hr), beq_iff_eq, eq_comm]
    have hany : rs.any (fun r => pkMatches pk n r)
        = (rs.map (pkTuple pk)).contains (pkTuple pk n) := by
      rw [Bool.eq_iff_iff, List.any_eq_true, contains_map_iff]
      constructor
      · intro ⟨r, hr, hp⟩
        exact ⟨r, hr, ((pkMatches_iff_tuple hwn_n (hwr r hr)).mp hp).symm⟩
      · intro ⟨r, hr, hp⟩
        exact ⟨r, hr, (pkMatches_iff_tuple hwn_n (hwr r hr)).mpr hp.symm⟩
    rw [fishGo, hany]
    by_cases hc : (rs.map (pkTuple pk)).contains (pkTuple pk n) = true
    · rw [if_pos hc]
      have hdrop : dropFirstBy (fun r => pkMatches pk n r) rs
          = rs.filter (fun r => !(pkTuple pk r == pkTuple pk n)) := by
        rw [dropFirstBy_congr rs hmatch]
        exact dropFirstBy_eq_filter (pkTuple pk) (pkTuple pk n) rs hndr
      have hsub : (rs.filter (fun r => !(pkTuple pk r == pkTuple pk n))).Sublist rs :=
        List.filter_sublist _
      rw [hdrop, ih (rs.filter (fun r => !(pkTuple pk r == pkTuple pk n))) hwn'
        (fun r hr => hwr r (List.mem_filter.mp hr).1) hndn'.2
        ((hsub.map (pkTuple pk)).nodup hndr)]
      have hcongr : ∀ x ∈ ns,
          (((rs.filter (fun r => !(pkTuple pk r == pkTuple pk n))).map
              (pkTuple pk)).contains (pkTuple pk x))
            = ((rs.map (pkTuple pk)).contains (pkTuple pk x)) := by
        intro x hx
        have hxn : pkTuple pk x ≠ pkTuple pk n := by
          intro hcontra
          exact hndn'.1 (hcontra ▸ List.mem_map_of_mem (pkTuple pk) hx)
        rw [Bool.eq_iff_iff, contains_map_iff, contains_map_iff]
        constructor
        · intro ⟨r, hr, hrx⟩
          exact ⟨r, (List.mem_filter.mp hr).1, hrx⟩
        · intro ⟨r, hr, hrx⟩
          refine ⟨r, List.mem_filter.mpr ⟨hr, ?_⟩, hrx⟩
          simpa [hrx] using hxn
      simp only [Prod.mk.injEq]
      refine ⟨?_, ?_, ?_⟩
      · rw [List.filter_cons, if_neg (by rw [hc]; decide)]
        exact List.filter_congr fun x hx => by rw [hcongr x hx]
      · rw [List.filter_cons, if_pos hc]
        exact congrArg _ (List.filter_congr fun x hx => hcongr x hx)
      · rw [List.filter_filter, List.map_cons]
        refine List.filter_congr fun r hr => ?_
        rw [List.contains_cons]
        simp [Bool.and_comm]
    · rw [if_neg hc, ih rs hwn' hwr hndn'.2 hndr]
      have hcf : (rs.map (pkTuple pk)).contains (pkTuple pk n) = false := by
        simpa using hc
      have hnone : ∀ r ∈ rs, pkTuple pk r ≠ pkTuple pk n := by
        intro r hr hcontra
        exact hc ((contains_map_iff _ _ _).mpr ⟨r, hr, hcontra⟩)
      simp only [Prod.mk.injEq]
      refine ⟨?_, ?_, ?_⟩
      · rw [List.filter_cons, if_pos (by rw [hcf]; decide)]
      · rw [List.filter_cons, if_neg (by rw [hcf]; decide)]
      · rw [List.map_cons]
        refine List.filter_congr fun r hr => ?_
        rw [List.contains_cons]
        simp [hnone r hr]

/-- The new-or-updated prefilter group of `computeDelta` (current records
whose truthy hash is among the new hashes). -/
def bfNewOrUpdated (previous current : List FieldSet) : List FieldSet :=
  current.filter (truthyHashIn ((current.filterMap (·.hash)).filter
    fun h => !((previous.filterMap (·.hash)).contains h)))

/-- The removed-or-updated prefilter group of `computeDelta` (previous
records whose truthy hash is among the missing hashes). -/
def bfRemovedOrUpdated (previous current : List FieldSet) : List FieldSet :=
  previous.filter (truthyHashIn ((previous.filterMap (·.hash)).filter
    fun h => !((current.filterMap (·.hash)).contains h)))

theorem computeDeltaBF_eq_fish (previous current : List FieldSet) (pk : List String) :
    computeDeltaBF previous current pk
      = fishOutUpdatedRecordsByPK (bfNewOrUpdated previous current)
          (bfRemovedOrUpdated previous current) pk := rfl

theorem mem_filterMap_hash {r : FieldSet} {l : List FieldSet}
    (hr : r ∈ l) (hh : strTruthy r.hash = true) :
    r.hash.getD "" ∈ l.filterMap (·.hash) := by
  cases hhash : r.hash with
  | none => rw [hhash] at hh; exact absurd hh (by decide)
  | some h => exact List.mem_filterMap.mpr ⟨r, hr, by rw [hhash]; rfl⟩

theorem of_mem_filterMap_hash {h : String} {l : List FieldSet}
    (hmem : h ∈ l.filterMap (·.hash)) : ∃ p ∈ l, p.hash = some h :=
  List.mem_filterMap.mp hmem

theorem mem_bfNewOrUpdated {previous current : List FieldSet} {c : FieldSet}
    (hhash : ∀ r ∈ current, strTruthy r.hash = true) :
    c ∈ bfNewOrUpdated previous current ↔
      c ∈ current ∧ ¬ c.hash.getD "" ∈ previous.filterMap (·.hash) := by
  rw [bfNewOrUpdated, List.mem_filter]
  constructor
  · intro ⟨hc, ht⟩
    rw [truthyHashIn, Bool.and_eq_true] at ht
    have hthis := List.mem_filter.mp (List.elem_iff.mp ht.2)
    have hcf : (previous.filterMap (·.hash)).contains (c.hash.getD "") = false := by
      simpa using hthis.2
    refine ⟨hc, fun hmem => ?_⟩
    have hct : (previous.filterMap (·.hash)).contains (c.hash.getD "") = true :=
      List.elem_iff.mpr hmem
    rw [hcf] at hct
    exact Bool.noConfusion hct
  · intro ⟨hc, hnot⟩
    refine ⟨hc, ?_⟩
    rw [truthyHashIn, Bool.and_eq_true]
    refine ⟨hhash c hc, ?_⟩
    refine List.elem_iff.mpr (List.mem_filter.mpr ⟨mem_filterMap_hash hc (hhash c hc), ?_⟩)
    cases hcc : (previous.filterMap (·.hash)).contains (c.hash.getD "") with
    | false => rfl
    | true => exact absurd (List.elem_iff.mp hcc) hnot

theorem mem_bfRemovedOrUpdated {previous current : List FieldSet} {p : FieldSet}
    (hhash : ∀ r ∈ previous, strTruthy r.hash = true) :
    p ∈ bfRemovedOrUpdated previous current ↔
      p ∈ previous ∧ ¬ p.hash.getD "" ∈ current.filterMap (·.hash) := by
  rw [bfRemovedOrUpdated, List.mem_filter]
  constructor
  · intro ⟨hp, ht⟩
    rw [truthyHashIn, Bool.and_eq_true] at ht
    have hthis := List.mem_filter.mp (List.elem_iff.mp ht.2)
    have hcf : (current.filterMap (·.hash)).contains (p.hash.getD "") = false := by
      simpa using hthis.2
    refine ⟨hp, fun hmem => ?_⟩
    have hct : (current.filterMap (·.hash)).contains (p.hash.getD "") = true :=
      List.elem_iff.mpr hmem
    rw [hcf] at hct
    exact Bool.noConfusion hct
  · intro ⟨hp, hnot⟩
    refine ⟨hp, ?_⟩
    rw [truthyHashIn, Bool.and_eq_true]
    refine ⟨hhash p hp, ?_⟩
    refine List.elem_iff.mpr (List.mem_filter.mpr ⟨mem_filterMap_hash hp (hhash p hp), ?_⟩)
    cases hcc : (current.filterMap (·.hash)).contains (p.hash.getD "") with
    | false => rfl
    | true => exact absurd (List.elem_iff.mp hcc) hnot

/-- The SetDiff groups, fully characterized for well-formed unique-keyed
hashed inputs. -/
theorem computeDeltaBF_groups (pk : List String) (previous current : List FieldSet)
    (hpk : pk ≠ [])
    (hwf : ∀ r ∈ previous ++ current, wfPkRecord pk r = true)
    (hndp : (previous.map (pkTuple pk)).Nodup)
    (hndc : (current.map (pkTuple pk)).Nodup) :
    computeDeltaBF previous current pk =
      { added := (bfNewOrUpdated previous current).filter fun n =>
          !(((bfRemovedOrUpdated previous current).map (pkTuple pk)).contains (pkTuple pk n))
        updated := (bfNewOrUpdated previous current).filter fun n =>
          ((bfRemovedOrUpdated previous current).map (pkTuple pk)).contains (pkTuple pk n)
        removed := (bfRemovedOrUpdated previous current).filter fun r =>
          !(((bfNewOrUpdated previous current).map (pkTuple pk)).contains (pkTuple pk r)) } := by
  rw [computeDeltaBF_eq_fish, fishOutUpdatedRecordsByPK,
    if_neg (by simpa using hpk)]
  have hsubN : (bfNewOrUpdated previous current).Sublist current := List.filter_sublist _
  have hsubR : (bfRemovedOrUpdated previous current).Sublist previous := List.filter_sublist _
  rw [fishGo_eq pk _ _
    (fun n hn => hwf n (List.mem_append.mpr (Or.inr (hsubN.mem hn))))
    (fun r hr => hwf r (List.mem_append.mpr (Or.inl (hsubR.mem hr))))
    ((hsubN.map (pkTuple pk)).nodup hndc)
    ((hsubR.map (pkTuple pk)).nodup hndp)]

theorem strTruthy_some {o : Option String} (h : strTruthy o = true) :
    o = some (o.getD "") := by
  cases o with
  | none => exact absurd h (by decide)
  | some s => rfl

/-- **C4, counterexample.** The delta-partitioning claim fails as stated:
with previous `[{id:1, hash:"h"}]` and current `[{id:2, hash:"h"}]` — all
records hashed, primary-key values unique per side, `pk = ["id"]` non-empty
— the hash prefilter of `computeDelta` classifies both records as unchanged
(the hash `"h"` occurs on both sides), so `removed` is empty even though
the key tuple `["1"]` is in `previous.by(pk) \ current.by(pk)`. -/
theorem delta_partitioning_cex :
    (∀ r ∈ ([⟨[[("id", JSV.str "1")]], none, some "h"⟩] : List FieldSet)
        ++ ([⟨[[("id", JSV.str "2")]], none, some "h"⟩] : List FieldSet),
      strTruthy r.hash = true)
    ∧ (([⟨[[("id", JSV.str "1")]], none, some "h"⟩] : List FieldSet).map
        (pkTuple ["id"])).Nodup
    ∧ (([⟨[[("id", JSV.str "2")]], none, some "h"⟩] : List FieldSet).map
        (pkTuple ["id"])).Nodup
    ∧ (["id"] : List String) ≠ []
    ∧ ¬ (∀ x, x ∈ (computeDeltaBF [⟨[[("id", JSV.str "1")]], none, some "h"⟩]
          [⟨[[("id", JSV.str "2")]], none, some "h"⟩] ["id"]).removed.map (pkTuple ["id"]) ↔
        (x ∈ ([⟨[[("id", JSV.str "1")]], none, some "h"⟩] : List FieldSet).map (pkTuple ["id"])
          ∧ x ∉ ([⟨[[("id", JSV.str "2")]], none, some "h"⟩] : List FieldSet).map
              (pkTuple ["id"]))) := by
  refine ⟨?_, ?_, ?_, ?_, fun hall => ?_⟩
  · intro r hr
    rcases List.mem_cons.mp hr with rfl | hr'
    · rfl
    · rcases List.mem_singleton.mp hr' with rfl
      rfl
  · decide
  · decide
  · decide
  · exact absurd ((hall ["1"]).mpr ⟨by decide, by decide⟩) (by decide)

/-- **C4, amended.** Delta partitioning for the SetDiff strategy holds for
well-formed records under one extra hypothesis the counterexample forces:
hashes must be coherent with keys across the two sides (equal hashes imply
equal primary-key tuples). Then added and updated are disjoint by pk, every
updated record's pk occurs on both sides, `removed.by(pk)` is exactly
`previous.by(pk) \ current.by(pk)`, `added.by(pk)` is exactly
`current.by(pk) \ previous.by(pk)`, and every updated record's hash differs
from the hash of any previous record sharing its pk tuple. -/
theorem delta_partitioning (pk : List String) (previous current : List FieldSet)
    (hpk : pk ≠ [])
    (hwf : ∀ r ∈ previous ++ current, wfPkRecord pk r = true)
    (hhash : ∀ r ∈ previous ++ current, strTruthy r.hash = true)
    (hndp : (previous.map (pkTuple pk)).Nodup)
    (hndc : (current.map (pkTuple pk)).Nodup)
    (hcoh : ∀ p ∈ previous, ∀ c ∈ current, p.hash = c.hash →
      pkTuple pk p = pkTuple pk c) :
    (∀ a ∈ (computeDeltaBF previous current pk).added,
      ∀ u ∈ (computeDeltaBF previous current pk).updated, pkTuple pk a ≠ pkTuple pk u)
    ∧ (∀ u ∈ (computeDeltaBF previous current pk).updated,
        pkTuple pk u ∈ previous.map (pkTuple pk) ∧ pkTuple pk u ∈ current.map (pkTuple pk))
    ∧ (∀ x, x ∈ (computeDeltaBF previous current pk).removed.map (pkTuple pk) ↔
        (x ∈ previous.map (pkTuple pk) ∧ x ∉ current.map (pkTuple pk)))
    ∧ (∀ x, x ∈ (computeDeltaBF previous current pk).added.map (pkTuple pk) ↔
        (x ∈ current.map (pkTuple pk) ∧ x ∉ previous.map (pkTuple pk)))
    ∧ (∀ u ∈ (computeDeltaBF previous current pk).updated,
        ∀ p ∈ previous, pkTuple pk p = pkTuple pk u → p.hash ≠ u.hash) := by
  have hhc : ∀ r ∈ current, strTruthy r.hash = true :=
    fun r hr => hhash r (List.mem_append.mpr (Or.inr hr))
  have hhp : ∀ r ∈ previous, strTruthy r.hash = true :=
    fun r hr => hhash r (List.mem_append.mpr (Or.inl hr))
  have hG := computeDeltaBF_groups pk previous current hpk hwf hndp hndc
  rw [hG]
  have hsubN : ∀ {c : FieldSet}, c ∈ bfNewOrUpdated previous current → c ∈ current :=
    fun hc => (List.mem_filter.mp hc).1
  have hsubR : ∀ {p : FieldSet}, p ∈ bfRemovedOrUpdated previous current → p ∈ previous :=
    fun hp => (List.mem_filter.mp hp).1
  -- a record of `current` outside the new-or-updated group shares its hash
  -- with some record of `previous`
  have hstale : ∀ c ∈ current, c ∉ bfNewOrUpdated previous current →
      ∃ p ∈ previous, p.hash = c.hash := by
    intro c hc hnot
    have hmem : c.hash.getD "" ∈ previous.filterMap (·.hash) := by
      by_contra hno
      exact hnot ((mem_bfNewOrUpdated hhc).mpr ⟨hc, hno⟩)
    obtain ⟨p, hp, hph⟩ := of_mem_filterMap_hash hmem
    exact ⟨p, hp, hph.trans (strTruthy_some (hhc c hc)).symm⟩
  -- a record of `previous` outside the removed-or-updated group shares its
  -- hash with some record of `current`
  have hkept : ∀ p ∈ previous, p ∉ bfRemovedOrUpdated previous current →
      ∃ c ∈ current, c.hash = p.hash := by
    intro p hp hnot
    have hmem : p.hash.getD "" ∈ current.filterMap (·.hash) := by
      by_contra hno
      exact hnot ((mem_bfRemovedOrUpdated hhp).mpr ⟨hp, hno⟩)
    obtain ⟨c, hc, hch⟩ := of_mem_filterMap_hash hmem
    exact ⟨c, hc, hch.trans (strTruthy_some (hhp p hp)).symm⟩
  refine ⟨?_, ?_, ?_, ?_, ?_⟩
  · -- added and updated are pk-disjoint
    intro a ha u hu heq
    obtain ⟨-, hga⟩ := List.mem_filter.mp ha
    obtain ⟨-, hgu⟩ := List.mem_filter.mp hu
    rw [heq] at hga
    rw [hgu] at hga
    exact Bool.noConfusion hga
  · -- updated pk tuples occur on both sides
    intro u hu
    obtain ⟨huN, hgu⟩ := List.mem_filter.mp hu
    constructor
    · obtain ⟨r, hrR, hrT⟩ := List.mem_map.mp (List.elem_iff.mp hgu)
      exact hrT ▸ List.mem_map_of_mem (pkTuple pk) (hsubR hrR)
    · exact List.mem_map_of_mem (pkTuple pk) (hsubN huN)
  · -- removed.by(pk) = previous.by(pk) \ current.by(pk)
    intro x
    constructor
    · intro hx
      obtain ⟨r, hr, hrT⟩ := List.mem_map.mp hx
      obtain ⟨hrR, hgr⟩ := List.mem_filter.mp hr
      refine ⟨hrT ▸ List.mem_map_of_mem (pkTuple pk) (hsubR hrR), fun hxc => ?_⟩
      obtain ⟨c, hc, hcT⟩ := List.mem_map.mp hxc
      by_cases hcN : c ∈ bfNewOrUpdated previous current
      · have : ((bfNewOrUpdated previous current).map (pkTuple pk)).contains
            (pkTuple pk r) = true := by
          refine List.elem_iff.mpr (List.mem_map.mpr ⟨c, hcN, ?_⟩)
          rw [hcT, hrT]
        rw [this] at hgr
        exact Bool.noConfusion hgr
      · obtain ⟨p, hp, hph⟩ := hstale c hc hcN
        have hTpc : pkTuple pk p = pkTuple pk c := hcoh p hp c hc hph
        have hpr : p = r := List.inj_on_of_nodup_map hndp hp (hsubR hrR)
          (by rw [hTpc, hcT, hrT])
        have hrh : r.hash.getD "" ∈ current.filterMap (·.hash) := by
          rw [← hpr, hph]
          exact mem_filterMap_hash hc (hhc c hc)
        exact ((mem_bfRemovedOrUpdated hhp).mp hrR).2 hrh
    · intro ⟨hxp, hxc⟩
      obtain ⟨p, hp, hpT⟩ := List.mem_map.mp hxp
      have hpR : p ∈ bfRemovedOrUpdated previous current := by
        by_contra hnot
        obtain ⟨c, hc, hch⟩ := hkept p hp hnot
        exact hxc (List.mem_map.mpr ⟨c, hc, by rw [← hcoh p hp c hc hch.symm, hpT]⟩)
      have hgp : (((bfNewOrUpdated previous current).map (pkTuple pk)).contains
          (pkTuple pk p)) = false := by
        cases hcc : ((bfNewOrUpdated previous current).map (pkTuple pk)).contains
            (pkTuple pk p) with
        | false => rfl
        | true =>
          obtain ⟨n, hnN, hnT⟩ := List.mem_map.mp (List.elem_iff.mp hcc)
          exact absurd (List.mem_map.mpr ⟨n, hsubN hnN, hnT.trans hpT⟩) hxc
      exact List.mem_map.mpr ⟨p, List.mem_filter.mpr ⟨hpR, by rw [hgp]; rfl⟩, hpT⟩
  · -- added.by(pk) = current.by(pk) \ previous.by(pk)
    intro x
    constructor
    · intro hx
      obtain ⟨a, ha, haT⟩ := List.mem_map.mp hx
      obtain ⟨haN, hga⟩ := List.mem_filter.mp ha
      refine ⟨haT ▸ List.mem_map_of_mem (pkTuple pk) (hsubN haN), fun hxp => ?_⟩
      obtain ⟨p, hp, hpT⟩ := List.mem_map.mp hxp
      by_cases hpR : p ∈ bfRemovedOrUpdated previous current
      · have : ((bfRemovedOrUpdated previous current).map (pkTuple pk)).contains
            (pkTuple pk a) = true := by
          refine List.elem_iff.mpr (List.mem_map.mpr ⟨p, hpR, ?_⟩)
          rw [hpT, haT]
        rw [this] at hga
        exact Bool.noConfusion hga
      · obtain ⟨c, hc, hch⟩ := hkept p hp hpR
        have hTpc : pkTuple pk p = pkTuple pk c := hcoh p hp c hc hch.symm
        have hca : c = a := List.inj_on_of_nodup_map hndc hc (hsubN haN)
          (by rw [← hTpc, hpT, haT])
        have hah : a.hash.getD "" ∈ previous.filterMap (·.hash) := by
          rw [← hca, hch]
          exact mem_filterMap_hash hp (hhp p hp)
        exact ((mem_bfNewOrUpdated hhc).mp haN).2 hah
    · intro ⟨hxc, hxp⟩
      obtain ⟨c, hc, hcT⟩ := List.mem_map.mp hxc
      have hcN : c ∈ bfNewOrUpdated previous current := by
        by_contra hnot
        obtain ⟨p, hp, hph⟩ := hstale c hc hnot
        exact hxp (List.mem_map.mpr ⟨p, hp, by rw [hcoh p hp c hc hph, hcT]⟩)
      have hgc : (((bfRemovedOrUpdated previous current).map (pkTuple pk)).contains
          (pkTuple pk c)) = false := by
        cases hcc : ((bfRemovedOrUpdated previous current).map (pkTuple pk)).contains
            (pkTuple pk c) with
        | false => rfl
        | true =>
          obtain ⟨r, hrR, hrT⟩ := List.mem_map.mp (List.elem_iff.mp hcc)
          exact absurd (List.mem_map.mpr ⟨r, hsubR hrR, hrT.trans hcT⟩) hxp
      exact List.mem_map.mpr ⟨c, List.mem_filter.mpr ⟨hcN, by rw [hgc]; rfl⟩, hcT⟩
  · -- updated hashes differ from the paired previous hashes
    intro u hu p hp _ hph
    obtain ⟨huN, -⟩ := List.mem_filter.mp hu
    have hmem : u.hash.getD "" ∈ previous.filterMap (·.hash) := by
      have hpmem := mem_filterMap_hash hp (hhp p hp)
      rw [hph] at hpmem
      exact hpmem
    exact ((mem_bfNewOrUpdated hhc).mp huN).2 hmem

/-- **C4, witness.** A concrete run of the amended partitioning theorem:
previous `[{id:1, hash:"h1"}]`, current `[{id:1, hash:"h2"}, {id:2,
hash:"h3"}]` — record 1 is updated, record 2 is added, nothing removed. -/
theorem delta_partitioning_witness :
    (["2"] ∈ (computeDeltaBF [⟨[[("id", JSV.str "1")]], none, some "h1"⟩]
        [⟨[[("id", JSV.str "1")]], none, some "h2"⟩,
         ⟨[[("id", JSV.str "2")]], none, some "h3"⟩] ["id"]).added.map (pkTuple ["id"]) ↔
      (["2"] ∈ ([⟨[[("id", JSV.str "1")]], none, some "h2"⟩,
          ⟨[[("id", JSV.str "2")]], none, some "h3"⟩] : List FieldSet).map (pkTuple ["id"])
        ∧ ["2"] ∉ ([⟨[[("id", JSV.str "1")]], none, some "h1"⟩] : List FieldSet).map
            (pkTuple ["id"]))) := by
  have h := delta_partitioning ["id"]
    [⟨[[("id", JSV.str "1")]], none, some "h1"⟩]
    [⟨[[("id", JSV.str "1")]], none, some "h2"⟩,
     ⟨[[("id", JSV.str "2")]], none, some "h3"⟩]
    (by decide)
    (by intro r hr
        rcases List.mem_cons.mp hr with rfl | hr'
        · decide
        rcases List.mem_cons.mp hr' with rfl | hr''
        · decide
        rcases List.mem_singleton.mp hr'' with rfl
        decide)
    (by intro r hr
        rcases List.mem_cons.mp hr with rfl | hr'
        · rfl
        rcases List.mem_cons.mp hr' with rfl | hr''
        · rfl
        rcases List.mem_singleton.mp hr'' with rfl
        rfl)
    (by decide)
    (by decide)
    (by intro p hp c hc hph
        rcases List.mem_singleton.mp hp with rfl
        rcases List.mem_cons.mp hc with rfl | hc'
        · exact absurd hph (by decide)
        rcases List.mem_singleton.mp hc' with rfl
        exact absurd hph (by decide))
  exact h.2.2.2.1 ["2"]

/-! ### Pipe-joined key strings

`FieldSetEntity` stores the primary-key tuple joined with `'|'` and
`toKeyAndHashFieldSet` recovers it with `String.prototype.split('|')`. -/

/-- `split('|')` on the character list: always returns at least one
(possibly empty) segment. -/
def splitPipeChars : List Char → List (List Char)
  | [] => [[]]
  | c :: cs =>
    if c = '|' then [] :: splitPipeChars cs
    else
      match splitPipeChars cs with
      | r :: rs => (c :: r) :: rs
      | [] => [[c]]

/-- JS `s.split('|')`. -/
def jsSplitPipe (s : String) : List String := (splitPipeChars s.data).map String.mk

/-! ### The relational storage backend (`PostgreSQLDeltaStorage`) -/

/-- A row of a client table: `FieldSetEntity.primaryKey` (the concatenated
primary-key values) and `FieldSetEntity.hash`. -/
abbrev RelRow := String × String

/-- The per-client `previous` and `current` tables. -/
structure RelTables where
  previous : List RelRow
  current : List RelRow

/-- `FieldSetEntity.fromKeyAndHashFieldSet`: the stored row of a hashed
record. -/
def fromKeyAndHashFieldSet (pk : List String) (fs : FieldSet) : RelRow :=
  (generatePrimaryKeyValue pk fs.fieldValues, fs.hash.getD "")

/-- The entity rows of a record list as built by `storeCurrentData` and
`updatePreviousData`: only records with truthy hashes are stored. -/
def entitiesOf (pk : List String) (data : List FieldSet) : List RelRow :=
  (data.filter fun fs => strTruthy fs.hash).map (fromKeyAndHashFieldSet pk)

/-- `FieldSetEntity.toKeyAndHashFieldSet`: split the stored key string on
`'|'` and rebuild one singleton field per primary-key name
(`primaryKeyValues[index] || ''` — a missing or empty segment yields `''`);
reconstructed records carry no validation messages. -/
def toKeyAndHashFieldSet (pk : List String) (row : RelRow) : FieldSet :=
  { fieldValues := pk.enum.map fun ik =>
      [(ik.2, JSV.str ((jsSplitPipe row.1).getD ik.1 ""))]
    hash := some row.2 }

/-- The added-records join of `fetchDelta`: current rows whose key has no
match in the previous table. -/
def relAdded (t : RelTables) : List RelRow :=
  t.current.filter fun c => !(t.previous.any fun p => p.1 == c.1)

/-- The updated-records join of `fetchDelta`: one `(c.primaryKey, c.hash)`
row per inner-join pair with equal keys and differing hashes. -/
def relUpdated (t : RelTables) : List RelRow :=
  t.current.flatMap fun c =>
    (t.previous.filter fun p => p.1 == c.1 && !(c.2 == p.2)).map fun _ => c

/-- The removed-records join of `fetchDelta`: previous rows whose key has
no match in the current table. -/
def relRemoved (t : RelTables) : List RelRow :=
  t.previous.filter fun p => !(t.current.any fun c => c.1 == p.1)

/-- `PostgreSQLDeltaStorage.fetchDelta`: the three join queries, with each
row converted back through `toKeyAndHashFieldSet`.  (The unconditional
history write that follows the queries is modeled in
`runnerComputeDeltaRel`.) -/
def fetchDeltaRel (pk : List String) (t : RelTables) : DeltaResult :=
  { added := (relAdded t).map (toKeyAndHashFieldSet pk)
    updated := (relUpdated t).map (toKeyAndHashFieldSet pk)
    removed := (relRemoved t).map (toKeyAndHashFieldSet pk) }

/-- `PostgreSQLDeltaStorage.storeCurrentData`: promote the current table to
previous, then stage the new data's entity rows as current. -/
def storeCurrentData (pk : List String) (t : RelTables) (data : List FieldSet) : RelTables :=
  { previous := t.current, current := entitiesOf pk data }

/-- `PostgreSQLDeltaStorage.updatePreviousData`: with non-empty data *and*
a positive failure count, replace both tables with the data's entity rows;
otherwise promote the current table to previous. -/
def updatePreviousData (pk : List String) (t : RelTables) (newPreviousData : List FieldSet)
    (failureCount : Nat) : RelTables :=
  if 0 < newPreviousData.length ∧ 0 < failureCount then
    { previous := entitiesOf pk newPreviousData, current := entitiesOf pk newPreviousData }
  else
    { previous := t.current, current := t.current }

/-- The inline key-string computation of `fetchPreviousData`'s `limitTo`
filter: all first-values of the record joined with `'|'`. -/
def limitPkString (fs : FieldSet) : String :=
  String.intercalate "|" (fs.fieldValues.map fun fv => joinElemStr (fieldFirstVal fv))

/-- `PostgreSQLDeltaStorage.fetchPreviousData`: select the previous table
(restricted to the `limitTo` keys when a non-empty `limitTo` is given) and
rebuild records using the (deduplicated) field names of the first `limitTo`
record; without `limitTo` the records come back with empty `fieldValues`. -/
def fetchPreviousDataRel (t : RelTables) (limitTo : Option (List FieldSet)) : List FieldSet :=
  match limitTo with
  | some (first :: rest) =>
    let keys := (first :: rest).map limitPkString
    let rows := t.previous.filter fun row => keys.contains row.1
    let names := (first.fieldValues.map fun fv => (fieldFirstKey fv).getD "").eraseDups
    rows.map (toKeyAndHashFieldSet names)
  | _ => t.previous.map fun row => { fieldValues := [], hash := some row.2 }

/-- `DeltaStrategy.buildLimitToArray`: the push failures (as bare key
records with hash `''`) followed by the current key+hash records lacking a
hash or carrying validation messages. -/
def buildLimitToArray (currentKeyAndHashFieldSets : List FieldSet)
    (pushResult : BatchPushResult) : List FieldSet :=
  (pushResult.failures.map fun failure =>
    { fieldValues := failure.primaryKey, hash := some "" : FieldSet })
    ++ currentKeyAndHashFieldSets.filter fun fs => hashFalsy fs || hasBlockingMessages fs

/-- The relational backend's state: the two client tables plus the number
of rows in the delta-history table. -/
structure RelState where
  tables : RelTables
  history : Nat

/-- `RunnerStrategyForDatabase.computeDelta`: stage the data with
`storeCurrentData`, then `fetchDelta` — which always appends one history
row before returning its result. -/
def runnerComputeDeltaRel (pk : List String) (st : RelState) (data : List FieldSet) :
    RelState × DeltaResult :=
  let tables := storeCurrentData pk st.tables data
  (⟨tables, st.history + 1⟩, fetchDeltaRel pk tables)

/-- The early-return test of `EndToEnd.execute`. -/
def isEmptyDelta (d : DeltaResult) : Bool :=
  d.added.isEmpty && d.updated.isEmpty && d.removed.isEmpty

/-- `EndToEnd.execute` on the relational backend, from the parsed input
onward; the target's push outcome is the `pushResult` parameter.  Returns
the final backend state together with whether the target push and the
baseline update were invoked. -/
def runCycleRel (defs : List FieldDefinition) (st : RelState) (parsed : List FieldSet)
    (pushResult : BatchPushResult) : RelState × Bool × Bool :=
  let pk := getPrimaryKey defs
  let keyAndHash := getKeyAndHashFieldSets defs parsed
  let staged := runnerComputeDeltaRel pk st parsed
  if isEmptyDelta staged.2 then (staged.1, false, false)
  else
    let limitTo := buildLimitToArray keyAndHash pushResult
    let previousInputFieldSets := fetchPreviousDataRel staged.1.tables (some limitTo)
    let repair := restorePreviousHashesForFailures pk keyAndHash previousInputFieldSets pushResult
    (⟨updatePreviousData pk staged.1.tables repair.1 repair.2, staged.1.history⟩, true, true)

/-- A data target that reports every pushed record of the delta as a
failure (and nothing as a success). -/
def totalFailureOf (d : DeltaResult) : BatchPushResult :=
  { failures := (d.added ++ d.updated ++ d.removed).map fun r => { primaryKey := r.fieldValues }
    successes := [] }

/-- **C5, counterexample.**  The claim fails for an empty data list: with
`failureCount = 1 > 0` and `newPreviousData = []`, `updatePreviousData`
takes the promote branch (the guard also requires
`newPreviousData.length > 0`), so a non-empty current table is promoted to
previous instead of both tables being truncated to the empty data. -/
theorem update_previous_empty_cex :
    0 < 1
    ∧ (updatePreviousData ["id"] ⟨[], [("1", "h")]⟩ [] 1).previous ≠ entitiesOf ["id"] []
    ∧ (updatePreviousData ["id"] ⟨[], [("1", "h")]⟩ [] 1).current ≠ entitiesOf ["id"] [] := by
  refine ⟨by decide, by decide, by decide⟩

/-- **C5, amended.**  For a *non-empty* data list and a positive failure
count, `updatePreviousData` replaces both tables with the data's entity
rows (its records with truthy hashes), leaving the two tables equal to
each other and to the supplied data. -/
theorem update_previous_replaces (pk : List String) (t : RelTables) (data : List FieldSet)
    (failureCount : Nat) (hfc : 0 < failureCount) (hdata : data ≠ []) :
    (updatePreviousData pk t data failureCount).previous = entitiesOf pk data
    ∧ (updatePreviousData pk t data failureCount).current = entitiesOf pk data
    ∧ (updatePreviousData pk t data failureCount).previous
        = (updatePreviousData pk t data failureCount).current := by
  rw [updatePreviousData, if_pos ⟨List.length_pos.mpr hdata, hfc⟩]
  exact ⟨rfl, rfl, rfl⟩

/-- **C5, witness.**  A concrete replacement: one hashed record, failure
count 1, previously diverged tables. -/
theorem update_previous_replaces_witness :
    (0:Nat) < 1
    ∧ ([⟨[[("id", JSV.str "1")]], none, some "h"⟩] : List FieldSet) ≠ []
    ∧ (updatePreviousData ["id"] ⟨[("0", "g")], [("1", "h")]⟩
        [⟨[[("id", JSV.str "1")]], none, some "h"⟩] 1).previous
      = entitiesOf ["id"] [⟨[[("id", JSV.str "1")]], none, some "h"⟩] :=
  ⟨by decide, List.cons_ne_nil _ _,
    (update_previous_replaces ["id"] ⟨[("0", "g")], [("1", "h")]⟩
      [⟨[[("id", JSV.str "1")]], none, some "h"⟩] 1 (by decide) (List.cons_ne_nil _ _)).1⟩

/-- **C6, counterexample.**  On the relational backend an empty delta does
*not* leave storage untouched: `fetchDelta` writes its history row before
`EndToEnd.execute` checks for emptiness, so the early-returning cycle still
grows the history table (here from 0 to 1 row) — refuting "no history row
is written". -/
theorem no_change_early_return_cex :
    runCycleRel [⟨"id", false, true, none⟩] ⟨⟨[], [("1", "h")]⟩, 0⟩
        [⟨[[("id", JSV.str "1")]], none, some "h"⟩] ⟨[], []⟩
      = (⟨⟨[("1", "h")], [("1", "h")]⟩, 1⟩, false, false)
    ∧ (runCycleRel [⟨"id", false, true, none⟩] ⟨⟨[], [("1", "h")]⟩, 0⟩
        [⟨[[("id", JSV.str "1")]], none, some "h"⟩] ⟨[], []⟩).1.history ≠ 0 :=
  ⟨rfl, by decide⟩

/-- **C6, amended.**  When the computed delta is empty the cycle returns
early: the target push and the baseline update are not invoked and the
tables are left as staged — but on the relational backend exactly one
history row has already been written by the delta computation. -/
theorem no_change_early_return (defs : List FieldDefinition) (st : RelState)
    (parsed : List FieldSet) (pushResult : BatchPushResult)
    (h : isEmptyDelta (fetchDeltaRel (getPrimaryKey defs)
        (storeCurrentData (getPrimaryKey defs) st.tables parsed)) = true) :
    runCycleRel defs st parsed pushResult
      = (⟨storeCurrentData (getPrimaryKey defs) st.tables parsed, st.history + 1⟩,
          false, false) := by
  simp only [runCycleRel, runnerComputeDeltaRel]
  rw [if_pos h]

/-- **C6, witness.**  An empty-input cycle on empty tables: the delta is
empty, no push and no baseline update happen, and the history grows from 5
to 6 rows. -/
theorem no_change_early_return_witness :
    isEmptyDelta (fetchDeltaRel (getPrimaryKey [⟨"id", false, true, none⟩])
        (storeCurrentData (getPrimaryKey [⟨"id", false, true, none⟩]) ⟨[], []⟩ [])) = true
    ∧ runCycleRel [⟨"id", false, true, none⟩] ⟨⟨[], []⟩, 5⟩ [] ⟨[], []⟩
      = (⟨storeCurrentData (getPrimaryKey [⟨"id", false, true, none⟩]) ⟨[], []⟩ [], 6⟩,
        false, false) :=
  ⟨by decide, no_change_early_return [⟨"id", false, true, none⟩] ⟨⟨[], []⟩, 5⟩ [] ⟨[], []⟩
    (by decide)⟩

/-! ### Split/join lemmas for pipe-joined key strings -/

theorem splitPipeChars_no_pipe (l : List Char) (h : ¬ '|' ∈ l) : splitPipeChars l = [l] := by
  induction l with
  | nil => rfl
  | cons c cs ih =>
    have hc : ¬ c = '|' := fun hcc => h (hcc ▸ List.mem_cons_self _ _)
    rw [splitPipeChars, if_neg hc, ih (fun hm => h (List.mem_cons_of_mem _ hm))]

theorem splitPipeChars_append (a b : List Char) (ha : ¬ '|' ∈ a) :
    splitPipeChars (a ++ '|' :: b) = a :: splitPipeChars b := by
  induction a with
  | nil => rw [List.nil_append, splitPipeChars, if_pos rfl]
  | cons c a0 ih =>
    have hc : ¬ c = '|' := fun hcc => ha (hcc ▸ List.mem_cons_self _ _)
    rw [List.cons_append, splitPipeChars, if_neg hc,
      ih (fun hm => ha (List.mem_cons_of_mem _ hm))]

theorem intercalate_go_data (acc s : String) (l : List String) :
    (String.intercalate.go acc s l).data
      = acc.data ++ l.flatMap (fun a => s.data ++ a.data) := by
  induction l generalizing acc with
  | nil => simp [String.intercalate.go]
  | cons a as ih =>
    rw [String.intercalate.go, ih]
    simp [String.data_append]

theorem intercalate_data (s a : String) (l : List String) :
    (String.intercalate s (a :: l)).data
      = a.data ++ l.flatMap (fun x => s.data ++ x.data) := by
  rw [String.intercalate, intercalate_go_data]

theorem jsSplitPipe_intercalate : ∀ (l : List String) (a : String),
    (∀ s ∈ a :: l, ¬ '|' ∈ s.data) →
    jsSplitPipe (String.intercalate "|" (a :: l)) = a :: l := by
  intro l
  induction l with
  | nil =>
    intro a hf
    rw [jsSplitPipe, show String.intercalate "|" [a] = a from rfl,
      splitPipeChars_no_pipe a.data (hf a (List.mem_cons_self _ _))]
    rfl
  | cons b bs ih =>
    intro a hf
    have hdata : (String.intercalate "|" (a :: b :: bs)).data
        = a.data ++ '|' :: (String.intercalate "|" (b :: bs)).data := by
      rw [intercalate_data, intercalate_data, List.flatMap_cons]
      simp
    rw [jsSplitPipe, hdata,
      splitPipeChars_append _ _ (hf a (List.mem_cons_self _ _)), List.map_cons]
    have htail := ih b (fun s hs => hf s (List.mem_cons_of_mem _ hs))
    rw [jsSplitPipe] at htail
    rw [htail]

theorem intercalate_pipe_inj {t₁ t₂ : List String}
    (h1 : t₁ ≠ []) (h2 : t₂ ≠ [])
    (hf1 : ∀ s ∈ t₁, ¬ '|' ∈ s.data) (hf2 : ∀ s ∈ t₂, ¬ '|' ∈ s.data)
    (he : String.intercalate "|" t₁ = String.intercalate "|" t₂) : t₁ = t₂ := by
  match t₁, t₂, h1, h2 with
  | a :: as, b :: bs, _, _ =>
    have e1 := jsSplitPipe_intercalate as a hf1
    have e2 := jsSplitPipe_intercalate bs b hf2
    rw [he, e2] at e1
    exact e1.symm

/-! ### Primary-key tuples, key strings, and entity reconstruction -/

theorem pkTuple_pipe_free {pk : List String} {r : FieldSet} (hwf : wfPkRecord pk r = true) :
    ∀ s ∈ pkTuple pk r, ¬ '|' ∈ s.data := by
  intro s hs
  rw [pkTuple, primaryKeyValues] at hs
  obtain ⟨k, hk, hks⟩ := List.mem_map.mp hs
  obtain ⟨sk, hfind, hpf⟩ := wfPkRecord_find hwf hk
  rw [hfind] at hks
  subst hks
  exact hpf

theorem pkTuple_length (pk : List String) (r : FieldSet) :
    (pkTuple pk r).length = pk.length :=
  List.length_map _ _

theorem pkTuple_ne_nil {pk : List String} (hpk : pk ≠ []) (r : FieldSet) :
    pkTuple pk r ≠ [] := by
  intro h
  have hl := pkTuple_length pk r
  rw [h] at hl
  exact hpk (List.length_eq_zero.mp hl.symm)

theorem pkv_eq_intercalate (pk : List String) (r : FieldSet) :
    pkv pk r = String.intercalate "|" (pkTuple pk r) := rfl

theorem pkv_inj {pk : List String} {a b : FieldSet} (hpk : pk ≠ [])
    (ha : wfPkRecord pk a = true) (hb : wfPkRecord pk b = true) :
    pkv pk a = pkv pk b ↔ pkTuple pk a = pkTuple pk b := by
  constructor
  · intro h
    exact intercalate_pipe_inj (pkTuple_ne_nil hpk a) (pkTuple_ne_nil hpk b)
      (pkTuple_pipe_free ha) (pkTuple_pipe_free hb) h
  · intro h
    rw [pkv_eq_intercalate, pkv_eq_intercalate, h]

theorem nodup_map_pkv {pk : List String} {l : List FieldSet} (hpk : pk ≠ [])
    (hwf : ∀ r ∈ l, wfPkRecord pk r = true)
    (hnd : (l.map (pkTuple pk)).Nodup) : (l.map (pkv pk)).Nodup := by
  have hre : l.map (pkv pk) = (l.map (pkTuple pk)).map (String.intercalate "|") := by
    rw [List.map_map]; rfl
  rw [hre]
  refine List.Nodup.map_on ?_ hnd
  intro x hx y hy hxy
  obtain ⟨p, hp, rfl⟩ := List.mem_map.mp hx
  obtain ⟨q, hq, rfl⟩ := List.mem_map.mp hy
  exact intercalate_pipe_inj (pkTuple_ne_nil hpk p) (pkTuple_ne_nil hpk q)
    (pkTuple_pipe_free (hwf p hp)) (pkTuple_pipe_free (hwf q hq)) hxy

theorem enumFrom_find_nodup {l : List String} (hnd : l.Nodup) (n j : Nat)
    (hj : j < l.length) :
    (List.enumFrom n l).find? (fun p => p.2 == l[j]) = some (n + j, l[j]) := by
  induction l generalizing n j with
  | nil => exact absurd hj (by simp)
  | cons a as ih =>
    rw [List.enumFrom_cons]
    cases j with
    | zero =>
      rw [List.find?_cons_of_pos _ (by simp)]
      rfl
    | succ j0 =>
      have hnd0 := List.nodup_cons.mp hnd
      have hj0 : j0 < as.length := by simpa using hj
      have hne : ¬ ((fun p : Nat × String => p.2 == (a :: as)[j0+1]) ((n, a)) = true) := by
        simp only [List.getElem_cons_succ, beq_iff_eq]
        intro hcc
        exact hnd0.1 (hcc ▸ List.getElem_mem hj0)
      rw [List.find?_cons_of_neg (p := fun p : Nat × String => p.2 == (a :: as)[j0+1])
        (a := (n, a)) _ hne]
      simp only [List.getElem_cons_succ]
      rw [ih hnd0.2 (n+1) j0 hj0]
      have harith : n + 1 + j0 = n + (j0 + 1) := by omega
      rw [harith]

/-- The record's primary-key values as projected by `projPkHash`. -/
def projPkHash (pk : List String) (r : FieldSet) : List String × Option String :=
  (pkTuple pk r, r.hash)

theorem pkTuple_toKeyAndHash (pk : List String) (hnd : pk.Nodup) (hpk : pk ≠ [])
    (t : List String) (hlen : t.length = pk.length)
    (htf : ∀ s ∈ t, ¬ '|' ∈ s.data) (h : String) :
    pkTuple pk (toKeyAndHashFieldSet pk (String.intercalate "|" t, h)) = t := by
  have hsplit : jsSplitPipe (String.intercalate "|" t) = t := by
    match t, hlen, htf with
    | a :: as, _, htf => exact jsSplitPipe_intercalate as a htf
    | [], hlen0, _ => exact absurd (List.length_eq_zero.mp hlen0.symm) hpk
  rw [pkTuple, primaryKeyValues]
  refine List.ext_getElem (by simp [hlen]) ?_
  intro j h1 h2
  rw [List.getElem_map]
  have hfields : (toKeyAndHashFieldSet pk (String.intercalate "|" t, h)).fieldValues
      = pk.enum.map (fun ik => [(ik.2, JSV.str (t.getD ik.1 ""))]) := by
    rw [show (toKeyAndHashFieldSet pk (String.intercalate "|" t, h)).fieldValues
      = pk.enum.map (fun ik =>
          [(ik.2, JSV.str ((jsSplitPipe (String.intercalate "|" t)).getD ik.1 ""))]) from rfl,
      hsplit]
  have hfind : (toKeyAndHashFieldSet pk (String.intercalate "|" t, h)).fieldValues.find?
        (fun f => fieldFirstKey f == some pk[j]) = some [(pk[j], JSV.str t[j])] := by
    rw [hfields, List.find?_map]
    have hpred : ((fun f => fieldFirstKey f == some pk[j])
          ∘ (fun ik : Nat × String => [(ik.2, JSV.str (t.getD ik.1 ""))]))
        = fun ik : Nat × String => ik.2 == pk[j] := by
      funext ik
      rfl
    rw [hpred, show pk.enum = List.enumFrom 0 pk from rfl,
      enumFrom_find_nodup hnd 0 j (by simpa using h1)]
    simp only [Option.map_some', Nat.zero_add]
    rw [List.getD_eq_getElem t "" h2]
  rw [hfind]
  rfl

theorem projPkHash_recon {pk : List String} (hnd : pk.Nodup) (hpk : pk ≠ [])
    {c : FieldSet} (hwf : wfPkRecord pk c = true) (hh : strTruthy c.hash = true) :
    projPkHash pk (toKeyAndHashFieldSet pk (fromKeyAndHashFieldSet pk c))
      = projPkHash pk c := by
  have h1 : pkTuple pk (toKeyAndHashFieldSet pk (fromKeyAndHashFieldSet pk c))
      = pkTuple pk c := by
    rw [show fromKeyAndHashFieldSet pk c
      = (String.intercalate "|" (pkTuple pk c), c.hash.getD "") from rfl]
    exact pkTuple_toKeyAndHash pk hnd hpk (pkTuple pk c) (pkTuple_length pk c)
      (pkTuple_pipe_free hwf) _
  have h2 : (toKeyAndHashFieldSet pk (fromKeyAndHashFieldSet pk c)).hash = c.hash := by
    rw [show (toKeyAndHashFieldSet pk (fromKeyAndHashFieldSet pk c)).hash
      = some (c.hash.getD "") from rfl]
    exact (strTruthy_some hh).symm
  rw [projPkHash, projPkHash, h1, h2]

/-! ### List-level characterization of the SetDiff groups -/

theorem stale_hash_partner {previous current : List FieldSet} {c : FieldSet}
    (hhc : ∀ r ∈ current, strTruthy r.hash = true)
    (hc : c ∈ current) (hnot : c ∉ bfNewOrUpdated previous current) :
    ∃ p ∈ previous, p.hash = c.hash := by
  have hmem : c.hash.getD "" ∈ previous.filterMap (·.hash) := by
    by_contra hno
    exact hnot ((mem_bfNewOrUpdated hhc).mpr ⟨hc, hno⟩)
  obtain ⟨p, hp, hph⟩ := of_mem_filterMap_hash hmem
  exact ⟨p, hp, hph.trans (strTruthy_some (hhc c hc)).symm⟩

theorem kept_hash_partner {previous current : List FieldSet} {p : FieldSet}
    (hhp : ∀ r ∈ previous, strTruthy r.hash = true)
    (hp : p ∈ previous) (hnot : p ∉ bfRemovedOrUpdated previous current) :
    ∃ c ∈ current, c.hash = p.hash := by
  have hmem : p.hash.getD "" ∈ current.filterMap (·.hash) := by
    by_contra hno
    exact hnot ((mem_bfRemovedOrUpdated hhp).mpr ⟨hp, hno⟩)
  obtain ⟨c, hc, hch⟩ := of_mem_filterMap_hash hmem
  exact ⟨c, hc, hch.trans (strTruthy_some (hhp p hp)).symm⟩

/-- The SetDiff `added` group, as a plain filter of `current`: exactly the
current records whose key tuple does not occur among the previous key
tuples. -/
theorem sd_added_eq (pk : List String) (previous current : List FieldSet)
    (hpk : pk ≠ [])
    (hwf : ∀ r ∈ previous ++ current, wfPkRecord pk r = true)
    (hhash : ∀ r ∈ previous ++ current, strTruthy r.hash = true)
    (hndp : (previous.map (pkTuple pk)).Nodup)
    (hndc : (current.map (pkTuple pk)).Nodup)
    (hcoh : ∀ p ∈ previous, ∀ c ∈ current, p.hash = c.hash →
      pkTuple pk p = pkTuple pk c) :
    (computeDeltaBF previous current pk).added
      = current.filter fun c => !((previous.map (pkTuple pk)).contains (pkTuple pk c)) := by
  have hhc : ∀ r ∈ current, strTruthy r.hash = true :=
    fun r hr => hhash r (List.mem_append.mpr (Or.inr hr))
  have hhp : ∀ r ∈ previous, strTruthy r.hash = true :=
    fun r hr => hhash r (List.mem_append.mpr (Or.inl hr))
  rw [computeDeltaBF_groups pk previous current hpk hwf hndp hndc]
  rw [show bfNewOrUpdated previous current
      = current.filter (truthyHashIn ((current.filterMap (·.hash)).filter
          fun h => !((previous.filterMap (·.hash)).contains h))) from rfl,
    List.filter_filter]
  refine List.filter_congr fun c hc => ?_
  rw [Bool.eq_iff_iff, Bool.and_eq_true, Bool.not_eq_true', Bool.not_eq_true']
  constructor
  · rintro ⟨hg, hA⟩
    cases hb : (previous.map (pkTuple pk)).contains (pkTuple pk c) with
    | false => rfl
    | true =>
      exfalso
      obtain ⟨p, hp, hpt⟩ := List.mem_map.mp (List.elem_iff.mp hb)
      have hcN : c ∈ bfNewOrUpdated previous current := List.mem_filter.mpr ⟨hc, hA⟩
      by_cases hpR : p ∈ bfRemovedOrUpdated previous current
      · have hRc : ((bfRemovedOrUpdated previous current).map (pkTuple pk)).contains
            (pkTuple pk c) = true :=
          List.elem_iff.mpr (List.mem_map.mpr ⟨p, hpR, hpt⟩)
        rw [hg] at hRc
        exact Bool.noConfusion hRc
      · obtain ⟨d, hd, hdh⟩ := kept_hash_partner hhp hp hpR
        have hpd : pkTuple pk p = pkTuple pk d := hcoh p hp d hd hdh.symm
        have hdc : d = c := List.inj_on_of_nodup_map hndc hd hc (by rw [← hpd, hpt])
        have hch : c.hash = p.hash := by rw [← hdc, hdh]
        have hmem : c.hash.getD "" ∈ previous.filterMap (·.hash) := by
          rw [hch]
          exact mem_filterMap_hash hp (hhp p hp)
        exact ((mem_bfNewOrUpdated hhc).mp hcN).2 hmem
  · intro hb
    constructor
    · cases hcc : ((bfRemovedOrUpdated previous current).map (pkTuple pk)).contains
          (pkTuple pk c) with
      | false => rfl
      | true =>
        exfalso
        obtain ⟨r, hrR, hrt⟩ := List.mem_map.mp (List.elem_iff.mp hcc)
        have hrprev : r ∈ previous := (List.mem_filter.mp hrR).1
        have hcon : (previous.map (pkTuple pk)).contains (pkTuple pk c) = true :=
          List.elem_iff.mpr (List.mem_map.mpr ⟨r, hrprev, hrt⟩)
        rw [hb] at hcon
        exact Bool.noConfusion hcon
    · by_contra hA
      have hcN : c ∉ bfNewOrUpdated previous current :=
        fun hmem => hA (List.mem_filter.mp hmem).2
      obtain ⟨p, hp, hph⟩ := stale_hash_partner hhc hc hcN
      have hpt : pkTuple pk p = pkTuple pk c := hcoh p hp c hc hph
      have hcon : (previous.map (pkTuple pk)).contains (pkTuple pk c) = true :=
        List.elem_iff.mpr (List.mem_map.mpr ⟨p, hp, hpt⟩)
      rw [hb] at hcon
      exact Bool.noConfusion hcon

/-- The SetDiff `removed` group, as a plain filter of `previous`. -/
theorem sd_removed_eq (pk : List String) (previous current : List FieldSet)
    (hpk : pk ≠ [])
    (hwf : ∀ r ∈ previous ++ current, wfPkRecord pk r = true)
    (hhash : ∀ r ∈ previous ++ current, strTruthy r.hash = true)
    (hndp : (previous.map (pkTuple pk)).Nodup)
    (hndc : (current.map (pkTuple pk)).Nodup)
    (hcoh : ∀ p ∈ previous, ∀ c ∈ current, p.hash = c.hash →
      pkTuple pk p = pkTuple pk c) :
    (computeDeltaBF previous current pk).removed
      = previous.filter fun p => !((current.map (pkTuple pk)).contains (pkTuple pk p)) := by
  have hhc : ∀ r ∈ current, strTruthy r.hash = true :=
    fun r hr => hhash r (List.mem_append.mpr (Or.inr hr))
  have hhp : ∀ r ∈ previous, strTruthy r.hash = true :=
    fun r hr => hhash r (List.mem_append.mpr (Or.inl hr))
  rw [computeDeltaBF_groups pk previous current hpk hwf hndp hndc]
  rw [show bfRemovedOrUpdated previous current
      = previous.filter (truthyHashIn ((previous.filterMap (·.hash)).filter
          fun h => !((current.filterMap (·.hash)).contains h))) from rfl,
    List.filter_filter]
  refine List.filter_congr fun p hp => ?_
  rw [Bool.eq_iff_iff, Bool.and_eq_true, Bool.not_eq_true', Bool.not_eq_true']
  constructor
  · rintro ⟨hg, hA⟩
    cases hb : (current.map (pkTuple pk)).contains (pkTuple pk p) with
    | false => rfl
    | true =>
      exfalso
      obtain ⟨c, hc, hct⟩ := List.mem_map.mp (List.elem_iff.mp hb)
      have hpR : p ∈ bfRemovedOrUpdated previous current := List.mem_filter.mpr ⟨hp, hA⟩
      by_cases hcN : c ∈ bfNewOrUpdated previous current
      · have hNc : ((bfNewOrUpdated previous current).map (pkTuple pk)).contains
            (pkTuple pk p) = true :=
          List.elem_iff.mpr (List.mem_map.mpr ⟨c, hcN, hct⟩)
        rw [hg] at hNc
        exact Bool.noConfusion hNc
      · obtain ⟨q, hq, hqh⟩ := stale_hash_partner hhc hc hcN
        have hqt : pkTuple pk q = pkTuple pk c := hcoh q hq c hc hqh
        have hqp : q = p := List.inj_on_of_nodup_map hndp hq hp (by rw [hqt, hct])
        have hph2 : p.hash = c.hash := by rw [← hqp, hqh]
        have hmem : p.hash.getD "" ∈ current.filterMap (·.hash) := by
          rw [hph2]
          exact mem_filterMap_hash hc (hhc c hc)
        exact ((mem_bfRemovedOrUpdated hhp).mp hpR).2 hmem
  · intro hb
    constructor
    · cases hcc : ((bfNewOrUpdated previous current).map (pkTuple pk)).contains
          (pkTuple pk p) with
      | false => rfl
      | true =>
        exfalso
        obtain ⟨n, hnN, hnt⟩ := List.mem_map.mp (List.elem_iff.mp hcc)
        have hncur : n ∈ current := (List.mem_filter.mp hnN).1
        have hcon : (current.map (pkTuple pk)).contains (pkTuple pk p) = true :=
          List.elem_iff.mpr (List.mem_map.mpr ⟨n, hncur, hnt⟩)
        rw [hb] at hcon
        exact Bool.noConfusion hcon
    · by_contra hA
      have hpR : p ∉ bfRemovedOrUpdated previous current :=
        fun hmem => hA (List.mem_filter.mp hmem).2
      obtain ⟨c, hc, hch⟩ := kept_hash_partner hhp hp hpR
      have hpt : pkTuple pk p = pkTuple pk c := hcoh p hp c hc hch.symm
      have hcon : (current.map (pkTuple pk)).contains (pkTuple pk p) = true :=
        List.elem_iff.mpr (List.mem_map.mpr ⟨c, hc, hpt.symm⟩)
      rw [hb] at hcon
      exact Bool.noConfusion hcon

/-- The SetDiff `updated` group, as a plain filter of `current`: exactly
the current records with a previous record of equal key tuple and
different hash. -/
theorem sd_updated_eq (pk : List String) (previous current : List FieldSet)
    (hpk : pk ≠ [])
    (hwf : ∀ r ∈ previous ++ current, wfPkRecord pk r = true)
    (hhash : ∀ r ∈ previous ++ current, strTruthy r.hash = true)
    (hndp : (previous.map (pkTuple pk)).Nodup)
    (hndc : (current.map (pkTuple pk)).Nodup)
    (hcoh : ∀ p ∈ previous, ∀ c ∈ current, p.hash = c.hash →
      pkTuple pk p = pkTuple pk c) :
    (computeDeltaBF previous current pk).updated
      = current.filter fun c => previous.any fun p =>
          (pkTuple pk p == pkTuple pk c) && !(p.hash == c.hash) := by
  have hhc : ∀ r ∈ current, strTruthy r.hash = true :=
    fun r hr => hhash r (List.mem_append.mpr (Or.inr hr))
  have hhp : ∀ r ∈ previous, strTruthy r.hash = true :=
    fun r hr => hhash r (List.mem_append.mpr (Or.inl hr))
  have hupd : (computeDeltaBF previous current pk).updated
      = (bfNewOrUpdated previous current).filter fun n =>
          ((bfRemovedOrUpdated previous current).map (pkTuple pk)).contains (pkTuple pk n) := by
    rw [computeDeltaBF_groups pk previous current hpk hwf hndp hndc]
  rw [hupd, show bfNewOrUpdated previous current
      = current.filter (truthyHashIn ((current.filterMap (·.hash)).filter
          fun h => !((previous.filterMap (·.hash)).contains h))) from rfl,
    List.filter_filter]
  refine List.filter_congr fun c hc => ?_
  rw [Bool.eq_iff_iff, Bool.and_eq_true, List.any_eq_true]
  constructor
  · rintro ⟨hg, hA⟩
    have hcN : c ∈ bfNewOrUpdated previous current := List.mem_filter.mpr ⟨hc, hA⟩
    obtain ⟨r, hrR, hrt⟩ := List.mem_map.mp (List.elem_iff.mp hg)
    have hrprev : r ∈ previous := (List.mem_filter.mp hrR).1
    refine ⟨r, hrprev, ?_⟩
    rw [Bool.and_eq_true]
    refine ⟨beq_iff_eq.mpr hrt, ?_⟩
    rw [Bool.not_eq_true', beq_eq_false_iff_ne]
    intro he
    have hmem : c.hash.getD "" ∈ previous.filterMap (·.hash) := by
      rw [← he]
      exact mem_filterMap_hash hrprev (hhp r hrprev)
    exact ((mem_bfNewOrUpdated hhc).mp hcN).2 hmem
  · rintro ⟨p, hp, hpred⟩
    rw [Bool.and_eq_true, beq_iff_eq, Bool.not_eq_true', beq_eq_false_iff_ne] at hpred
    obtain ⟨hpt, hph⟩ := hpred
    have hcN : c ∈ bfNewOrUpdated previous current := by
      by_contra hcN
      obtain ⟨q, hq, hqh⟩ := stale_hash_partner hhc hc hcN
      have hqt : pkTuple pk q = pkTuple pk c := hcoh q hq c hc hqh
      have hqp : q = p := List.inj_on_of_nodup_map hndp hq hp (by rw [hqt, hpt])
      exact hph (by rw [← hqp, hqh])
    have hpR : p ∈ bfRemovedOrUpdated previous current := by
      by_contra hpR
      obtain ⟨d, hd, hdh⟩ := kept_hash_partner hhp hp hpR
      have hpd : pkTuple pk p = pkTuple pk d := hcoh p hp d hd hdh.symm
      have hdc : d = c := List.inj_on_of_nodup_map hndc hd hc (by rw [← hpd, hpt])
      exact hph (by rw [← hdc, hdh])
    exact ⟨List.elem_iff.mpr (List.mem_map.mpr ⟨p, hpR, hpt⟩),
      (List.mem_filter.mp hcN).2⟩

/-! ### List-level characterization of the RelationalDiff rows -/

theorem any_map_poly {α β : Type} (f : α → β) (l : List α) (p : β → Bool) :
    (l.map f).any p = l.any (p ∘ f) := by
  induction l with
  | nil => rfl
  | cons a as ih =>
    rw [List.map_cons, List.any_cons, List.any_cons, ih]
    rfl

theorem any_congr_mem {α : Type} {l : List α} {p q : α → Bool}
    (h : ∀ a ∈ l, p a = q a) : l.any p = l.any q := by
  induction l with
  | nil => rfl
  | cons a as ih =>
    rw [List.any_cons, List.any_cons, h a (List.mem_cons_self _ _),
      ih (fun x hx => h x (List.mem_cons_of_mem _ hx))]

theorem entitiesOf_eq_map {pk : List String} {l : List FieldSet}
    (hhash : ∀ r ∈ l, strTruthy r.hash = true) :
    entitiesOf pk l = l.map (fromKeyAndHashFieldSet pk) := by
  rw [entitiesOf, List.filter_eq_self.mpr hhash]

theorem any_pkv_eq_contains {pk : List String} {previous : List FieldSet} {c : FieldSet}
    (hpk : pk ≠ [])
    (hwfp : ∀ r ∈ previous, wfPkRecord pk r = true) (hwfc : wfPkRecord pk c = true) :
    (previous.any fun p => pkv pk p == pkv pk c)
      = ((previous.map (pkTuple pk)).contains (pkTuple pk c)) := by
  rw [Bool.eq_iff_iff, List.any_eq_true]
  constructor
  · rintro ⟨p, hp, hpp⟩
    have ht := (pkv_inj hpk (hwfp p hp) hwfc).mp (beq_iff_eq.mp hpp)
    exact List.elem_iff.mpr (List.mem_map.mpr ⟨p, hp, ht⟩)
  · intro hb
    obtain ⟨p, hp, hpt⟩ := List.mem_map.mp (List.elem_iff.mp hb)
    exact ⟨p, hp, beq_iff_eq.mpr ((pkv_inj hpk (hwfp p hp) hwfc).mpr hpt)⟩

theorem length_filter_key_le_one {β : Type} {l : List β} {f : β → String}
    (hnd : (l.map f).Nodup) (s : String) :
    (l.filter fun x => f x == s).length ≤ 1 := by
  induction l with
  | nil => simp
  | cons a as ih =>
    rw [List.map_cons, List.nodup_cons] at hnd
    rw [List.filter_cons]
    cases hc : (f a == s) with
    | false =>
      rw [if_neg (by simp [hc])]
      exact ih hnd.2
    | true =>
      rw [if_pos rfl]
      have hnil : as.filter (fun x => f x == s) = [] :=
        List.filter_eq_nil_iff.mpr fun x hx hfx =>
          hnd.1 (List.mem_map.mpr ⟨x, hx, by rw [beq_iff_eq.mp hfx, beq_iff_eq.mp hc]⟩)
      simp [hnil]

theorem flatMap_matchOnce {α β γ : Type} (ns : List α) (rs : List β) (m : α → β → Bool)
    (g : α → γ)
    (hone : ∀ n ∈ ns, (rs.filter (m n)).length ≤ 1) :
    (ns.flatMap fun n => (rs.filter (m n)).map fun _ => g n)
      = (ns.filter fun n => rs.any (m n)).map g := by
  induction ns with
  | nil => rfl
  | cons n ns ih =>
    rw [List.flatMap_cons, List.filter_cons]
    cases hany : rs.any (m n) with
    | false =>
      have hnil : rs.filter (m n) = [] :=
        List.filter_eq_nil_iff.mpr (List.any_eq_false.mp hany)
      rw [hnil, if_neg (by simp [hany])]
      simpa using ih (fun x hx => hone x (List.mem_cons_of_mem _ hx))
    | true =>
      have hlen1 : (rs.filter (m n)).length = 1 := by
        refine Nat.le_antisymm (hone n (List.mem_cons_self _ _)) ?_
        obtain ⟨b, hb, hmb⟩ := List.any_eq_true.mp hany
        exact List.length_pos.mpr
          (List.ne_nil_of_mem (List.mem_filter.mpr ⟨hb, hmb⟩))
      obtain ⟨b, hb⟩ := List.length_eq_one.mp hlen1
      rw [hb, if_pos rfl]
      simpa using ih (fun x hx => hone x (List.mem_cons_of_mem _ hx))

/-- The RelationalDiff `added` rows: the entity rows of exactly the current
records whose key tuple has no previous occurrence. -/
theorem rd_added_rows (pk : List String) (previous current : List FieldSet)
    (hpk : pk ≠ [])
    (hwf : ∀ r ∈ previous ++ current, wfPkRecord pk r = true)
    (hhash : ∀ r ∈ previous ++ current, strTruthy r.hash = true) :
    relAdded ⟨entitiesOf pk previous, entitiesOf pk current⟩
      = (current.filter fun c =>
          !((previous.map (pkTuple pk)).contains (pkTuple pk c))).map
            (fromKeyAndHashFieldSet pk) := by
  have hhc : ∀ r ∈ current, strTruthy r.hash = true :=
    fun r hr => hhash r (List.mem_append.mpr (Or.inr hr))
  have hhp : ∀ r ∈ previous, strTruthy r.hash = true :=
    fun r hr => hhash r (List.mem_append.mpr (Or.inl hr))
  have hwfc : ∀ r ∈ current, wfPkRecord pk r = true :=
    fun r hr => hwf r (List.mem_append.mpr (Or.inr hr))
  have hwfp : ∀ r ∈ previous, wfPkRecord pk r = true :=
    fun r hr => hwf r (List.mem_append.mpr (Or.inl hr))
  simp only [relAdded]
  rw [entitiesOf_eq_map hhp, entitiesOf_eq_map hhc, List.filter_map]
  refine congrArg (List.map _) (List.filter_congr fun c hc => ?_)
  have h1 : ((previous.map (fromKeyAndHashFieldSet pk)).any
        fun p => p.1 == (fromKeyAndHashFieldSet pk c).1)
      = ((previous.map (pkTuple pk)).contains (pkTuple pk c)) := by
    rw [any_map_poly]
    exact any_pkv_eq_contains hpk hwfp (hwfc c hc)
  show (!((previous.map (fromKeyAndHashFieldSet pk)).any
      fun p => p.1 == (fromKeyAndHashFieldSet pk c).1)) = _
  rw [h1]

/-- The RelationalDiff `removed` rows. -/
theorem rd_removed_rows (pk : List String) (previous current : List FieldSet)
    (hpk : pk ≠ [])
    (hwf : ∀ r ∈ previous ++ current, wfPkRecord pk r = true)
    (hhash : ∀ r ∈ previous ++ current, strTruthy r.hash = true) :
    relRemoved ⟨entitiesOf pk previous, entitiesOf pk current⟩
      = (previous.filter fun p =>
          !((current.map (pkTuple pk)).contains (pkTuple pk p))).map
            (fromKeyAndHashFieldSet pk) := by
  have hhc : ∀ r ∈ current, strTruthy r.hash = true :=
    fun r hr => hhash r (List.mem_append.mpr (Or.inr hr))
  have hhp : ∀ r ∈ previous, strTruthy r.hash = true :=
    fun r hr => hhash r (List.mem_append.mpr (Or.inl hr))
  have hwfc : ∀ r ∈ current, wfPkRecord pk r = true :=
    fun r hr => hwf r (List.mem_append.mpr (Or.inr hr))
  have hwfp : ∀ r ∈ previous, wfPkRecord pk r = true :=
    fun r hr => hwf r (List.mem_append.mpr (Or.inl hr))
  simp only [relRemoved]
  rw [entitiesOf_eq_map hhp, entitiesOf_eq_map hhc, List.filter_map]
  refine congrArg (List.map _) (List.filter_congr fun p hp => ?_)
  have h1 : ((current.map (fromKeyAndHashFieldSet pk)).any
        fun c => c.1 == (fromKeyAndHashFieldSet pk p).1)
      = ((current.map (pkTuple pk)).contains (pkTuple pk p)) := by
    rw [any_map_poly]
    exact any_pkv_eq_contains hpk hwfc (hwfp p hp)
  show (!((current.map (fromKeyAndHashFieldSet pk)).any
      fun c => c.1 == (fromKeyAndHashFieldSet pk p).1)) = _
  rw [h1]

/-- The RelationalDiff `updated` rows: under unique previous keys, the
inner join yields the entity rows of exactly the current records with a
previous record of equal key tuple and different hash. -/
theorem rd_updated_rows (pk : List String) (previous current : List FieldSet)
    (hpk : pk ≠ [])
    (hwf : ∀ r ∈ previous ++ current, wfPkRecord pk r = true)
    (hhash : ∀ r ∈ previous ++ current, strTruthy r.hash = true)
    (hndp : (previous.map (pkTuple pk)).Nodup) :
    relUpdated ⟨entitiesOf pk previous, entitiesOf pk current⟩
      = (current.filter fun c => previous.any fun p =>
          (pkTuple pk p == pkTuple pk c) && !(p.hash == c.hash)).map
            (fromKeyAndHashFieldSet pk) := by
  have hhc : ∀ r ∈ current, strTruthy r.hash = true :=
    fun r hr => hhash r (List.mem_append.mpr (Or.inr hr))
  have hhp : ∀ r ∈ previous, strTruthy r.hash = true :=
    fun r hr => hhash r (List.mem_append.mpr (Or.inl hr))
  have hwfc : ∀ r ∈ current, wfPkRecord pk r = true :=
    fun r hr => hwf r (List.mem_append.mpr (Or.inr hr))
  have hwfp : ∀ r ∈ previous, wfPkRecord pk r = true :=
    fun r hr => hwf r (List.mem_append.mpr (Or.inl hr))
  have hndpkv : (previous.map (pkv pk)).Nodup := nodup_map_pkv hpk hwfp hndp
  simp only [relUpdated]
  rw [entitiesOf_eq_map hhp, entitiesOf_eq_map hhc, List.flatMap_map]
  have hinner : (fun c => ((previous.map (fromKeyAndHashFieldSet pk)).filter fun p =>
        p.1 == (fromKeyAndHashFieldSet pk c).1
          && !((fromKeyAndHashFieldSet pk c).2 == p.2)).map
        fun _ => fromKeyAndHashFieldSet pk c)
      = fun c => ((previous.filter fun p => pkv pk p == pkv pk c
          && !(c.hash.getD "" == p.hash.getD "")).map
            fun _ => fromKeyAndHashFieldSet pk c) := by
    funext c
    rw [List.filter_map, List.map_map]
    rfl
  rw [hinner,
    flatMap_matchOnce current previous
      (fun c p => pkv pk p == pkv pk c && !(c.hash.getD "" == p.hash.getD ""))
      (fromKeyAndHashFieldSet pk) ?hone]
  case hone =>
    intro c _
    calc (previous.filter fun p => pkv pk p == pkv pk c
            && !(c.hash.getD "" == p.hash.getD "")).length
        ≤ (previous.filter fun p => pkv pk p == pkv pk c).length := by
          rw [show (previous.filter fun p => pkv pk p == pkv pk c
              && !(c.hash.getD "" == p.hash.getD ""))
            = ((previous.filter fun p => pkv pk p == pkv pk c).filter
                fun p => !(c.hash.getD "" == p.hash.getD "")) from ?_]
          · exact List.length_filter_le _ _
          · rw [List.filter_filter]
            exact List.filter_congr fun p _ => Bool.and_comm _ _
      _ ≤ 1 := length_filter_key_le_one hndpkv (pkv pk c)
  refine congrArg (List.map _) (List.filter_congr fun c hc => ?_)
  refine any_congr_mem fun p hp => ?_
  have h1 : (pkv pk p == pkv pk c) = (pkTuple pk p == pkTuple pk c) := by
    rw [Bool.eq_iff_iff, beq_iff_eq, beq_iff_eq]
    exact pkv_inj hpk (hwfp p hp) (hwfc c hc)
  have h2 : (c.hash.getD "" == p.hash.getD "") = (p.hash == c.hash) := by
    rw [Bool.eq_iff_iff, beq_iff_eq, beq_iff_eq]
    constructor
    · intro he
      rw [strTruthy_some (hhp p hp), strTruthy_some (hhc c hc), he]
    · intro he
      rw [he]
  rw [h1, h2]

/-- **C1, counterexample.**  The two delta engines disagree as claimed:
with previous `[{id:1, hash:"h"}]` and current `[{id:2, hash:"h"}]` — all
records hashed and well-formed, keys unique per side, pk non-empty — the
SetDiff hash prefilter reports no change at all (the hash `"h"` exists on
both sides), while the RelationalDiff key joins report `{id:2}` as added
(and `{id:1}` as removed). -/
theorem engine_equivalence_cex :
    ((["id"] : List String) ≠ [] ∧ (["id"] : List String).Nodup)
    ∧ (∀ r ∈ ([⟨[[("id", JSV.str "1")]], none, some "h"⟩] : List FieldSet)
        ++ ([⟨[[("id", JSV.str "2")]], none, some "h"⟩] : List FieldSet),
        wfPkRecord ["id"] r = true ∧ strTruthy r.hash = true)
    ∧ (([⟨[[("id", JSV.str "1")]], none, some "h"⟩] : List FieldSet).map
        (pkTuple ["id"])).Nodup
    ∧ (([⟨[[("id", JSV.str "2")]], none, some "h"⟩] : List FieldSet).map
        (pkTuple ["id"])).Nodup
    ∧ ¬ (((computeDeltaBF [⟨[[("id", JSV.str "1")]], none, some "h"⟩]
            [⟨[[("id", JSV.str "2")]], none, some "h"⟩] ["id"]).added.map
              (projPkHash ["id"])).Perm
          ((fetchDeltaRel ["id"]
            ⟨entitiesOf ["id"] [⟨[[("id", JSV.str "1")]], none, some "h"⟩],
             entitiesOf ["id"] [⟨[[("id", JSV.str "2")]], none, some "h"⟩]⟩).added.map
              (projPkHash ["id"]))) := by
  refine ⟨⟨by decide, by decide⟩, by decide, by decide, by decide, fun h => ?_⟩
  exact absurd h.length_eq (by decide)

/-- **C1, amended.**  Engine equivalence holds under one extra hypothesis
the counterexample forces — hashes must be coherent with keys across the
two sides (equal hashes imply equal key tuples).  Then SetDiff
(`computeDelta` + `fishOutUpdatedRecordsByPK`) and RelationalDiff (the
three `fetchDelta` joins over the staged entity tables) produce the same
three groups of records, compared as multisets of (key tuple, hash)
projections — the entire content of a stored row. -/
theorem engine_equivalence (pk : List String) (previous current : List FieldSet)
    (hpk : pk ≠ []) (hnd : pk.Nodup)
    (hwf : ∀ r ∈ previous ++ current, wfPkRecord pk r = true)
    (hhash : ∀ r ∈ previous ++ current, strTruthy r.hash = true)
    (hndp : (previous.map (pkTuple pk)).Nodup)
    (hndc : (current.map (pkTuple pk)).Nodup)
    (hcoh : ∀ p ∈ previous, ∀ c ∈ current, p.hash = c.hash →
      pkTuple pk p = pkTuple pk c) :
    ((computeDeltaBF previous current pk).added.map (projPkHash pk)).Perm
      ((fetchDeltaRel pk ⟨entitiesOf pk previous, entitiesOf pk current⟩).added.map
        (projPkHash pk))
    ∧ ((computeDeltaBF previous current pk).updated.map (projPkHash pk)).Perm
      ((fetchDeltaRel pk ⟨entitiesOf pk previous, entitiesOf pk current⟩).updated.map
        (projPkHash pk))
    ∧ ((computeDeltaBF previous current pk).removed.map (projPkHash pk)).Perm
      ((fetchDeltaRel pk ⟨entitiesOf pk previous, entitiesOf pk current⟩).removed.map
        (projPkHash pk)) := by
  have hhc : ∀ r ∈ current, strTruthy r.hash = true :=
    fun r hr => hhash r (List.mem_append.mpr (Or.inr hr))
  have hhp : ∀ r ∈ previous, strTruthy r.hash = true :=
    fun r hr => hhash r (List.mem_append.mpr (Or.inl hr))
  have hwfc : ∀ r ∈ current, wfPkRecord pk r = true :=
    fun r hr => hwf r (List.mem_append.mpr (Or.inr hr))
  have hwfp : ∀ r ∈ previous, wfPkRecord pk r = true :=
    fun r hr => hwf r (List.mem_append.mpr (Or.inl hr))
  refine ⟨?_, ?_, ?_⟩
  · have hrd : (fetchDeltaRel pk
          ⟨entitiesOf pk previous, entitiesOf pk current⟩).added.map (projPkHash pk)
        = (current.filter fun c =>
            !((previous.map (pkTuple pk)).contains (pkTuple pk c))).map (projPkHash pk) := by
      show ((relAdded ⟨entitiesOf pk previous, entitiesOf pk current⟩).map
        (toKeyAndHashFieldSet pk)).map (projPkHash pk) = _
      rw [rd_added_rows pk previous current hpk hwf hhash, List.map_map, List.map_map]
      exact List.map_congr_left fun c hcf =>
        projPkHash_recon hnd hpk (hwfc c (List.mem_filter.mp hcf).1)
          (hhc c (List.mem_filter.mp hcf).1)
    rw [sd_added_eq pk previous current hpk hwf hhash hndp hndc hcoh, hrd]
  · have hrd : (fetchDeltaRel pk
          ⟨entitiesOf pk previous, entitiesOf pk current⟩).updated.map (projPkHash pk)
        = (current.filter fun c => previous.any fun p =>
            (pkTuple pk p == pkTuple pk c) && !(p.hash == c.hash)).map (projPkHash pk) := by
      show ((relUpdated ⟨entitiesOf pk previous, entitiesOf pk current⟩).map
        (toKeyAndHashFieldSet pk)).map (projPkHash pk) = _
      rw [rd_updated_rows pk previous current hpk hwf hhash hndp, List.map_map, List.map_map]
      exact List.map_congr_left fun c hcf =>
        projPkHash_recon hnd hpk (hwfc c (List.mem_filter.mp hcf).1)
          (hhc c (List.mem_filter.mp hcf).1)
    rw [sd_updated_eq pk previous current hpk hwf hhash hndp hndc hcoh, hrd]
  · have hrd : (fetchDeltaRel pk
          ⟨entitiesOf pk previous, entitiesOf pk current⟩).removed.map (projPkHash pk)
        = (previous.filter fun p =>
            !((current.map (pkTuple pk)).contains (pkTuple pk p))).map (projPkHash pk) := by
      show ((relRemoved ⟨entitiesOf pk previous, entitiesOf pk current⟩).map
        (toKeyAndHashFieldSet pk)).map (projPkHash pk) = _
      rw [rd_removed_rows pk previous current hpk hwf hhash, List.map_map, List.map_map]
      exact List.map_congr_left fun p hpf =>
        projPkHash_recon hnd hpk (hwfp p (List.mem_filter.mp hpf).1)
          (hhp p (List.mem_filter.mp hpf).1)
    rw [sd_removed_eq pk previous current hpk hwf hhash hndp hndc hcoh, hrd]

/-- **C1, witness.**  A concrete coherent run: previous `{id:1, "ha"}`,
current `{id:1, "hb"}` and `{id:2, "hc"}` — both engines report `{id:1}`
as updated (and `{id:2}` as added). -/
theorem engine_equivalence_witness :
    ((computeDeltaBF [⟨[[("id", JSV.str "1")]], none, some "ha"⟩]
        [⟨[[("id", JSV.str "1")]], none, some "hb"⟩,
         ⟨[[("id", JSV.str "2")]], none, some "hc"⟩] ["id"]).updated.map
          (projPkHash ["id"])).Perm
      ((fetchDeltaRel ["id"]
          ⟨entitiesOf ["id"] [⟨[[("id", JSV.str "1")]], none, some "ha"⟩],
           entitiesOf ["id"] [⟨[[("id", JSV.str "1")]], none, some "hb"⟩,
             ⟨[[("id", JSV.str "2")]], none, some "hc"⟩]⟩).updated.map
          (projPkHash ["id"])) :=
  (engine_equivalence ["id"] [⟨[[("id", JSV.str "1")]], none, some "ha"⟩]
    [⟨[[("id", JSV.str "1")]], none, some "hb"⟩, ⟨[[("id", JSV.str "2")]], none, some "hc"⟩]
    (by decide) (by decide) (by decide) (by decide) (by decide) (by decide) (by decide)).2.1

/-! ### JS `Set` iteration (`eraseDups`) on duplicate-free lists -/

theorem eraseDups_loop_eq : ∀ (l acc : List String), l.Nodup →
    (∀ a ∈ l, ¬ a ∈ acc) →
    List.eraseDups.loop l acc = acc.reverse ++ l := by
  intro l
  induction l with
  | nil =>
    intro acc _ _
    simp [List.eraseDups.loop]
  | cons a as ih =>
    intro acc hnd hdis
    have hel : acc.elem a = false := by
      cases he : acc.elem a with
      | false => rfl
      | true => exact absurd (List.elem_iff.mp he) (hdis a (List.mem_cons_self _ _))
    rw [List.eraseDups.loop, hel]
    show List.eraseDups.loop as (a :: acc) = _
    have hdis2 : ∀ x ∈ as, ¬ x ∈ a :: acc := by
      intro x hx hmem
      rcases List.mem_cons.mp hmem with rfl | hacc
      · exact (List.nodup_cons.mp hnd).1 hx
      · exact hdis x (List.mem_cons_of_mem _ hx) hacc
    rw [ih (a :: acc) (List.nodup_cons.mp hnd).2 hdis2]
    simp

theorem eraseDups_eq_self {l : List String} (hnd : l.Nodup) : l.eraseDups = l := by
  rw [show l.eraseDups = List.eraseDups.loop l [] from rfl,
    eraseDups_loop_eq l [] hnd (fun a _ h => (List.not_mem_nil a) h)]
  rfl

theorem eraseDups_loop_nodup : ∀ (l acc : List String), acc.Nodup →
    (List.eraseDups.loop l acc).Nodup := by
  intro l
  induction l with
  | nil =>
    intro acc hacc
    simpa [List.eraseDups.loop, List.nodup_reverse] using hacc
  | cons a as ih =>
    intro acc hacc
    rw [List.eraseDups.loop]
    cases he : acc.elem a with
    | true => exact ih acc hacc
    | false =>
      refine ih (a :: acc) (List.nodup_cons.mpr ⟨fun hm => ?_, hacc⟩)
      have ht : acc.elem a = true := List.elem_iff.mpr hm
      rw [he] at ht
      exact Bool.noConfusion ht

theorem getPrimaryKey_nodup (defs : List FieldDefinition) : (getPrimaryKey defs).Nodup :=
  eraseDups_loop_nodup _ [] List.nodup_nil

/-! ### The key-and-hash projection of a record -/

/-- The per-record projection of `getKeyAndHashFieldSets`. -/
def keyHashProj (defs : List FieldDefinition) (fs : FieldSet) : FieldSet :=
  { fieldValues := fs.fieldValues.filter fun fv =>
      match fieldFirstKey fv with
      | some k => ((defs.filter (·.isPrimaryKey)).map (·.name)).contains k
      | none => false
    hash := fs.hash
    validationMessages := fs.validationMessages }

theorem getKeyAndHash_eq_map (defs : List FieldDefinition) (fieldSets : List FieldSet) :
    getKeyAndHashFieldSets defs fieldSets = fieldSets.map (keyHashProj defs) := rfl

theorem find?_filter_firstKey (pkNames : List String) (k : String)
    (hk : pkNames.contains k = true) (fv : List Field) :
    (fv.filter fun f => match fieldFirstKey f with
        | some k0 => pkNames.contains k0
        | none => false).find? (fun f => fieldFirstKey f == some k)
      = fv.find? (fun f => fieldFirstKey f == some k) := by
  induction fv with
  | nil => rfl
  | cons f fs ih =>
    rw [List.filter_cons]
    cases hpred : (fieldFirstKey f == some k) with
    | true =>
      have hkeep : (match fieldFirstKey f with
          | some k0 => pkNames.contains k0
          | none => false) = true := by
        rw [beq_iff_eq.mp hpred]
        exact hk
      rw [if_pos hkeep,
        List.find?_cons_of_pos (p := fun f => fieldFirstKey f == some k) (a := f) _ hpred,
        List.find?_cons_of_pos (p := fun f => fieldFirstKey f == some k) (a := f) _ hpred]
    | false =>
      rw [List.find?_cons_of_neg (p := fun f => fieldFirstKey f == some k) (a := f) _
        (by simp [hpred])]
      by_cases hkeep : (match fieldFirstKey f with
          | some k0 => pkNames.contains k0
          | none => false) = true
      · rw [if_pos hkeep,
          List.find?_cons_of_neg (p := fun f => fieldFirstKey f == some k) (a := f) _
            (by simp [hpred]), ih]
      · rw [if_neg hkeep, ih]

theorem pkTuple_keyHashProj (defs : List FieldDefinition) (fs : FieldSet)
    (heq : getPrimaryKey defs = (defs.filter (·.isPrimaryKey)).map (·.name)) :
    pkTuple (getPrimaryKey defs) (keyHashProj defs fs)
      = pkTuple (getPrimaryKey defs) fs := by
  rw [pkTuple, pkTuple, primaryKeyValues, primaryKeyValues]
  refine List.map_congr_left fun k hk => ?_
  have hkc : ((defs.filter (·.isPrimaryKey)).map (·.name)).contains k = true := by
    rw [heq] at hk
    exact List.elem_iff.mpr hk
  rw [show (keyHashProj defs fs).fieldValues
      = fs.fieldValues.filter (fun f => match fieldFirstKey f with
          | some k0 => ((defs.filter (·.isPrimaryKey)).map (·.name)).contains k0
          | none => false) from rfl,
    find?_filter_firstKey _ k hkc fs.fieldValues]

theorem pkv_keyHashProj (defs : List FieldDefinition) (fs : FieldSet)
    (heq : getPrimaryKey defs = (defs.filter (·.isPrimaryKey)).map (·.name)) :
    pkv (getPrimaryKey defs) (keyHashProj defs fs) = pkv (getPrimaryKey defs) fs := by
  rw [pkv_eq_intercalate, pkv_eq_intercalate, pkTuple_keyHashProj defs fs heq]

theorem wf_keyHashProj (defs : List FieldDefinition) {fs : FieldSet}
    (heq : getPrimaryKey defs = (defs.filter (·.isPrimaryKey)).map (·.name))
    (hwf : wfPkRecord (getPrimaryKey defs) fs = true) :
    wfPkRecord (getPrimaryKey defs) (keyHashProj defs fs) = true := by
  rw [wfPkRecord, Bool.and_eq_true] at hwf ⊢
  constructor
  · rw [List.all_eq_true]
    intro f hf
    exact List.all_eq_true.mp hwf.1 f (List.mem_filter.mp hf).1
  · rw [List.all_eq_true]
    intro k hk
    have hkc : ((defs.filter (·.isPrimaryKey)).map (·.name)).contains k = true := by
      rw [heq] at hk
      exact List.elem_iff.mpr hk
    rw [show (keyHashProj defs fs).fieldValues
        = fs.fieldValues.filter (fun f => match fieldFirstKey f with
            | some k0 => ((defs.filter (·.isPrimaryKey)).map (·.name)).contains k0
            | none => false) from rfl,
      find?_filter_firstKey _ k hkc fs.fieldValues]
    exact List.all_eq_true.mp hwf.2 k hk

/-! ### A closed form for the failures loop of repair -/

/-- What the failures loop does to one current record whose key may be
among the failed keys: overwrite its hash from the previous map, drop it,
or leave it alone. -/
def repairOutcome (pk : List String) (previous : List FieldSet) (keys : List String)
    (c : FieldSet) : Option FieldSet :=
  if keys.contains (pkv pk c) then
    match previous.reverse.find? (fun p => pkv pk p == pkv pk c) with
    | some p => some { c with hash := p.hash }
    | none => none
  else some c

theorem filterMap_congr_mem {α β : Type} {l : List α} {f g : α → Option β}
    (h : ∀ a ∈ l, f a = g a) : l.filterMap f = l.filterMap g := by
  induction l with
  | nil => rfl
  | cons a as ih =>
    rw [List.filterMap_cons, List.filterMap_cons, h a (List.mem_cons_self _ _),
      ih (fun x hx => h x (List.mem_cons_of_mem _ hx))]

theorem filterMap_some_of {α : Type} {l : List α} {f : α → Option α}
    (h : ∀ a ∈ l, f a = some a) : l.filterMap f = l := by
  rw [filterMap_congr_mem h, List.filterMap_some]

theorem repairOutcome_cons_ne {pk : List String} {previous : List FieldSet}
    {s : String} {keys : List String} {c : FieldSet} (hne : ¬ pkv pk c = s) :
    repairOutcome pk previous (s :: keys) c = repairOutcome pk previous keys c := by
  rw [repairOutcome, repairOutcome, List.contains_cons,
    show (pkv pk c == s) = false from by simpa using hne, Bool.false_or]

/-- One failures-loop step, pushed inside the closed form: under unique
current keys, repairing key `s` and then resolving the remaining keys is
resolving `s :: keys` directly. -/
theorem repairStep (pk : List String) (previous : List FieldSet) (s : String)
    (ks : List String) : ∀ (current : List FieldSet),
    ((current.map (pkv pk)).Nodup) → ¬ s ∈ ks →
    (restoreHashForPrimaryKey pk previous current s).filterMap
        (repairOutcome pk previous ks)
      = current.filterMap (repairOutcome pk previous (s :: ks)) := by
  intro current
  induction current with
  | nil =>
    intro _ _
    cases hfind : previous.reverse.find? (fun p => pkv pk p == s) with
    | some p => rw [restoreHash_eq_set [] hfind]; rfl
    | none => rw [restoreHash_eq_drop [] hfind]; rfl
  | cons c cs ih =>
    intro hnd hs
    have hndcs : (cs.map (pkv pk)).Nodup := (List.nodup_cons.mp (by simpa using hnd)).2
    have hhead : pkv pk c ∉ cs.map (pkv pk) := (List.nodup_cons.mp (by simpa using hnd)).1
    by_cases hc : pkv pk c = s
    · -- the head is the repaired record
      have htail_congr : cs.filterMap (repairOutcome pk previous (s :: ks))
          = cs.filterMap (repairOutcome pk previous ks) :=
        filterMap_congr_mem fun x hx =>
          repairOutcome_cons_ne (fun hxs => hhead (by
            rw [hc, ← hxs]
            exact List.mem_map_of_mem (pkv pk) hx))
      cases hfind : previous.reverse.find? (fun p => pkv pk p == s) with
      | some p =>
        rw [restoreHash_eq_set (c :: cs) hfind, setFirstBy, if_pos (beq_iff_eq.mpr hc)]
        rw [List.filterMap_cons, List.filterMap_cons]
        have hout1 : repairOutcome pk previous ks ({ c with hash := p.hash })
            = some { c with hash := p.hash } := by
          rw [repairOutcome, if_neg]
          rw [pkv_set_hash, hc]
          exact fun hmem => hs (List.elem_iff.mp hmem)
        have hout2 : repairOutcome pk previous (s :: ks) c
            = some { c with hash := p.hash } := by
          rw [repairOutcome, if_pos, hc, hfind]
          rw [List.contains_cons, hc]
          simp
        rw [hout1, hout2, htail_congr]
      | none =>
        rw [restoreHash_eq_drop (c :: cs) hfind, dropFirstBy, if_pos (beq_iff_eq.mpr hc)]
        rw [List.filterMap_cons]
        have hout2 : repairOutcome pk previous (s :: ks) c = none := by
          rw [repairOutcome, if_pos, hc, hfind]
          rw [List.contains_cons, hc]
          simp
        rw [hout2, htail_congr]
    · -- the head is untouched by this step
      have hires := ih hndcs hs
      have hhead_congr : repairOutcome pk previous (s :: ks) c
          = repairOutcome pk previous ks c := repairOutcome_cons_ne hc
      cases hfind : previous.reverse.find? (fun p => pkv pk p == s) with
      | some p =>
        rw [restoreHash_eq_set (c :: cs) hfind, setFirstBy,
          if_neg (by simpa using hc)]
        rw [List.filterMap_cons, List.filterMap_cons, hhead_congr,
          ← restoreHash_eq_set cs hfind, hires]
      | none =>
        rw [restoreHash_eq_drop (c :: cs) hfind, dropFirstBy,
          if_neg (by simpa using hc)]
        rw [List.filterMap_cons, List.filterMap_cons, hhead_congr,
          ← restoreHash_eq_drop cs hfind, hires]

/-- The failures loop, as one `filterMap` over the current records: under
unique current keys and unique failure keys, each record's fate depends
only on whether its key failed and whether the previous map knows it. -/
theorem restoreFailures_eq_filterMap (pk : List String) (previous : List FieldSet) :
    ∀ (fails : List SinglePushResult) (current : List FieldSet),
    ((current.map (pkv pk)).Nodup) →
    ((fails.map fun f => failurePkKey f.primaryKey).Nodup) →
    restoreFailures pk previous current fails
      = current.filterMap
          (repairOutcome pk previous (fails.map fun f => failurePkKey f.primaryKey)) := by
  intro fails
  induction fails with
  | nil =>
    intro current _ _
    rw [show restoreFailures pk previous current [] = current from rfl]
    exact (filterMap_some_of fun c _ => by rw [repairOutcome, if_neg (by simp)]).symm
  | cons f fs ih =>
    intro current hndc hndk
    rw [restoreFailures, List.foldl_cons, ← restoreFailures]
    rw [ih _ (nodup_restoreHash pk previous _ current hndc)
      (List.nodup_cons.mp (by simpa using hndk)).2]
    exact repairStep pk previous (failurePkKey f.primaryKey) _ current hndc
      (List.nodup_cons.mp (by simpa using hndk)).1

/-! ### Reconstructed records: joined values, field names, keys -/

theorem jsSplitPipe_intercalate_ne {t : List String} (hne : t ≠ [])
    (htf : ∀ s ∈ t, ¬ '|' ∈ s.data) :
    jsSplitPipe (String.intercalate "|" t) = t := by
  match t, hne with
  | a :: as, _ => exact jsSplitPipe_intercalate as a htf

theorem fieldVals_join_recon (pk : List String) {t : List String}
    (hne : t ≠ []) (hlen : t.length = pk.length)
    (htf : ∀ s ∈ t, ¬ '|' ∈ s.data) (h : String) :
    ((toKeyAndHashFieldSet pk (String.intercalate "|" t, h)).fieldValues.map
      fun f => joinElemStr (fieldFirstVal f)) = t := by
  have hsplit := jsSplitPipe_intercalate_ne hne htf
  rw [show (toKeyAndHashFieldSet pk (String.intercalate "|" t, h)).fieldValues
      = pk.enum.map (fun ik =>
          [(ik.2, JSV.str ((jsSplitPipe (String.intercalate "|" t)).getD ik.1 ""))]) from rfl,
    hsplit, List.map_map]
  refine List.ext_getElem (by simp [hlen]) ?_
  intro j h1 h2
  rw [List.getElem_map]
  have hj : j < pk.length := by simpa using h1
  have henum : j < pk.enum.length := by simpa using hj
  rw [show pk.enum[j] = (j, pk[j]) from List.getElem_enum _ _ _]
  show t.getD j "" = t[j]
  rw [List.getD_eq_getElem t "" h2]

theorem failurePkKey_recon (pk : List String) {t : List String}
    (hne : t ≠ []) (hlen : t.length = pk.length)
    (htf : ∀ s ∈ t, ¬ '|' ∈ s.data) (h : String) :
    failurePkKey (toKeyAndHashFieldSet pk (String.intercalate "|" t, h)).fieldValues
      = String.intercalate "|" t := by
  rw [failurePkKey, fieldVals_join_recon pk hne hlen htf h]

theorem limitPkString_eq_failureKey (fv : List Field) (m : Option VMsgs) (h : Option String) :
    limitPkString ⟨fv, m, h⟩ = failurePkKey fv := rfl

theorem firstKeys_recon (pk : List String) (row : RelRow) :
    ((toKeyAndHashFieldSet pk row).fieldValues.map
      fun fv => (fieldFirstKey fv).getD "") = pk := by
  rw [show (toKeyAndHashFieldSet pk row).fieldValues
      = pk.enum.map (fun ik =>
          [(ik.2, JSV.str ((jsSplitPipe row.1).getD ik.1 ""))]) from rfl,
    List.map_map]
  exact List.enum_map_snd pk

theorem pkv_recon_entf {pk : List String} (hnd : pk.Nodup) (hpk : pk ≠ [])
    {p : FieldSet} (hwf : wfPkRecord pk p = true) (hh : strTruthy p.hash = true) :
    pkv pk (toKeyAndHashFieldSet pk (fromKeyAndHashFieldSet pk p)) = pkv pk p := by
  have h := projPkHash_recon hnd hpk hwf hh
  rw [projPkHash, projPkHash, Prod.mk.injEq] at h
  rw [pkv_eq_intercalate, pkv_eq_intercalate, h.1]

theorem hash_recon_entf {pk : List String} (hnd : pk.Nodup) (hpk : pk ≠ [])
    {p : FieldSet} (hwf : wfPkRecord pk p = true) (hh : strTruthy p.hash = true) :
    (toKeyAndHashFieldSet pk (fromKeyAndHashFieldSet pk p)).hash = p.hash := by
  have h := projPkHash_recon hnd hpk hwf hh
  rw [projPkHash, projPkHash, Prod.mk.injEq] at h
  exact h.2

theorem map_filterMap_of {α β : Type} (l : List α) (f : α → Option α) (g : α → β)
    (h : ∀ a ∈ l, ∀ y, f a = some y → g y = g a) :
    (l.filterMap f).map g = (l.filter fun a => (f a).isSome).map g := by
  induction l with
  | nil => rfl
  | cons a as ih =>
    rw [List.filterMap_cons, List.filter_cons]
    cases hf : f a with
    | none =>
      rw [if_neg (by simp [hf])]
      exact ih (fun x hx => h x (List.mem_cons_of_mem _ hx))
    | some y =>
      rw [if_pos (by simp [hf])]
      rw [List.map_cons, List.map_cons, h a (List.mem_cons_self _ _) y hf,
        ih (fun x hx => h x (List.mem_cons_of_mem _ hx))]

/-- The combinatorial heart of baseline stability: after a total-failure
push, resolving the failed keys (`keys`) against the fetched previous
records (`fetched`) turns the current key+hash projections back into the
previous baseline, as a multiset of entity rows — and the result is
non-empty.  `khProj` is the per-record key-and-hash projection; `keys` and
`fetched` are characterized by the hypotheses rather than spelled out. -/
theorem repaired_entities_perm (pk : List String) (prevData parsed : List FieldSet)
    (khProj : FieldSet → FieldSet) (keys : List String) (fetched : List FieldSet)
    (hkh_pkv : ∀ c ∈ parsed, pkv pk (khProj c) = pkv pk c)
    (hkh_hash : ∀ c ∈ parsed, (khProj c).hash = c.hash)
    (hndpk : pk.Nodup) (hpk : pk ≠ [])
    (hwf : ∀ r ∈ prevData ++ parsed, wfPkRecord pk r = true)
    (hhash : ∀ r ∈ prevData ++ parsed, strTruthy r.hash = true)
    (hndp : (prevData.map (pkTuple pk)).Nodup)
    (hndc : (parsed.map (pkTuple pk)).Nodup)
    (hsub : ∀ p ∈ prevData, pkTuple pk p ∈ parsed.map (pkTuple pk))
    (hne : prevData ≠ [])
    (hkeys : ∀ c ∈ parsed, (keys.contains (pkv pk c) = true ↔
      (¬ pkTuple pk c ∈ prevData.map (pkTuple pk)
        ∨ ∃ p ∈ prevData, pkTuple pk p = pkTuple pk c ∧ p.hash ≠ c.hash)))
    (hfetched : ∀ g ∈ fetched, ∃ p ∈ prevData,
        g = toKeyAndHashFieldSet pk (fromKeyAndHashFieldSet pk p))
    (hfetched_has : ∀ p ∈ prevData, keys.contains (pkv pk p) = true →
        toKeyAndHashFieldSet pk (fromKeyAndHashFieldSet pk p) ∈ fetched) :
    (entitiesOf pk ((parsed.map khProj).filterMap (repairOutcome pk fetched keys))).Perm
      (entitiesOf pk prevData)
    ∧ (parsed.map khProj).filterMap (repairOutcome pk fetched keys) ≠ [] := by
  have hhc : ∀ r ∈ parsed, strTruthy r.hash = true :=
    fun r hr => hhash r (List.mem_append.mpr (Or.inr hr))
  have hhp : ∀ r ∈ prevData, strTruthy r.hash = true :=
    fun r hr => hhash r (List.mem_append.mpr (Or.inl hr))
  have hwfc : ∀ r ∈ parsed, wfPkRecord pk r = true :=
    fun r hr => hwf r (List.mem_append.mpr (Or.inr hr))
  have hwfp : ∀ r ∈ prevData, wfPkRecord pk r = true :=
    fun r hr => hwf r (List.mem_append.mpr (Or.inl hr))
  have hpInj : ∀ p ∈ prevData, ∀ q ∈ prevData, pkv pk p = pkv pk q → p = q :=
    fun p hp q hq hpq => List.inj_on_of_nodup_map hndp hp hq
      ((pkv_inj hpk (hwfp p hp) (hwfp q hq)).mp hpq)
  have hpv_of_t : ∀ {a b : FieldSet}, pkTuple pk a = pkTuple pk b →
      pkv pk a = pkv pk b :=
    fun ht => by rw [pkv_eq_intercalate, pkv_eq_intercalate, ht]
  -- the find over the fetched records, for a key with a previous record
  have hfind_char : ∀ c ∈ parsed, ∀ p ∈ prevData, pkTuple pk p = pkTuple pk c →
      keys.contains (pkv pk c) = true →
      fetched.reverse.find? (fun q => pkv pk q == pkv pk c)
        = some (toKeyAndHashFieldSet pk (fromKeyAndHashFieldSet pk p)) := by
    intro c hc p hp hpt hcont
    have hpvc : pkv pk p = pkv pk c := hpv_of_t hpt
    cases hfind : fetched.reverse.find? (fun q => pkv pk q == pkv pk c) with
    | none =>
      exfalso
      have hmem : toKeyAndHashFieldSet pk (fromKeyAndHashFieldSet pk p)
          ∈ fetched.reverse :=
        List.mem_reverse.mpr (hfetched_has p hp (by rw [hpvc]; exact hcont))
      have hno := List.find?_eq_none.mp hfind _ hmem
      rw [pkv_recon_entf hndpk hpk (hwfp p hp) (hhp p hp), hpvc] at hno
      simp at hno
    | some g =>
      have hpred := List.find?_some hfind
      obtain ⟨p', hp', rfl⟩ := hfetched g
        (List.mem_reverse.mp (List.mem_of_find?_eq_some hfind))
      rw [pkv_recon_entf hndpk hpk (hwfp p' hp') (hhp p' hp')] at hpred
      rw [hpInj p' hp' p hp ((beq_iff_eq.mp hpred).trans hpvc.symm)]
  -- a key that did not fail belongs to a record with an equal-hash partner
  have hkept : ∀ c ∈ parsed, ¬ keys.contains (pkv pk c) = true →
      ∃ p ∈ prevData, pkTuple pk p = pkTuple pk c ∧ p.hash = c.hash := by
    intro c hc hcont
    have hnk : ¬(¬ pkTuple pk c ∈ prevData.map (pkTuple pk)
        ∨ ∃ p ∈ prevData, pkTuple pk p = pkTuple pk c ∧ p.hash ≠ c.hash) :=
      fun hor => hcont ((hkeys c hc).mpr hor)
    have htmem : pkTuple pk c ∈ prevData.map (pkTuple pk) := by
      by_contra hno
      exact hnk (Or.inl hno)
    obtain ⟨p, hp, hpt⟩ := List.mem_map.mp htmem
    refine ⟨p, hp, hpt, ?_⟩
    by_contra hdiff
    exact hnk (Or.inr ⟨p, hp, hpt, hdiff⟩)
  -- if the outcome keeps a record, its entity row is a previous entity row
  have hout_some : ∀ c ∈ parsed, ∀ y,
      repairOutcome pk fetched keys (khProj c) = some y →
      strTruthy y.hash = true ∧ pkv pk y = pkv pk c
        ∧ fromKeyAndHashFieldSet pk y ∈ (entitiesOf pk prevData) := by
    intro c hc y hy
    rw [repairOutcome, hkh_pkv c hc] at hy
    by_cases hcont : keys.contains (pkv pk c) = true
    · rw [if_pos hcont] at hy
      cases hfind : fetched.reverse.find? (fun q => pkv pk q == pkv pk c) with
      | none =>
        rw [hfind] at hy
        exact Option.noConfusion hy
      | some g =>
        rw [hfind] at hy
        obtain ⟨p', hp', rfl⟩ := hfetched g
          (List.mem_reverse.mp (List.mem_of_find?_eq_some hfind))
        have hpred := List.find?_some hfind
        rw [pkv_recon_entf hndpk hpk (hwfp p' hp') (hhp p' hp')] at hpred
        have hgh := hash_recon_entf hndpk hpk (hwfp p' hp') (hhp p' hp')
        have hy2 : some ({ khProj c with
            hash := (toKeyAndHashFieldSet pk (fromKeyAndHashFieldSet pk p')).hash }
            : FieldSet) = some y := hy
        rw [hgh] at hy2
        have hyv : y = { khProj c with hash := p'.hash } := (Option.some.inj hy2).symm
        refine ⟨?_, ?_, ?_⟩
        · rw [hyv]
          show strTruthy p'.hash = true
          exact hhp p' hp'
        · rw [hyv, pkv_set_hash, hkh_pkv c hc]
        · rw [entitiesOf_eq_map hhp]
          refine List.mem_map.mpr ⟨p', hp', ?_⟩
          show (pkv pk p', p'.hash.getD "") = (pkv pk y, y.hash.getD "")
          have h1 : pkv pk y = pkv pk p' := by
            rw [hyv, pkv_set_hash, hkh_pkv c hc, beq_iff_eq.mp hpred]
          have h2 : y.hash = p'.hash := by
            rw [hyv]
          rw [h1, h2]
    · rw [if_neg hcont] at hy
      have hyc : y = khProj c := (Option.some.inj hy).symm
      obtain ⟨p, hp, hpt, hph⟩ := hkept c hc hcont
      refine ⟨?_, ?_, ?_⟩
      · rw [hyc]
        show strTruthy (khProj c).hash = true
        rw [hkh_hash c hc]
        exact hhc c hc
      · rw [hyc, hkh_pkv c hc]
      · rw [entitiesOf_eq_map hhp]
        refine List.mem_map.mpr ⟨p, hp, ?_⟩
        show (pkv pk p, p.hash.getD "") = (pkv pk y, y.hash.getD "")
        rw [hyc, hkh_pkv c hc, hkh_hash c hc, hpv_of_t hpt, hph]
  -- every previous entity row is hit by the repaired list
  have hhit : ∀ p ∈ prevData, ∃ c ∈ parsed, ∃ y,
      repairOutcome pk fetched keys (khProj c) = some y
        ∧ fromKeyAndHashFieldSet pk y = fromKeyAndHashFieldSet pk p := by
    intro p hp
    obtain ⟨c, hc, hct⟩ := List.mem_map.mp (hsub p hp)
    have hpvc : pkv pk p = pkv pk c := hpv_of_t hct.symm
    by_cases hcont : keys.contains (pkv pk c) = true
    · refine ⟨c, hc, { khProj c with hash := p.hash }, ?_, ?_⟩
      · have hstep : repairOutcome pk fetched keys (khProj c)
            = some ({ khProj c with
              hash := (toKeyAndHashFieldSet pk (fromKeyAndHashFieldSet pk p)).hash }
              : FieldSet) := by
          rw [repairOutcome, hkh_pkv c hc, if_pos hcont, hfind_char c hc p hp hct.symm hcont]
        rw [hstep, hash_recon_entf hndpk hpk (hwfp p hp) (hhp p hp)]
      · show (pkv pk ({ khProj c with hash := p.hash } : FieldSet), p.hash.getD "")
          = (pkv pk p, p.hash.getD "")
        rw [pkv_set_hash, hkh_pkv c hc, hpvc]
    · refine ⟨c, hc, khProj c, ?_, ?_⟩
      · rw [repairOutcome, hkh_pkv c hc, if_neg hcont]
      · obtain ⟨q, hq, hqt, hqh⟩ := hkept c hc hcont
        have hqp : q = p := hpInj q hq p hp ((hpv_of_t hqt).trans hpvc.symm)
        show (pkv pk (khProj c), (khProj c).hash.getD "") = (pkv pk p, p.hash.getD "")
        rw [hkh_pkv c hc, hkh_hash c hc, ← hpvc, ← hqp, hqh]
  -- every record of the repaired list carries a truthy hash
  have hLhash : ∀ y ∈ (parsed.map khProj).filterMap (repairOutcome pk fetched keys),
      strTruthy y.hash = true := by
    intro y hy
    rw [List.filterMap_map] at hy
    obtain ⟨c, hc, hFc⟩ := List.mem_filterMap.mp hy
    exact (hout_some c hc y hFc).1
  -- nodup of the entity rows on both sides
  have hndBmap : ((entitiesOf pk prevData).map Prod.fst).Nodup := by
    rw [entitiesOf_eq_map hhp, List.map_map]
    exact nodup_map_pkv hpk hwfp hndp
  have hndB : (entitiesOf pk prevData).Nodup := List.Nodup.of_map Prod.fst hndBmap
  have hLpkv : (((parsed.map khProj).filterMap
      (repairOutcome pk fetched keys)).map (pkv pk)).Nodup := by
    have h1 := map_filterMap_of parsed (fun a => repairOutcome pk fetched keys (khProj a))
      (pkv pk) (fun a ha y hy => (hout_some a ha y hy).2.1)
    have h0 : (((parsed.map khProj).filterMap (repairOutcome pk fetched keys)).map (pkv pk))
        = ((parsed.filter fun a =>
            (repairOutcome pk fetched keys (khProj a)).isSome).map (pkv pk)) := by
      rw [List.filterMap_map]
      exact h1
    rw [h0]
    exact ((List.filter_sublist _).map (pkv pk)).nodup (nodup_map_pkv hpk hwfc hndc)
  have hndL : (((parsed.map khProj).filterMap (repairOutcome pk fetched keys)).map
      (fromKeyAndHashFieldSet pk)).Nodup := by
    refine List.Nodup.of_map Prod.fst ?_
    rw [List.map_map]
    exact hLpkv
  constructor
  · rw [entitiesOf_eq_map hLhash]
    refine (List.perm_ext_iff_of_nodup hndL hndB).mpr fun row => ?_
    constructor
    · intro hrow
      obtain ⟨y, hyL, rfl⟩ := List.mem_map.mp hrow
      rw [List.filterMap_map] at hyL
      obtain ⟨c, hc, hFc⟩ := List.mem_filterMap.mp hyL
      exact (hout_some c hc y hFc).2.2
    · intro hrow
      have hrow2 := hrow
      rw [entitiesOf_eq_map hhp] at hrow2
      obtain ⟨p, hp, rfl⟩ := List.mem_map.mp hrow2
      obtain ⟨c, hc, y, hFc, hye⟩ := hhit p hp
      refine List.mem_map.mpr ⟨y, ?_, hye⟩
      rw [List.filterMap_map]
      exact List.mem_filterMap.mpr ⟨c, hc, hFc⟩
  · obtain ⟨p0, hp0⟩ : ∃ p0, p0 ∈ prevData := by
      cases prevData with
      | nil => exact absurd rfl hne
      | cons a l => exact ⟨a, List.mem_cons_self _ _⟩
    obtain ⟨c0, hc0, y0, hF0, -⟩ := hhit p0 hp0
    intro hnil
    have hy0 : y0 ∈ (parsed.map khProj).filterMap (repairOutcome pk fetched keys) := by
      rw [List.filterMap_map]
      exact List.mem_filterMap.mpr ⟨c0, hc0, hF0⟩
    rw [hnil] at hy0
    cases hy0

/-- **C2, amended.**  Baseline stability on total push failure, for the
relational backend, restricted as the counterexample forces: the cycle must
not *delete* any baseline record (every previous key still occurs in the
parsed input) and the baseline must be non-empty — a failed DELETE push is
dropped from the committed baseline, because repair cannot restore a record
that is absent from the current input.  Under those restrictions (plus
well-formedness: unique pk names, non-empty pk, hashed validation-clean
records, unique keys per side, hash/key coherence), the baseline committed
after repair equals the pre-cycle baseline as a multiset of (key, hash)
rows. -/
theorem baseline_stability (defs : List FieldDefinition) (st : RelState)
    (prevData parsed : List FieldSet)
    (hpname : ((defs.filter (·.isPrimaryKey)).map (·.name)).Nodup)
    (hpk : getPrimaryKey defs ≠ [])
    (hst : st.tables.current = entitiesOf (getPrimaryKey defs) prevData)
    (hwf : ∀ r ∈ prevData ++ parsed, wfPkRecord (getPrimaryKey defs) r = true)
    (hhash : ∀ r ∈ prevData ++ parsed, strTruthy r.hash = true)
    (hmsg : ∀ r ∈ parsed, r.validationMessages = none)
    (hndp : (prevData.map (pkTuple (getPrimaryKey defs))).Nodup)
    (hndc : (parsed.map (pkTuple (getPrimaryKey defs))).Nodup)
    (hsub : ∀ p ∈ prevData,
      pkTuple (getPrimaryKey defs) p ∈ parsed.map (pkTuple (getPrimaryKey defs)))
    (hne : prevData ≠ []) :
    ((runCycleRel defs st parsed
        (totalFailureOf (fetchDeltaRel (getPrimaryKey defs)
          (storeCurrentData (getPrimaryKey defs) st.tables parsed)))).1.tables.previous).Perm
      (entitiesOf (getPrimaryKey defs) prevData) := by
  have heq : getPrimaryKey defs = (defs.filter (·.isPrimaryKey)).map (·.name) := by
    rw [getPrimaryKey]
    exact eraseDups_eq_self hpname
  have hndpk : (getPrimaryKey defs).Nodup := getPrimaryKey_nodup defs
  have hhc : ∀ r ∈ parsed, strTruthy r.hash = true :=
    fun r hr => hhash r (List.mem_append.mpr (Or.inr hr))
  have hhp : ∀ r ∈ prevData, strTruthy r.hash = true :=
    fun r hr => hhash r (List.mem_append.mpr (Or.inl hr))
  have hwfc : ∀ r ∈ parsed, wfPkRecord (getPrimaryKey defs) r = true :=
    fun r hr => hwf r (List.mem_append.mpr (Or.inr hr))
  have hwfp : ∀ r ∈ prevData, wfPkRecord (getPrimaryKey defs) r = true :=
    fun r hr => hwf r (List.mem_append.mpr (Or.inl hr))
  have hcInj : ∀ c ∈ parsed, ∀ d ∈ parsed,
      pkv (getPrimaryKey defs) c = pkv (getPrimaryKey defs) d → c = d :=
    fun c hc d hd hcd => List.inj_on_of_nodup_map hndc hc hd
      ((pkv_inj hpk (hwfc c hc) (hwfc d hd)).mp hcd)
  set pk := getPrimaryKey defs with hpkd
  set A := parsed.filter fun c =>
    !((prevData.map (pkTuple pk)).contains (pkTuple pk c)) with hA
  set U := parsed.filter fun c => prevData.any fun p =>
    (pkTuple pk p == pkTuple pk c) && !(p.hash == c.hash) with hU
  have hAU_parsed : ∀ c ∈ A ++ U, c ∈ parsed := by
    intro c hcm
    rcases List.mem_append.mp hcm with hx | hx
    · exact (List.mem_filter.mp (hA ▸ hx)).1
    · exact (List.mem_filter.mp (hU ▸ hx)).1
  -- the staged tables
  have htab : storeCurrentData pk st.tables parsed
      = ⟨entitiesOf pk prevData, entitiesOf pk parsed⟩ := by
    rw [storeCurrentData, hst]
  -- the three delta groups
  have hremEq : (fetchDeltaRel pk (storeCurrentData pk st.tables parsed)).removed = [] := by
    show (relRemoved (storeCurrentData pk st.tables parsed)).map (toKeyAndHashFieldSet pk) = []
    rw [htab, rd_removed_rows pk prevData parsed hpk hwf hhash]
    have hnil : prevData.filter
        (fun p => !((parsed.map (pkTuple pk)).contains (pkTuple pk p))) = [] := by
      refine List.filter_eq_nil_iff.mpr fun p hp hpred => ?_
      have hct : (parsed.map (pkTuple pk)).contains (pkTuple pk p) = true :=
        List.elem_iff.mpr (hsub p hp)
      rw [hct] at hpred
      simp at hpred
    rw [hnil]
    rfl
  have haddEq : (fetchDeltaRel pk (storeCurrentData pk st.tables parsed)).added
      = A.map fun c => toKeyAndHashFieldSet pk (fromKeyAndHashFieldSet pk c) := by
    show (relAdded (storeCurrentData pk st.tables parsed)).map (toKeyAndHashFieldSet pk) = _
    rw [htab, rd_added_rows pk prevData parsed hpk hwf hhash, List.map_map]
    rfl
  have hupdEq : (fetchDeltaRel pk (storeCurrentData pk st.tables parsed)).updated
      = U.map fun c => toKeyAndHashFieldSet pk (fromKeyAndHashFieldSet pk c) := by
    show (relUpdated (storeCurrentData pk st.tables parsed)).map (toKeyAndHashFieldSet pk) = _
    rw [htab, rd_updated_rows pk prevData parsed hpk hwf hhash hndp, List.map_map]
    rfl
  -- the push failures and their keys
  have hfailsEq : (totalFailureOf (fetchDeltaRel pk
      (storeCurrentData pk st.tables parsed))).failures
      = (A ++ U).map fun c => ({ primaryKey :=
          (toKeyAndHashFieldSet pk (fromKeyAndHashFieldSet pk c)).fieldValues }
          : SinglePushResult) := by
    show ((fetchDeltaRel pk (storeCurrentData pk st.tables parsed)).added
        ++ (fetchDeltaRel pk (storeCurrentData pk st.tables parsed)).updated
        ++ (fetchDeltaRel pk (storeCurrentData pk st.tables parsed)).removed).map
        (fun r => ({ primaryKey := r.fieldValues } : SinglePushResult)) = _
    rw [haddEq, hupdEq, hremEq, List.append_nil, ← List.map_append, List.map_map]
    rfl
  have hkeyc : ∀ c ∈ parsed,
      failurePkKey (toKeyAndHashFieldSet pk (fromKeyAndHashFieldSet pk c)).fieldValues
        = pkv pk c := by
    intro c hc
    rw [show fromKeyAndHashFieldSet pk c
        = (String.intercalate "|" (pkTuple pk c), c.hash.getD "") from rfl,
      failurePkKey_recon pk (pkTuple_ne_nil hpk c) (pkTuple_length pk c)
        (pkTuple_pipe_free (hwfc c hc)) _]
    exact (pkv_eq_intercalate pk c).symm
  have hkeysEq : ((totalFailureOf (fetchDeltaRel pk
        (storeCurrentData pk st.tables parsed))).failures.map
        fun f => failurePkKey f.primaryKey)
      = (A ++ U).map (pkv pk) := by
    rw [hfailsEq, List.map_map]
    exact List.map_congr_left fun c hcm => hkeyc c (hAU_parsed c hcm)
  -- the failed keys are pairwise distinct
  have hndAU : ((A ++ U).map (pkv pk)).Nodup := by
    rw [List.map_append, List.nodup_append]
    refine ⟨((List.filter_sublist _).map _).nodup (nodup_map_pkv hpk hwfc hndc),
      ((List.filter_sublist _).map _).nodup (nodup_map_pkv hpk hwfc hndc), ?_⟩
    intro x hxA hxU
    obtain ⟨a, haA, rfl⟩ := List.mem_map.mp hxA
    obtain ⟨u, huU, hpvu⟩ := List.mem_map.mp hxU
    obtain ⟨hap, hapred⟩ := List.mem_filter.mp (hA ▸ haA)
    obtain ⟨hup, hupred⟩ := List.mem_filter.mp (hU ▸ huU)
    have hua : u = a := hcInj u hup a hap hpvu
    obtain ⟨p, hpPrev, hppred⟩ := List.any_eq_true.mp hupred
    rw [Bool.and_eq_true, beq_iff_eq] at hppred
    have hcm : (prevData.map (pkTuple pk)).contains (pkTuple pk a) = true :=
      List.elem_iff.mpr (List.mem_map.mpr ⟨p, hpPrev, by rw [hppred.1, hua]⟩)
    rw [hcm] at hapred
    simp at hapred
  -- at least one record failed (the delta is non-empty)
  by_cases hE : isEmptyDelta (fetchDeltaRel pk
      (storeCurrentData pk st.tables parsed)) = true
  · simp only [runCycleRel, runnerComputeDeltaRel]
    rw [if_pos hE]
    show (storeCurrentData pk st.tables parsed).previous.Perm (entitiesOf pk prevData)
    rw [show (storeCurrentData pk st.tables parsed).previous
      = st.tables.current from rfl, hst]
  · have hAUne : A ++ U ≠ [] := by
      intro hnil
      apply hE
      rw [isEmptyDelta, haddEq, hupdEq, hremEq,
        (List.append_eq_nil.mp hnil).1, (List.append_eq_nil.mp hnil).2]
      rfl
    obtain ⟨c0, AU', hAUcons⟩ : ∃ c0 AU', A ++ U = c0 :: AU' := by
      cases hAUl : A ++ U with
      | nil => exact absurd hAUl hAUne
      | cons c0 AU' => exact ⟨c0, AU', rfl⟩
    have hc0p : c0 ∈ parsed := hAU_parsed c0 (by rw [hAUcons]; exact List.mem_cons_self _ _)
    -- the limitTo array is exactly the failures, as bare key records
    have hlimitEq : buildLimitToArray (getKeyAndHashFieldSets defs parsed)
        (totalFailureOf (fetchDeltaRel pk (storeCurrentData pk st.tables parsed)))
        = (A ++ U).map fun c => (⟨(toKeyAndHashFieldSet pk
            (fromKeyAndHashFieldSet pk c)).fieldValues, none, some ""⟩ : FieldSet) := by
      rw [buildLimitToArray]
      have hvalnil : (getKeyAndHashFieldSets defs parsed).filter
          (fun fs => hashFalsy fs || hasBlockingMessages fs) = [] := by
        refine List.filter_eq_nil_iff.mpr fun r hr => ?_
        rw [getKeyAndHash_eq_map] at hr
        obtain ⟨c, hc, rfl⟩ := List.mem_map.mp hr
        have h1 : hashFalsy (keyHashProj defs c) = false := by
          rw [hashFalsy, show (keyHashProj defs c).hash = c.hash from rfl, hhc c hc]
          rfl
        have h2 : hasBlockingMessages (keyHashProj defs c) = false := by
          rw [hasBlockingMessages,
            show (keyHashProj defs c).validationMessages
              = c.validationMessages from rfl, hmsg c hc]
        simp [h1, h2]
      rw [hvalnil, List.append_nil, hfailsEq, List.map_map]
      rfl
    -- the records every projected record is blocking-free
    have hKHfree : ∀ r ∈ getKeyAndHashFieldSets defs parsed,
        hasBlockingMessages r = false := by
      intro r hr
      rw [getKeyAndHash_eq_map] at hr
      obtain ⟨c, hc, rfl⟩ := List.mem_map.mp hr
      rw [hasBlockingMessages,
        show (keyHashProj defs c).validationMessages = c.validationMessages from rfl,
        hmsg c hc]
    have hndKH : ((getKeyAndHashFieldSets defs parsed).map (pkv pk)).Nodup := by
      have hmapeq : (getKeyAndHashFieldSets defs parsed).map (pkv pk)
          = parsed.map (pkv pk) := by
        rw [getKeyAndHash_eq_map, List.map_map]
        exact List.map_congr_left fun c _ => pkv_keyHashProj defs c heq
      rw [hmapeq]
      exact nodup_map_pkv hpk hwfc hndc
    -- the fetched previous records
    have hkeysmap : (((⟨(toKeyAndHashFieldSet pk
          (fromKeyAndHashFieldSet pk c0)).fieldValues, none, some ""⟩ : FieldSet)
          :: AU'.map fun c => (⟨(toKeyAndHashFieldSet pk
            (fromKeyAndHashFieldSet pk c)).fieldValues, none, some ""⟩ : FieldSet)).map
          limitPkString)
        = (A ++ U).map (pkv pk) := by
      rw [List.map_cons, List.map_map, hAUcons, List.map_cons]
      congr 1
      · rw [limitPkString_eq_failureKey]
        exact hkeyc c0 hc0p
      · refine List.map_congr_left fun c hcm => ?_
        have hcp : c ∈ parsed := hAU_parsed c (by rw [hAUcons]; exact List.mem_cons_of_mem _ hcm)
        show limitPkString ⟨(toKeyAndHashFieldSet pk
          (fromKeyAndHashFieldSet pk c)).fieldValues, none, some ""⟩ = pkv pk c
        rw [limitPkString_eq_failureKey]
        exact hkeyc c hcp
    have hnames : (((⟨(toKeyAndHashFieldSet pk
          (fromKeyAndHashFieldSet pk c0)).fieldValues, none, some ""⟩ : FieldSet)).fieldValues.map
          fun fv => (fieldFirstKey fv).getD "").eraseDups = pk := by
      show ((toKeyAndHashFieldSet pk (fromKeyAndHashFieldSet pk c0)).fieldValues.map
        fun fv => (fieldFirstKey fv).getD "").eraseDups = pk
      rw [firstKeys_recon]
      exact eraseDups_eq_self hndpk
    have hfetchEq : fetchPreviousDataRel (storeCurrentData pk st.tables parsed)
        (some (buildLimitToArray (getKeyAndHashFieldSets defs parsed)
          (totalFailureOf (fetchDeltaRel pk (storeCurrentData pk st.tables parsed)))))
        = ((entitiesOf pk prevData).filter fun row =>
            ((A ++ U).map (pkv pk)).contains row.1).map (toKeyAndHashFieldSet pk) := by
      rw [hlimitEq, hAUcons, List.map_cons]
      simp only [fetchPreviousDataRel]
      rw [hkeysmap, hnames,
        show (storeCurrentData pk st.tables parsed).previous
          = entitiesOf pk prevData from by rw [htab]]
      rw [hAUcons]
    -- the repair, in closed form
    have hrepairEq : restorePreviousHashesForFailures pk (getKeyAndHashFieldSets defs parsed)
        (((entitiesOf pk prevData).filter fun row =>
          ((A ++ U).map (pkv pk)).contains row.1).map (toKeyAndHashFieldSet pk))
        (totalFailureOf (fetchDeltaRel pk (storeCurrentData pk st.tables parsed)))
        = ((parsed.map (keyHashProj defs)).filterMap
            (repairOutcome pk
              (((entitiesOf pk prevData).filter fun row =>
                ((A ++ U).map (pkv pk)).contains row.1).map (toKeyAndHashFieldSet pk))
              ((A ++ U).map (pkv pk))),
          (totalFailureOf (fetchDeltaRel pk
            (storeCurrentData pk st.tables parsed))).failures.length) := by
      simp only [restorePreviousHashesForFailures]
      rw [validationScanGo_inert pk _ _ _ 0 0
        (blocking_free_restoreFailures pk _ _ _ hKHfree)]
      rw [restoreFailures_eq_filterMap pk _ _ _ hndKH (by rw [hkeysEq]; exact hndAU)]
      rw [hkeysEq, getKeyAndHash_eq_map, Nat.add_zero]
    -- the helper's hypotheses
    have hkeys' : ∀ c ∈ parsed, (((A ++ U).map (pkv pk)).contains (pkv pk c) = true ↔
        (¬ pkTuple pk c ∈ prevData.map (pkTuple pk)
          ∨ ∃ p ∈ prevData, pkTuple pk p = pkTuple pk c ∧ p.hash ≠ c.hash)) := by
      intro c hc
      constructor
      · intro hcont
        obtain ⟨x, hxAU, hxk⟩ := List.mem_map.mp (List.elem_iff.mp hcont)
        have hxc : x = c := hcInj x (hAU_parsed x hxAU) c hc hxk
        rcases List.mem_append.mp hxAU with hx | hx
        · left
          have hpred := (List.mem_filter.mp (hA ▸ hx)).2
          rw [hxc] at hpred
          intro hm
          have hct : (prevData.map (pkTuple pk)).contains (pkTuple pk c) = true :=
            List.elem_iff.mpr hm
          rw [hct] at hpred
          simp at hpred
        · right
          have hpred := (List.mem_filter.mp (hU ▸ hx)).2
          rw [hxc] at hpred
          obtain ⟨p, hp, hpp⟩ := List.any_eq_true.mp hpred
          rw [Bool.and_eq_true, beq_iff_eq, Bool.not_eq_true', beq_eq_false_iff_ne] at hpp
          exact ⟨p, hp, hpp.1, hpp.2⟩
      · intro hor
        refine List.elem_iff.mpr (List.mem_map.mpr ⟨c, ?_, rfl⟩)
        rcases hor with hnomem | ⟨p, hp, hpt, hdiff⟩
        · have hpred : (!((prevData.map (pkTuple pk)).contains (pkTuple pk c))) = true := by
            cases hcc : (prevData.map (pkTuple pk)).contains (pkTuple pk c) with
            | false => rfl
            | true => exact absurd (List.elem_iff.mp hcc) hnomem
          have hcA : c ∈ A := by
            rw [hA]
            exact List.mem_filter.mpr ⟨hc, hpred⟩
          exact List.mem_append.mpr (Or.inl hcA)
        · have hpred : (prevData.any fun p => (pkTuple pk p == pkTuple pk c)
              && !(p.hash == c.hash)) = true :=
            List.any_eq_true.mpr ⟨p, hp, by
              rw [Bool.and_eq_true, beq_iff_eq, Bool.not_eq_true', beq_eq_false_iff_ne]
              exact ⟨hpt, hdiff⟩⟩
          have hcU : c ∈ U := by
            rw [hU]
            exact List.mem_filter.mpr ⟨hc, hpred⟩
          exact List.mem_append.mpr (Or.inr hcU)
    have hfetched' : ∀ g ∈ ((entitiesOf pk prevData).filter fun row =>
        ((A ++ U).map (pkv pk)).contains row.1).map (toKeyAndHashFieldSet pk),
        ∃ p ∈ prevData, g = toKeyAndHashFieldSet pk (fromKeyAndHashFieldSet pk p) := by
      intro g hg
      obtain ⟨row, hrow, rfl⟩ := List.mem_map.mp hg
      have hrowB := (List.mem_filter.mp hrow).1
      rw [entitiesOf_eq_map hhp] at hrowB
      obtain ⟨p, hp, rfl⟩ := List.mem_map.mp hrowB
      exact ⟨p, hp, rfl⟩
    have hfetched_has' : ∀ p ∈ prevData,
        ((A ++ U).map (pkv pk)).contains (pkv pk p) = true →
        toKeyAndHashFieldSet pk (fromKeyAndHashFieldSet pk p)
          ∈ ((entitiesOf pk prevData).filter fun row =>
            ((A ++ U).map (pkv pk)).contains row.1).map (toKeyAndHashFieldSet pk) := by
      intro p hp hcont
      refine List.mem_map.mpr ⟨fromKeyAndHashFieldSet pk p,
        List.mem_filter.mpr ⟨?_, ?_⟩, rfl⟩
      · rw [entitiesOf_eq_map hhp]
        exact List.mem_map_of_mem _ hp
      · exact hcont
    have hmain := repaired_entities_perm pk prevData parsed (keyHashProj defs)
      ((A ++ U).map (pkv pk))
      (((entitiesOf pk prevData).filter fun row =>
        ((A ++ U).map (pkv pk)).contains row.1).map (toKeyAndHashFieldSet pk))
      (fun c _ => pkv_keyHashProj defs c heq)
      (fun c _ => rfl)
      hndpk hpk hwf hhash hndp hndc hsub hne
      hkeys' hfetched' hfetched_has'
    have hfc : 0 < (totalFailureOf (fetchDeltaRel pk
        (storeCurrentData pk st.tables parsed))).failures.length := by
      rw [hfailsEq, hAUcons]
      simp
    simp only [runCycleRel, runnerComputeDeltaRel]
    rw [if_neg hE]
    show (updatePreviousData pk (storeCurrentData pk st.tables parsed)
        (restorePreviousHashesForFailures pk (getKeyAndHashFieldSets defs parsed)
          (fetchPreviousDataRel (storeCurrentData pk st.tables parsed)
            (some (buildLimitToArray (getKeyAndHashFieldSets defs parsed)
              (totalFailureOf (fetchDeltaRel pk
                (storeCurrentData pk st.tables parsed))))))
          (totalFailureOf (fetchDeltaRel pk (storeCurrentData pk st.tables parsed)))).1
        (restorePreviousHashesForFailures pk (getKeyAndHashFieldSets defs parsed)
          (fetchPreviousDataRel (storeCurrentData pk st.tables parsed)
            (some (buildLimitToArray (getKeyAndHashFieldSets defs parsed)
              (totalFailureOf (fetchDeltaRel pk
                (storeCurrentData pk st.tables parsed))))))
          (totalFailureOf (fetchDeltaRel pk
            (storeCurrentData pk st.tables parsed)))).2).previous.Perm
      (entitiesOf pk prevData)
    rw [hfetchEq, hrepairEq]
    rw [updatePreviousData, if_pos (⟨List.length_pos.mpr hmain.2, hfc⟩ : _ ∧ _)]
    exact hmain.1

/-- **C2, counterexample.**  Baseline stability fails as claimed when a
DELETE push fails: pre-cycle baseline `{id:1, hash:"h1"}`, current input
empty — the delta is one removal, the push reports it failed, yet repair
cannot restore a record that is absent from the current input, so the
committed baseline is empty instead of the pre-cycle baseline. -/
theorem baseline_stability_cex :
    (runCycleRel [⟨"id", false, true, none⟩] ⟨⟨[], [("1", "h1")]⟩, 0⟩ []
        (totalFailureOf (fetchDeltaRel (getPrimaryKey [⟨"id", false, true, none⟩])
          (storeCurrentData (getPrimaryKey [⟨"id", false, true, none⟩])
            ⟨[], [("1", "h1")]⟩ [])))).2.1 = true
    ∧ (runCycleRel [⟨"id", false, true, none⟩] ⟨⟨[], [("1", "h1")]⟩, 0⟩ []
        (totalFailureOf (fetchDeltaRel (getPrimaryKey [⟨"id", false, true, none⟩])
          (storeCurrentData (getPrimaryKey [⟨"id", false, true, none⟩])
            ⟨[], [("1", "h1")]⟩ [])))).1.tables.previous = []
    ∧ entitiesOf (getPrimaryKey [⟨"id", false, true, none⟩])
        [⟨[[("id", JSV.str "1")]], none, some "h1"⟩] = [("1", "h1")]
    ∧ ([] : List RelRow) ≠ [("1", "h1")] := by
  refine ⟨by decide, by decide, by decide, by decide⟩

/-- **C2, witness.**  A concrete no-delete total-failure cycle: baseline
`{id:1, "h1"}`, current `{id:1, "h2"}` — the update push fails, repair
restores `"h1"`, and the committed baseline equals the pre-cycle
baseline. -/
theorem baseline_stability_witness :
    ((runCycleRel [⟨"id", false, true, none⟩] ⟨⟨[], [("1", "h1")]⟩, 0⟩
        [⟨[[("id", JSV.str "1")]], none, some "h2"⟩]
        (totalFailureOf (fetchDeltaRel (getPrimaryKey [⟨"id", false, true, none⟩])
          (storeCurrentData (getPrimaryKey [⟨"id", false, true, none⟩])
            (⟨⟨[], [("1", "h1")]⟩, 0⟩ : RelState).tables
            [⟨[[("id", JSV.str "1")]], none, some "h2"⟩])))).1.tables.previous).Perm
      (entitiesOf (getPrimaryKey [⟨"id", false, true, none⟩])
        [⟨[[("id", JSV.str "1")]], none, some "h1"⟩]) :=
  baseline_stability [⟨"id", false, true, none⟩] ⟨⟨[], [("1", "h1")]⟩, 0⟩
    [⟨[[("id", JSV.str "1")]], none, some "h1"⟩]
    [⟨[[("id", JSV.str "1")]], none, some "h2"⟩]
    (by decide) (by decide) (by decide) (by decide) (by decide) (by decide)
    (by decide) (by decide) (by decide) (List.cons_ne_nil _ _)

end Integ
